import Mathlib

/-!
# lromor/transforms: the discrete and the fast Fourier transform

A shallow embedding of `src/fourier-transform/{common.h, dft.cc, fft.cc}`.

* `size_t` values are natural numbers, reduced `% 2 ^ 64` where the source can wrap.
* `float`/`double` values are elements of a field `F`; the `<cmath>` functions the
  source calls are passed in as a `CMath F`.  `CMath.exact` is the model over the
  real numbers ("exact arithmetic"), where `static_cast<float>` is the identity.
* Single precision is the second model of dft.cc (`Single.DiscreteFourierTransform`):
  a `float` or `double` is the rational number it denotes and every operation rounds
  (`binary32`, `binary64`); `CMath.single` is its `<cmath>`.
* `std::complex<float>` is the two-field structure `complex F` with the
  operators of `<complex>`.
* A failed `assert` and undefined behaviour both end the call: the functions return
  `Except Error _`.
* The transforms see a buffer as the array it holds (`UniqueBuffer`).  Where ownership
  matters (move, `Copy()`, the destructor) `data_` is an address into a `FreeStore`
  (`UniqueBufferObject`), and `UniqueBufferObject.view` gives the array behind it.
-/

namespace Transforms

/-! ## Failures -/

/-- The ways a call ends without a result. -/
inductive Error
  /-- The assertion `(num_samples & (num_samples - 1)) == 0` of fft.cc:35 failed. -/
  | InvalidSize
  /-- The assertion `i < Size()` of common.h:78 failed. -/
  | OutOfRange
  /-- The C++ standard gives the operation no meaning (shift count not below the
  width of the type, conversion of a non-finite `double` to `unsigned`, access
  outside the allocated storage). -/
  | Undefined
  /-- The segment loop `for (k = 0; k < num_samples; k += m)` has not left after
  `num_samples` rounds. -/
  | OutOfFuel
  deriving DecidableEq, Repr

/-- The macro `assert(c)`: continue when `c` holds, stop with `e` otherwise. -/
def assert (c : Bool) (e : Error) : Except Error Unit :=
  if c then .ok () else .error e

/-! ## common.h: `UniqueBuffer` -/

/-- The class `UniqueBuffer<T>` (common.h:15-85): `data_` is the pointer to the storage
(`none` is `nullptr`, `some l` points to an array holding `l`), `size_` the element
count. -/
structure UniqueBuffer (T : Type) where
  data_ : Option (List T)
  size_ : Nat
  deriving DecidableEq, Repr

namespace UniqueBuffer

variable {T : Type}

/-- The constructor `UniqueBuffer(size_t size)` (common.h:45): `new T[size]`, each
element default-constructed. -/
def ofSize [Inhabited T] (size : Nat) : UniqueBuffer T :=
  ⟨some (List.replicate size default), size⟩

/-- The constructor `UniqueBuffer(std::initializer_list<T> value)` (common.h:58-62). -/
def ofList (value : List T) : UniqueBuffer T :=
  ⟨some value, value.length⟩

/-- The method `Size()` (common.h:73). -/
def Size (b : UniqueBuffer T) : Nat := b.size_

/-- Reading through `operator[]` (common.h:77-80): `assert(i < Size())`, then
`data_[i]`. -/
def get (b : UniqueBuffer T) (i : Nat) : Except Error T := do
  assert (decide (i < b.Size)) .OutOfRange
  match b.data_ with
  | none => .error .Undefined
  | some l =>
    match l[i]? with
    | some v => .ok v
    | none => .error .Undefined

/-- Writing through the reference `operator[]` returns (common.h:77-80):
`assert(i < Size())`, then `data_[i] = v`. -/
def set (b : UniqueBuffer T) (i : Nat) (v : T) : Except Error (UniqueBuffer T) := do
  assert (decide (i < b.Size)) .OutOfRange
  match b.data_ with
  | none => .error .Undefined
  | some l =>
    if i < l.length then .ok ⟨some (l.set i v), b.size_⟩ else .error .Undefined

end UniqueBuffer

/-! ## common.h: the storage behind `data_` -/

/-- The free store: the arrays obtained from `new T[n]`, by address.  An entry `none` is
an array that `delete[]` has released. -/
structure FreeStore (T : Type) where
  arrays : List (Option (List T))
  deriving DecidableEq, Repr

namespace FreeStore

variable {T : Type}

/-- The expression `new T[n]` followed by the initialisation of the elements: a fresh
address, holding `value`. -/
def alloc (h : FreeStore T) (value : List T) : Nat × FreeStore T :=
  (h.arrays.length, ⟨h.arrays ++ [some value]⟩)

/-- The array at address `a`, if it is live. -/
def load (h : FreeStore T) (a : Nat) : Option (List T) :=
  (h.arrays[a]?).join

/-- Overwriting the array at address `a`. -/
def store (h : FreeStore T) (a : Nat) (value : List T) : FreeStore T :=
  ⟨h.arrays.set a (some value)⟩

/-- The expression `delete[] p` for `p` the address `a`: releasing an array that is not
live (a second `delete[]`) is undefined. -/
def release (h : FreeStore T) (a : Nat) : Except Error (FreeStore T) :=
  match h.load a with
  | some _ => .ok ⟨h.arrays.set a none⟩
  | none => .error .Undefined

end FreeStore

/-- The data members of a `UniqueBuffer<T>` object (common.h:82-83) with `data_` as the
address it holds: `none` is `nullptr`. -/
structure UniqueBufferObject where
  data_ : Option Nat
  size_ : Nat
  deriving DecidableEq, Repr

namespace UniqueBufferObject

variable {T : Type}

/-- The buffer an object denotes in a free store: its storage read through `data_`. -/
def view (h : FreeStore T) (b : UniqueBufferObject) : UniqueBuffer T :=
  ⟨b.data_.bind h.load, b.size_⟩

/-- The method `Size()` (common.h:73). -/
def Size (b : UniqueBufferObject) : Nat := b.size_

/-- The constructor `UniqueBuffer(std::initializer_list<T> value)` (common.h:58-62). -/
def ofList (h : FreeStore T) (value : List T) : UniqueBufferObject × FreeStore T :=
  let (a, h) := h.alloc value
  (⟨some a, value.length⟩, h)

/-- The move constructor (common.h:32-36): the new object takes `other.data_` and
`other.size_`; `other` is left with `nullptr` and size 0.  Returns the new object and
`other` afterwards. -/
def moveConstruct (other : UniqueBufferObject) : UniqueBufferObject × UniqueBufferObject :=
  (⟨other.data_, other.size_⟩, ⟨none, 0⟩)

/-- The move assignment `operator=(UniqueBuffer&&) = default` (common.h:37): each member
is move-assigned; for the pointer `data_` and the integer `size_` that is a copy, and
`other` keeps its members.  Returns the assigned object and `other` afterwards. -/
def moveAssign (_self other : UniqueBufferObject) : UniqueBufferObject × UniqueBufferObject :=
  (⟨other.data_, other.size_⟩, other)

/-- The destructor (common.h:52-54) with the default deleter: `delete[] data_`, which
does nothing for `nullptr`. -/
def destroy (h : FreeStore T) (b : UniqueBufferObject) : Except Error (FreeStore T) :=
  match b.data_ with
  | none => .ok h
  | some a => h.release a

/-- Reading through `operator[]` (common.h:77-80). -/
def get (h : FreeStore T) (b : UniqueBufferObject) (i : Nat) : Except Error T :=
  (b.view h).get i

/-- Writing through the reference that `operator[]` returns (common.h:77-80). -/
def set (h : FreeStore T) (b : UniqueBufferObject) (i : Nat) (v : T) :
    Except Error (FreeStore T) := do
  let written ← (b.view h).set i v
  match b.data_, written.data_ with
  | some a, some l => .ok (h.store a l)
  | _, _ => .error .Undefined

/-- The method `Copy()` (common.h:67-71): `std::make_unique<T[]>(size_)` gives a fresh
array of `size_` value-initialised elements, `std::copy(begin(), end(), b.data_)`
overwrites them with the `size_` elements of this buffer. -/
def Copy [Inhabited T] (h : FreeStore T) (self : UniqueBufferObject) :
    Except Error (UniqueBufferObject × FreeStore T) := do
  let (a, h) := h.alloc (List.replicate self.size_ default)
  let elements ←
    if self.size_ = 0 then .ok []
    else match self.data_.bind h.load with
      | some l => if self.size_ ≤ l.length then .ok (l.take self.size_) else .error .Undefined
      | none => .error .Undefined
  .ok (⟨some a, self.size_⟩, h.store a elements)

/-- The object is either moved-from (`nullptr`, size 0) or holds the address of a live
array of `size_` elements. -/
def valid (h : FreeStore T) (b : UniqueBufferObject) : Bool :=
  match b.data_ with
  | none => b.size_ == 0
  | some a =>
    match h.load a with
    | some l => l.length == b.size_
    | none => false

end UniqueBufferObject

/-! ## `std::complex<T>` and `<cmath>` -/

/-- The class template `std::complex<T>`: a real and an imaginary part. -/
structure complex (T : Type) where
  re : T
  im : T
  deriving DecidableEq, Repr

/-- The functions and the constant of `<cmath>` that the transforms use. -/
structure CMath (F : Type) where
  M_PI : F
  cos : F → F
  sin : F → F

/-- Exact arithmetic: the real numbers with the real cosine and sine. -/
noncomputable def CMath.exact : CMath ℝ := ⟨Real.pi, Real.cos, Real.sin⟩

namespace complex

variable {T : Type} [CommRing T]

/-- The default constructor `complex()`: `(0, 0)`. -/
instance : Inhabited (complex T) := ⟨⟨0, 0⟩⟩

/-- The converting constructor `complex(re)`: `(re, 0)`. -/
def ofReal (x : T) : complex T := ⟨x, 0⟩

instance : Zero (complex T) := ⟨⟨0, 0⟩⟩

/-- The value of `std::complex<float> w = 1`. -/
instance : One (complex T) := ⟨⟨1, 0⟩⟩

/-- The operator `complex + complex`, also used by `+=`. -/
instance : Add (complex T) := ⟨fun a b => ⟨a.re + b.re, a.im + b.im⟩⟩

/-- The operator `complex - complex`. -/
instance : Sub (complex T) := ⟨fun a b => ⟨a.re - b.re, a.im - b.im⟩⟩

instance : Neg (complex T) := ⟨fun a => ⟨-a.re, -a.im⟩⟩

/-- The operator `complex * complex`. -/
instance : Mul (complex T) :=
  ⟨fun a b => ⟨a.re * b.re - a.im * b.im, a.re * b.im + a.im * b.re⟩⟩

/-- The operator `T - complex<T>`: the scalar is the minuend's real part. -/
def rsub (lhs : T) (rhs : complex T) : complex T := ⟨lhs - rhs.re, -rhs.im⟩

/-- The operator `T * complex<T>`: both parts are scaled. -/
def smul (lhs : T) (rhs : complex T) : complex T := ⟨lhs * rhs.re, lhs * rhs.im⟩

/-- The function `std::polar(rho, theta)`. -/
def polar (M : CMath T) (rho theta : T) : complex T :=
  ⟨rho * M.cos theta, rho * M.sin theta⟩

/-- The operators of `std::complex` obey the laws of a commutative ring when the
scalars do. -/
instance : CommRing (complex T) where
  add := (· + ·)
  zero := 0
  neg := Neg.neg
  sub := (· - ·)
  mul := (· * ·)
  one := 1
  nsmul := nsmulRec
  zsmul := zsmulRec
  add_assoc := by
    rintro ⟨a, b⟩ ⟨c, d⟩ ⟨e, f⟩
    show mk (a + c + e) (b + d + f) = mk (a + (c + e)) (b + (d + f))
    congr 1 <;> ring
  zero_add := by
    rintro ⟨a, b⟩
    show mk (0 + a) (0 + b) = mk a b
    congr 1 <;> ring
  add_zero := by
    rintro ⟨a, b⟩
    show mk (a + 0) (b + 0) = mk a b
    congr 1 <;> ring
  add_comm := by
    rintro ⟨a, b⟩ ⟨c, d⟩
    show mk (a + c) (b + d) = mk (c + a) (d + b)
    congr 1 <;> ring
  neg_add_cancel := by
    rintro ⟨a, b⟩
    show mk (-a + a) (-b + b) = mk 0 0
    congr 1 <;> ring
  sub_eq_add_neg := by
    rintro ⟨a, b⟩ ⟨c, d⟩
    show mk (a - c) (b - d) = mk (a + -c) (b + -d)
    congr 1 <;> ring
  mul_assoc := by
    rintro ⟨a, b⟩ ⟨c, d⟩ ⟨e, f⟩
    show mk ((a * c - b * d) * e - (a * d + b * c) * f)
        ((a * c - b * d) * f + (a * d + b * c) * e) =
      mk (a * (c * e - d * f) - b * (c * f + d * e))
        (a * (c * f + d * e) + b * (c * e - d * f))
    congr 1 <;> ring
  one_mul := by
    rintro ⟨a, b⟩
    show mk (1 * a - 0 * b) (1 * b + 0 * a) = mk a b
    congr 1 <;> ring
  mul_one := by
    rintro ⟨a, b⟩
    show mk (a * 1 - b * 0) (a * 0 + b * 1) = mk a b
    congr 1 <;> ring
  mul_comm := by
    rintro ⟨a, b⟩ ⟨c, d⟩
    show mk (a * c - b * d) (a * d + b * c) = mk (c * a - d * b) (c * b + d * a)
    congr 1 <;> ring
  left_distrib := by
    rintro ⟨a, b⟩ ⟨c, d⟩ ⟨e, f⟩
    show mk (a * (c + e) - b * (d + f)) (a * (d + f) + b * (c + e)) =
      mk (a * c - b * d + (a * e - b * f)) (a * d + b * c + (a * f + b * e))
    congr 1 <;> ring
  right_distrib := by
    rintro ⟨a, b⟩ ⟨c, d⟩ ⟨e, f⟩
    show mk ((a + c) * e - (b + d) * f) ((a + c) * f + (b + d) * e) =
      mk (a * e - b * f + (c * e - d * f)) (a * f + b * e + (c * f + d * e))
    congr 1 <;> ring
  zero_mul := by
    rintro ⟨a, b⟩
    show mk (0 * a - 0 * b) (0 * b + 0 * a) = mk 0 0
    congr 1 <;> ring
  mul_zero := by
    rintro ⟨a, b⟩
    show mk (a * 0 - b * 0) (a * 0 + b * 0) = mk 0 0
    congr 1 <;> ring

end complex

/-! ## dft.cc / fft.cc: `DiscreteFourierTransform` -/

section Transforms

variable {F : Type} [Field F]

/-- The summand of dft.cc:19 (the same line is fft.cc:102):
`x[n] * (cos(float(M_PI * 2 * k * n / num_samples)) - complex(0, sin(float(...))))`. -/
def dftTerm (M : CMath F) (num_samples k n : Nat) (xn : F) : complex F :=
  complex.smul xn
    (complex.rsub (M.cos (M.M_PI * 2 * (k : F) * (n : F) / (num_samples : F)))
      (⟨0, M.sin (M.M_PI * 2 * (k : F) * (n : F) / (num_samples : F))⟩ : complex F))

/-- The body of the inner loop of `DiscreteFourierTransform`: `output[k] += x[n] * ...`. -/
def dftStep (M : CMath F) (x : UniqueBuffer F) (k : Nat)
    (output : UniqueBuffer (complex F)) (n : Nat) : Except Error (UniqueBuffer (complex F)) := do
  let xn ← x.get n
  let acc ← output.get k
  output.set k (acc + dftTerm M x.Size k n xn)

/-- The function `DiscreteFourierTransform` (dft.cc:10-23, fft.cc:93-106). -/
def DiscreteFourierTransform (M : CMath F) (x : UniqueBuffer F) :
    Except Error (UniqueBuffer (complex F)) :=
  let num_samples := x.Size
  (List.range num_samples).foldlM
    (fun output k => (List.range num_samples).foldlM (dftStep M x k) output)
    (UniqueBuffer.ofSize num_samples)

/-! ## fft.cc: `reverse_bits` and `FastFourierTransform` -/

/-- The loop `while (value >>= 1) ++log2;` of `uilog2` (fft.cc:17). -/
def uilog2_loop (value log2 : Nat) : Nat :=
  if value >>> 1 ≠ 0 then uilog2_loop (value >>> 1) (log2 + 1) else log2
termination_by value
decreasing_by
  rename_i h
  rw [Nat.shiftRight_eq_div_pow] at h ⊢
  omega

/-- The function `uilog2` (fft.cc:15-19): `log2` starts at 1 when `value & (value - 1)`
is not zero and at 0 otherwise, and counts the right shifts that leave `value`
non-zero. -/
def uilog2 (value : Nat) : Nat :=
  uilog2_loop value (if value &&& ((value + 2 ^ 64 - 1) % 2 ^ 64) ≠ 0 then 1 else 0)

/-- The operator `n >> c` on a `size_t`; a count of 64 or more is undefined. -/
def shr_size_t (n c : Nat) : Except Error Nat :=
  if c < 64 then .ok (n >>> c) else .error .Undefined

/-- The operator `n << c` on a `size_t`; a count of 64 or more is undefined. -/
def shl_size_t (n c : Nat) : Except Error Nat :=
  if c < 64 then .ok ((n <<< c) % 2 ^ 64) else .error .Undefined

/-- The function `reverse_bits<size_t>` (fft.cc:23-31), for a width that is not
negative: `output |= ((n >> pos) & 1) << i` for `i = 0, ..., width - 1` with
`pos = width - i - 1`. -/
def reverse_bits (n width : Nat) : Except Error Nat :=
  (List.range width).foldlM
    (fun output i => do
      let pos := width - i - 1
      let shifted ← shr_size_t n pos
      let bit ← shl_size_t (shifted &&& 1) i
      pure (output ||| bit))
    0

/-- The expression `log2(num_samples)` stored in an `unsigned` (fft.cc:38): the integer
part of the binary logarithm.  `log2(0)` is minus infinity, which has no conversion to
`unsigned`. -/
def log2_unsigned (num_samples : Nat) : Except Error Nat :=
  if num_samples = 0 then .error .Undefined else .ok (Nat.log2 num_samples)

/-- The expression `1 << c` stored in a `size_t` (fft.cc:63): the literal `1` is a 32-bit
`int`, so the shift wraps to the range of `int` and a count of 32 or more is undefined;
the `int` is then converted to `size_t`. -/
def shl_int_one (c : Nat) : Except Error Nat :=
  if c < 32 then
    let wrapped : Int := if 2 ^ c % 2 ^ 32 < 2 ^ 31 then (2 ^ c % 2 ^ 32 : Nat)
      else ((2 ^ c % 2 ^ 32 : Nat) : Int) - 2 ^ 32
    .ok (wrapped % 2 ^ 64).toNat
  else .error .Undefined

/-- The body of the innermost loop (fft.cc:73-87): one butterfly on `output[k + j]` and
`output[k + j + m / 2]`, then `w = w * w_m`. -/
def butterfly (w_m : complex F) (m k : Nat)
    (state : complex F × UniqueBuffer (complex F)) (j : Nat) :
    Except Error (complex F × UniqueBuffer (complex F)) := do
  let w := state.1
  let output := state.2
  let hi ← output.get ((k + j + m / 2) % 2 ^ 64)
  let t := w * hi
  let u ← output.get ((k + j) % 2 ^ 64)
  let output ← output.set ((k + j) % 2 ^ 64) (u + t)
  let output ← output.set ((k + j + m / 2) % 2 ^ 64) (u - t)
  pure (w * w_m, output)

/-- The body of the segment loop (fft.cc:72-87): `w = 1`, then the butterflies
`j = 0, ..., m / 2 - 1` of the segment starting at `k`. -/
def segment (w_m : complex F) (m k : Nat) (output : UniqueBuffer (complex F)) :
    Except Error (UniqueBuffer (complex F)) := do
  let state ← (List.range (m / 2)).foldlM (butterfly w_m m k) (1, output)
  pure state.2

/-- The loop `for (size_t k = 0; k < num_samples; k += m)` (fft.cc:71-88), entered at `k`. -/
def segments (w_m : complex F) (m num_samples : Nat) :
    Nat → Nat → UniqueBuffer (complex F) → Except Error (UniqueBuffer (complex F))
  | 0, k, output => if k < num_samples then .error .OutOfFuel else .ok output
  | fuel + 1, k, output =>
    if k < num_samples then do
      let output ← segment w_m m k output
      segments w_m m num_samples fuel ((k + m) % 2 ^ 64) output
    else .ok output

/-- The body of the stage loop (fft.cc:56-89): `m = 1 << (s + 1)`,
`w_m = polar(1, - M_PI * 2 / m)`, then every segment. -/
def stage (M : CMath F) (num_samples : Nat) (output : UniqueBuffer (complex F)) (s : Nat) :
    Except Error (UniqueBuffer (complex F)) := do
  let m ← shl_int_one (s + 1)
  let w_m := complex.polar M 1 (-M.M_PI * 2 / (m : F))
  segments w_m m num_samples num_samples 0 output

/-- The body of the bit-reverse copy (fft.cc:45-48): `output[reverse_bits(i, log2)] = x[i]`. -/
def bitReverseStep (x : UniqueBuffer F) (log2_num_samples : Nat)
    (output : UniqueBuffer (complex F)) (i : Nat) : Except Error (UniqueBuffer (complex F)) := do
  let ri ← reverse_bits i log2_num_samples
  let xi ← x.get i
  output.set ri (complex.ofReal xi)

/-- The function `FastFourierTransform` (fft.cc:33-91). -/
def FastFourierTransform (M : CMath F) (x : UniqueBuffer F) :
    Except Error (UniqueBuffer (complex F)) := do
  let num_samples := x.Size
  assert (num_samples &&& ((num_samples + 2 ^ 64 - 1) % 2 ^ 64) == 0) .InvalidSize
  let log2_num_samples ← log2_unsigned num_samples
  let output ← (List.range x.Size).foldlM (bitReverseStep x log2_num_samples)
    (UniqueBuffer.ofSize num_samples)
  (List.range log2_num_samples).foldlM (stage M num_samples) output

end Transforms

/-! ## Single precision: `float`, `double` and the loop of dft.cc

A finite `float` or `double` is the rational number it denotes.  An operation of the
source is the exact operation followed by the rounding of its type (IEEE 754, to
nearest, a tie to the even significand).  The infinities are not modelled: a sum of `N`
terms of magnitude at most 1 stays far below the largest `float`. -/

/-- Rounding to the nearest integer, a tie to the even one. -/
def roundTiesToEven {K : Type} [LinearOrderedField K] [FloorRing K] (x : K) : ℤ :=
  if x - ⌊x⌋ < 1 / 2 then ⌊x⌋
  else if 1 / 2 < x - ⌊x⌋ then ⌊x⌋ + 1
  else if ⌊x⌋ % 2 = 0 then ⌊x⌋ else ⌊x⌋ + 1

/-- The value nearest to `x` in the binary format with `p` significand bits whose
normal numbers start at `2 ^ emin`: the significand of `x` is rounded at the last of
the `p` bits of its binade, below `2 ^ emin` at the spacing of the subnormal numbers. -/
def roundBinary {K : Type} [LinearOrderedField K] [FloorRing K] (p : Nat) (emin : ℤ)
    (x : K) : ℚ :=
  if x = 0 then 0
  else
    let e : ℤ := max (Int.log 2 |x|) emin
    (roundTiesToEven (x / (2 : K) ^ (e - (p - 1))) : ℚ) * (2 : ℚ) ^ (e - (p - 1))

/-- Rounding to `float`: 24 significand bits, normal numbers from `2 ^ (-126)`. -/
def binary32 {K : Type} [LinearOrderedField K] [FloorRing K] (x : K) : ℚ :=
  roundBinary 24 (-126) x

/-- Rounding to `double`: 53 significand bits, normal numbers from `2 ^ (-1022)`. -/
def binary64 {K : Type} [LinearOrderedField K] [FloorRing K] (x : K) : ℚ :=
  roundBinary 53 (-1022) x

/-- The `<cmath>` of the compiled program: `M_PI` is the `double` literal
`3.14159265358979323846` (`0x400921FB54442D18`), `std::cos(float)` and `std::sin(float)`
return the `float` nearest to the cosine and the sine. -/
noncomputable def CMath.single : CMath ℚ :=
  ⟨884279719003555 / 281474976710656,
    fun a => binary32 (Real.cos (a : ℝ)), fun a => binary32 (Real.sin (a : ℝ))⟩

namespace Single

/-- The argument `static_cast<float>(M_PI * 2 * k * n / num_samples)` of dft.cc:19:
the products and the quotient are taken in `double`, from left to right, `k`, `n` and
`num_samples` converted from `size_t`; the result is rounded to `float`. -/
def angle (M : CMath ℚ) (num_samples k n : Nat) : ℚ :=
  binary32 (binary64 (binary64 (binary64 (binary64 (M.M_PI * 2) * binary64 (k : ℚ)) *
    binary64 (n : ℚ)) / binary64 (num_samples : ℚ)))

/-- The operator `complex<float> += complex<float>`. -/
def add (a b : complex ℚ) : complex ℚ := ⟨binary32 (a.re + b.re), binary32 (a.im + b.im)⟩

/-- The operator `float - complex<float>`. -/
def rsub (lhs : ℚ) (rhs : complex ℚ) : complex ℚ := ⟨binary32 (lhs - rhs.re), -rhs.im⟩

/-- The operator `float * complex<float>`. -/
def smul (lhs : ℚ) (rhs : complex ℚ) : complex ℚ :=
  ⟨binary32 (lhs * rhs.re), binary32 (lhs * rhs.im)⟩

/-- The summand of dft.cc:19 in single precision. -/
def dftTerm (M : CMath ℚ) (num_samples k n : Nat) (xn : ℚ) : complex ℚ :=
  smul xn (rsub (M.cos (angle M num_samples k n)) ⟨0, M.sin (angle M num_samples k n)⟩)

/-- The body of the inner loop of dft.cc:19 in single precision. -/
def dftStep (M : CMath ℚ) (x : UniqueBuffer ℚ) (k : Nat)
    (output : UniqueBuffer (complex ℚ)) (n : Nat) : Except Error (UniqueBuffer (complex ℚ)) := do
  let xn ← x.get n
  let acc ← output.get k
  output.set k (add acc (dftTerm M x.Size k n xn))

/-- The function `DiscreteFourierTransform` (dft.cc:10-23) in single precision. -/
def DiscreteFourierTransform (M : CMath ℚ) (x : UniqueBuffer ℚ) :
    Except Error (UniqueBuffer (complex ℚ)) :=
  let num_samples := x.Size
  (List.range num_samples).foldlM
    (fun output k => (List.range num_samples).foldlM (dftStep M x k) output)
    (UniqueBuffer.ofSize num_samples)

end Single

/-! ## Definitions used to state the properties -/

/-- The list `[f 0, ..., f (n - 1)]`. -/
def tabulate {α : Type} (n : Nat) (f : Nat → α) : List α := (List.range n).map f

namespace complex

/-- The imaginary unit `(0, 1)`. -/
def I {T : Type} [CommRing T] : complex T := ⟨0, 1⟩

end complex

/-- The coefficient `X[k]` as the specification writes it:
`Σ_{n < N} x[n] · (cos(2π k n / N) − i · sin(2π k n / N))`. -/
def dftFormula {F : Type} [Field F] (M : CMath F) (x : List F) (k : Nat) : complex F :=
  ∑ n in Finset.range x.length, complex.ofReal (x.getD n 0) *
    (complex.ofReal (M.cos (M.M_PI * 2 * (k : F) * (n : F) / (x.length : F))) -
      complex.I * complex.ofReal (M.sin (M.M_PI * 2 * (k : F) * (n : F) / (x.length : F))))

/-- Bit reversal by recursion on the width. -/
def revBits : Nat → Nat → Nat
  | 0, _ => 0
  | w + 1, n => revBits w (n / 2) + n % 2 * 2 ^ w

/-- The twiddle factor `w_m = polar(1, - M_PI * 2 / m)` for `m = 2 ^ s`. -/
def twiddle {F : Type} [Field F] (M : CMath F) (s : Nat) : complex F :=
  complex.polar M 1 (-M.M_PI * 2 / ((2 ^ s : Nat) : F))

/-- The `j`-th coefficient of the `2 ^ s`-point transform, with base factor `W s`, of the
values that `g` holds at `base + revBits s 0, ..., base + revBits s (2 ^ s - 1)`. -/
def subDFT {R : Type} [CommRing R] (W : Nat → R) (g : Nat → R) (s base j : Nat) : R :=
  ∑ t in Finset.range (2 ^ s), g (base + revBits s t) * W s ^ (j * t)

/-- The unit impulse of length `N`: `x[0] = 1` and `x[n] = 0` for `n > 0`. -/
def impulse (N : Nat) : List ℝ := tabulate N (fun n => if n = 0 then 1 else 0)

/-- The constant signal of length `N` with every sample equal to `1`. -/
def constantOne (N : Nat) : List ℝ := List.replicate N 1

/-- The buffer after the butterfly pass over the segment starting at `k`: the first half
of the segment holds the sums, the second half the differences, every other slot is
kept. -/
def segmentList {F : Type} [Field F] (w_m : complex F) (m k : Nat) (l : List (complex F)) :
    List (complex F) :=
  tabulate l.length (fun i =>
    if k ≤ i ∧ i < k + m / 2 then l.getD i 0 + w_m ^ (i - k) * l.getD (i + m / 2) 0
    else if k + m / 2 ≤ i ∧ i < k + 2 * (m / 2) then
      l.getD (i - m / 2) 0 - w_m ^ (i - m / 2 - k) * l.getD i 0
    else l.getD i 0)

/-- The buffer `[1, 2, 3, 4]` over the rationals. -/
def sampleBuffer : List (complex ℚ) := [⟨1, 0⟩, ⟨2, 0⟩, ⟨3, 0⟩, ⟨4, 0⟩]

/-- The twiddle factor `-1` of stage 0. -/
def sampleTwiddle : complex ℚ := ⟨-1, 0⟩

/-- The accumulator `output[k]` of dft.cc:19 after the rounds `n = 0, ..., n' - 1` of the
inner loop, started from `init`. -/
def Single.accumulate (M : CMath ℚ) (x : List ℚ) (k n' : Nat) (init : complex ℚ) :
    complex ℚ :=
  (List.range n').foldl
    (fun acc n => Single.add acc (Single.dftTerm M x.length k n (x.getD n 0))) init

/-! ## Lists, buffers and the complex operators -/

open UniqueBuffer


theorem ok_bind {ε α β : Type} (a : α) (f : α → Except ε β) :
    (Except.ok a >>= f) = f a := rfl

theorem error_bind {ε α β : Type} (e : ε) (f : α → Except ε β) :
    (Except.error e >>= f) = Except.error e := rfl

theorem set_getD_self {α : Type} (d : α) {l : List α} {k : Nat} (h : k < l.length) :
    l.set k (l.getD k d) = l := by
  rw [List.getD_eq_getElem?_getD, List.getElem?_eq_getElem h]
  apply List.ext_getElem (by simp)
  intro i h1 h2
  rw [List.getElem_set]
  split
  · next h3 => subst h3; rfl
  · rfl

theorem foldlM_range_succ {ε σ : Type} (f : σ → Nat → Except ε σ) (b : σ) (n : Nat) :
    (List.range (n + 1)).foldlM f b = ((List.range n).foldlM f b >>= fun s => f s n) := by
  rw [List.range_succ, List.foldlM_append]
  congr 1
  funext s
  simp [List.foldlM_cons]

theorem getD_set_self {α : Type} (d : α) {l : List α} {k : Nat} (h : k < l.length) (v : α) :
    (l.set k v).getD k d = v := by
  rw [List.getD_eq_getElem?_getD, List.getElem?_set]
  simp [h]

theorem getD_set_ne {α : Type} (d : α) (l : List α) {k i : Nat} (h : k ≠ i) (v : α) :
    (l.set k v).getD i d = l.getD i d := by
  rw [List.getD_eq_getElem?_getD, List.getD_eq_getElem?_getD, List.getElem?_set]
  simp [h]

theorem length_tabulate {α : Type} (n : Nat) (f : Nat → α) : (tabulate n f).length = n := by
  simp [tabulate]

theorem getElem?_tabulate {α : Type} (n : Nat) (f : Nat → α) (i : Nat) :
    (tabulate n f)[i]? = if i < n then some (f i) else none := by
  unfold tabulate
  rw [List.getElem?_map]
  by_cases h : i < n
  · rw [List.getElem?_range h, if_pos h]; rfl
  · rw [List.getElem?_eq_none (by simpa using h), if_neg h]; rfl

theorem getD_tabulate {α : Type} (d : α) (n : Nat) (f : Nat → α) (i : Nat) :
    (tabulate n f).getD i d = if i < n then f i else d := by
  rw [List.getD_eq_getElem?_getD, getElem?_tabulate]
  by_cases h : i < n <;> simp [h]

theorem tabulate_congr {α : Type} {n : Nat} {f g : Nat → α} (h : ∀ i, i < n → f i = g i) :
    tabulate n f = tabulate n g := by
  apply List.map_congr_left
  intro i hi
  exact h i (List.mem_range.mp hi)

theorem set_tabulate {α : Type} (n : Nat) (f : Nat → α) (k : Nat) (v : α) :
    (tabulate n f).set k v = tabulate n (Function.update f k v) := by
  apply List.ext_getElem?
  intro i
  rw [List.getElem?_set, getElem?_tabulate, getElem?_tabulate, length_tabulate]
  by_cases h : k = i
  · subst h; simp
  · simp [h, Function.update_noteq (Ne.symm h)]

theorem eq_tabulate {α : Type} (d : α) (l : List α) :
    l = tabulate l.length (fun i => l.getD i d) := by
  apply List.ext_getElem?
  intro i
  rw [getElem?_tabulate]
  by_cases h : i < l.length
  · simp [h, List.getD_eq_getElem?_getD, List.getElem?_eq_getElem h]
  · simp [h]; omega

namespace UniqueBuffer
variable {T : Type}

theorem get_ofList (d : T) (l : List T) (i : Nat) :
    (ofList l).get i = if i < l.length then .ok (l.getD i d) else .error .OutOfRange := by
  unfold get assert
  by_cases h : i < l.length
  · simp [ofList, Size, h, bind, Except.bind, List.getD_eq_getElem?_getD]
  · simp [ofList, Size, h, bind, Except.bind]

theorem set_ofList (l : List T) (i : Nat) (v : T) :
    (ofList l).set i v =
      if i < l.length then .ok (ofList (l.set i v)) else .error .OutOfRange := by
  unfold set assert
  by_cases h : i < l.length
  · simp [ofList, Size, h, bind, Except.bind]
  · simp [ofList, Size, h, bind, Except.bind]

theorem ofSize_eq [Inhabited T] (n : Nat) :
    (ofSize n : UniqueBuffer T) = ofList (List.replicate n default) := by
  simp [ofSize, ofList]

theorem Size_ofList (l : List T) : (ofList l).Size = l.length := rfl

theorem get_ofList_lt (d : T) {l : List T} {i : Nat} (h : i < l.length) :
    (ofList l).get i = .ok (l.getD i d) := by
  rw [get_ofList d, if_pos h]

theorem set_ofList_lt {l : List T} {i : Nat} (h : i < l.length) (v : T) :
    (ofList l).set i v = .ok (ofList (l.set i v)) := by
  rw [set_ofList, if_pos h]

end UniqueBuffer

namespace complex
variable {T : Type} [CommRing T]
omit [CommRing T] in
theorem ext_iff' {a b : complex T} : a = b ↔ a.re = b.re ∧ a.im = b.im := by
  cases a; cases b; simp

@[simp] theorem add_re (a b : complex T) : (a + b).re = a.re + b.re := rfl
@[simp] theorem add_im (a b : complex T) : (a + b).im = a.im + b.im := rfl
@[simp] theorem sub_re (a b : complex T) : (a - b).re = a.re - b.re := rfl
@[simp] theorem sub_im (a b : complex T) : (a - b).im = a.im - b.im := rfl
@[simp] theorem neg_re (a : complex T) : (-a).re = -a.re := rfl
@[simp] theorem neg_im (a : complex T) : (-a).im = -a.im := rfl
@[simp] theorem mul_re (a b : complex T) : (a * b).re = a.re * b.re - a.im * b.im := rfl
@[simp] theorem mul_im (a b : complex T) : (a * b).im = a.re * b.im + a.im * b.re := rfl
@[simp] theorem zero_re : (0 : complex T).re = 0 := rfl
@[simp] theorem zero_im : (0 : complex T).im = 0 := rfl
@[simp] theorem one_re : (1 : complex T).re = 1 := rfl
@[simp] theorem one_im : (1 : complex T).im = 0 := rfl
@[simp] theorem ofReal_re (x : T) : (ofReal x).re = x := rfl
@[simp] theorem ofReal_im (x : T) : (ofReal x).im = 0 := rfl
@[simp] theorem I_re : (I : complex T).re = 0 := rfl
@[simp] theorem I_im : (I : complex T).im = 1 := rfl
theorem default_eq_zero : (default : complex T) = 0 := rfl
end complex

/-! ## The loops of `DiscreteFourierTransform` -/

section
variable {F : Type} [Field F]

theorem dftTerm_eq (M : CMath F) (N k n : Nat) (xn : F) :
    dftTerm M N k n xn = complex.ofReal xn *
      (complex.ofReal (M.cos (M.M_PI * 2 * (k : F) * (n : F) / (N : F))) -
        complex.I * complex.ofReal (M.sin (M.M_PI * 2 * (k : F) * (n : F) / (N : F)))) := by
  rw [complex.ext_iff']
  constructor <;> simp [dftTerm, complex.smul, complex.rsub]

theorem dft_inner (M : CMath F) (x : List F) (k : Nat) (out : List (complex F))
    (hk : k < out.length) (n' : Nat) (hn : n' ≤ x.length) :
    (List.range n').foldlM (dftStep M (ofList x) k) (ofList out) =
      .ok (ofList (out.set k (out.getD k 0 +
        ∑ n in Finset.range n', dftTerm M x.length k n (x.getD n 0)))) := by
  induction n' with
  | zero =>
    rw [List.range_zero, List.foldlM_nil, Finset.sum_range_zero, add_zero, set_getD_self 0 hk]
    rfl
  | succ n' ih =>
    have hn' : n' < x.length := hn
    rw [foldlM_range_succ, ih (Nat.le_of_lt hn'), ok_bind]
    unfold dftStep
    rw [get_ofList_lt 0 hn', ok_bind, get_ofList_lt 0 (by rw [List.length_set]; exact hk),
      ok_bind, set_ofList_lt (by rw [List.length_set]; exact hk),
      getD_set_self 0 hk, List.set_set, Finset.sum_range_succ, add_assoc, Size_ofList]

theorem dft_outer (M : CMath F) (x : List F) (k' : Nat) (hk : k' ≤ x.length) :
    (List.range k').foldlM
        (fun output k => (List.range x.length).foldlM (dftStep M (ofList x) k) output)
        (ofSize x.length) =
      .ok (ofList (tabulate x.length (fun k =>
        if k < k' then ∑ n in Finset.range x.length, dftTerm M x.length k n (x.getD n 0)
        else 0))) := by
  induction k' with
  | zero =>
    rw [List.range_zero, List.foldlM_nil, ofSize_eq]
    simp [tabulate, pure, Except.pure, complex.default_eq_zero]
  | succ k' ih =>
    have hk' : k' < x.length := hk
    rw [foldlM_range_succ, ih (Nat.le_of_lt hk'), ok_bind,
      dft_inner M x k' _ (by rw [length_tabulate]; exact hk') _ (le_refl _),
      getD_tabulate, if_pos hk', if_neg (lt_irrefl _), zero_add, set_tabulate]
    congr 2
    apply tabulate_congr
    intro i _
    by_cases h : i = k'
    · subst h; simp
    · have : i < k' + 1 ↔ i < k' := by omega
      simp [Function.update_noteq h, this]

/-- The closed form of `DiscreteFourierTransform`. -/
theorem dft_ofList (M : CMath F) (x : List F) :
    DiscreteFourierTransform M (ofList x) =
      .ok (ofList (tabulate x.length (dftFormula M x))) := by
  unfold DiscreteFourierTransform
  rw [Size_ofList]
  simp only []
  rw [dft_outer M x x.length (le_refl _)]
  congr 2
  apply tabulate_congr
  intro i hi
  rw [if_pos hi]
  unfold dftFormula
  apply Finset.sum_congr rfl
  intro n _
  rw [dftTerm_eq]
end

/-! ## `reverse_bits` -/

theorem revBits_lt (w n : Nat) : revBits w n < 2 ^ w := by
  induction w generalizing n with
  | zero => simp [revBits]
  | succ w ih =>
    have h1 := ih (n / 2)
    have h2 : n % 2 < 2 := Nat.mod_lt _ (by norm_num)
    have h3 : n % 2 * 2 ^ w ≤ 1 * 2 ^ w := Nat.mul_le_mul_right _ (by omega)
    rw [revBits, pow_succ]
    omega

theorem foldlM_congr_mem {ε σ α : Type} (f g : σ → α → Except ε σ) (l : List α)
    (h : ∀ a, a ∈ l → ∀ s, f s a = g s a) (b : σ) :
    l.foldlM f b = l.foldlM g b := by
  induction l generalizing b with
  | nil => rfl
  | cons a l ih =>
    rw [List.foldlM_cons, List.foldlM_cons, h a (List.mem_cons_self _ _)]
    congr 1
    funext s
    exact ih (fun a' ha' => h a' (List.mem_cons_of_mem _ ha')) s

/-- For a width of at most 64 the loop of `reverse_bits` computes `revBits`. -/
theorem reverse_bits_eq (w : Nat) (hw : w ≤ 64) (n : Nat) :
    reverse_bits n w = .ok (revBits w n) := by
  induction w generalizing n with
  | zero => rfl
  | succ w ih =>
    unfold reverse_bits
    rw [foldlM_range_succ]
    have h1 : (List.range w).foldlM
        (fun output i => do
          let pos := w + 1 - i - 1
          let shifted ← shr_size_t n pos
          let bit ← shl_size_t (shifted &&& 1) i
          pure (output ||| bit)) 0 = reverse_bits (n / 2) w := by
      unfold reverse_bits
      apply foldlM_congr_mem
      intro i hi s
      have hi' : i < w := List.mem_range.mp hi
      have e : w + 1 - i - 1 = (w - i - 1) + 1 := by omega
      simp only [shr_size_t, e]
      rw [if_pos (by omega), if_pos (by omega)]
      rw [Nat.shiftRight_succ_inside]
    rw [h1, ih (by omega), ok_bind]
    have e1 : w + 1 - w - 1 = 0 := by omega
    simp only [shr_size_t, shl_size_t, e1]
    have hw64 : w < 64 := by omega
    simp only [ok_bind, if_pos hw64, pure, Except.pure, Nat.lt_add_one, Nat.zero_lt_succ,
      if_true]
    congr 1
    have hb : n % 2 < 2 := Nat.mod_lt _ (by norm_num)
    have hlt := revBits_lt w (n / 2)
    rw [Nat.shiftRight_zero, Nat.and_one_is_mod, Nat.shiftLeft_eq, revBits]
    have h64 : n % 2 * 2 ^ w < 2 ^ 64 := by
      calc n % 2 * 2 ^ w ≤ 1 * 2 ^ w := Nat.mul_le_mul_right _ (by omega)
        _ = 2 ^ w := one_mul _
        _ < 2 ^ 64 := Nat.pow_lt_pow_right (by norm_num) (by omega)
    rw [Nat.mod_eq_of_lt h64, Nat.add_comm, Nat.mul_comm, Nat.mul_add_lt_is_or hlt,
      Nat.or_comm]

theorem testBit_revBits (w n i : Nat) (hi : i < w) :
    (revBits w n).testBit i = n.testBit (w - 1 - i) := by
  induction w generalizing n i with
  | zero => omega
  | succ w ih =>
    rw [revBits, Nat.add_comm, Nat.mul_comm, Nat.testBit_mul_pow_two_add _ (revBits_lt w _)]
    by_cases h : i < w
    · rw [if_pos h, ih _ _ h]
      have e : w + 1 - 1 - i = (w - 1 - i) + 1 := by omega
      rw [e, Nat.testBit_add_one]
    · have e : i = w := by omega
      subst e
      rw [if_neg h]
      have e2 : i + 1 - 1 - i = 0 := by omega
      rw [e2, Nat.sub_self]
      simp [Nat.testBit_zero]

theorem testBit_revBits_ge (w n i : Nat) (hi : w ≤ i) :
    (revBits w n).testBit i = false :=
  Nat.testBit_lt_two_pow
    (lt_of_lt_of_le (revBits_lt w n) (Nat.pow_le_pow_right (by norm_num) hi))

theorem revBits_revBits (w n : Nat) : revBits w (revBits w n) = n % 2 ^ w := by
  apply Nat.eq_of_testBit_eq
  intro i
  rw [Nat.testBit_mod_two_pow]
  by_cases h : i < w
  · rw [testBit_revBits _ _ _ h, testBit_revBits _ _ _ (by omega)]
    have e : w - 1 - (w - 1 - i) = i := by omega
    rw [e]
    simp [h]
  · rw [testBit_revBits_ge _ _ _ (by omega)]
    simp [h]

theorem revBits_mod (w n : Nat) : revBits w (n % 2 ^ w) = revBits w n := by
  apply Nat.eq_of_testBit_eq
  intro i
  by_cases h : i < w
  · rw [testBit_revBits _ _ _ h, testBit_revBits _ _ _ h, Nat.testBit_mod_two_pow]
    have : w - 1 - i < w := by omega
    simp [this]
  · rw [testBit_revBits_ge _ _ _ (by omega), testBit_revBits_ge _ _ _ (by omega)]

/-! ## The butterfly and segment loops -/

section

variable {F : Type} [Field F]

theorem length_set_set {α : Type} (l : List α) (a b : Nat) (u v : α) :
    ((l.set a u).set b v).length = l.length := by
  rw [List.length_set, List.length_set]

theorem butterfly_ofList (w_m w : complex F) (m k j : Nat) (l : List (complex F))
    (hb : k + j + m / 2 < l.length) (h64 : l.length < 2 ^ 64) :
    butterfly w_m m k (w, ofList l) j =
      .ok (w * w_m, ofList ((l.set (k + j)
          (l.getD (k + j) 0 + w * l.getD (k + j + m / 2) 0)).set (k + j + m / 2)
          (l.getD (k + j) 0 - w * l.getD (k + j + m / 2) 0))) := by
  have e1 : (k + j + m / 2) % 2 ^ 64 = k + j + m / 2 := Nat.mod_eq_of_lt (by omega)
  have e2 : (k + j) % 2 ^ 64 = k + j := Nat.mod_eq_of_lt (by omega)
  unfold butterfly
  simp only [e1, e2]
  rw [get_ofList_lt 0 hb, ok_bind, get_ofList_lt 0 (show k + j < l.length by omega), ok_bind,
    set_ofList_lt (show k + j < l.length by omega), ok_bind,
    set_ofList_lt (by rw [List.length_set]; exact hb), ok_bind]
  rfl

/-- The first `J` butterflies of a segment: the pairs they have combined, and the frame. -/
theorem butterflies_spec (w_m : complex F) (m k : Nat) (l : List (complex F))
    (hk : k + 2 * (m / 2) ≤ l.length) (h64 : l.length < 2 ^ 64) (J : Nat) (hJ : J ≤ m / 2) :
    ∃ l' : List (complex F),
      (List.range J).foldlM (butterfly w_m m k) (1, ofList l) = .ok (w_m ^ J, ofList l') ∧
      l'.length = l.length ∧
      (∀ r, r < J →
        l'.getD (k + r) 0 = l.getD (k + r) 0 + w_m ^ r * l.getD (k + r + m / 2) 0 ∧
        l'.getD (k + r + m / 2) 0 =
          l.getD (k + r) 0 - w_m ^ r * l.getD (k + r + m / 2) 0) ∧
      (∀ i, (i < k ∨ k + J ≤ i) → (i < k + m / 2 ∨ k + m / 2 + J ≤ i) →
        l'.getD i 0 = l.getD i 0) := by
  induction J with
  | zero =>
    refine ⟨l, ?_, rfl, ?_, ?_⟩
    · rw [List.range_zero, List.foldlM_nil, pow_zero]; rfl
    · intro r hr; omega
    · intro i _ _; rfl
  | succ J ih =>
    obtain ⟨l', hrun, hlen, hval, hframe⟩ := ih (by omega)
    have hb : k + J + m / 2 < l'.length := by omega
    have ha : k + J < l'.length := by omega
    have hu : l'.getD (k + J) 0 = l.getD (k + J) 0 :=
      hframe _ (Or.inr (le_refl _)) (Or.inl (by omega))
    have ht : l'.getD (k + J + m / 2) 0 = l.getD (k + J + m / 2) 0 :=
      hframe _ (Or.inr (by omega)) (Or.inr (by omega))
    refine ⟨(l'.set (k + J) (l'.getD (k + J) 0 + w_m ^ J * l'.getD (k + J + m / 2) 0)).set
      (k + J + m / 2) (l'.getD (k + J) 0 - w_m ^ J * l'.getD (k + J + m / 2) 0), ?_, ?_, ?_, ?_⟩
    · rw [foldlM_range_succ, hrun, ok_bind, butterfly_ofList w_m _ m k J l' hb (by omega),
        pow_succ]
    · rw [length_set_set, hlen]
    · intro r hr
      by_cases hrJ : r < J
      · obtain ⟨h1, h2⟩ := hval r hrJ
        constructor
        · rw [getD_set_ne 0 _ (by omega), getD_set_ne 0 _ (by omega), h1]
        · rw [getD_set_ne 0 _ (by omega), getD_set_ne 0 _ (by omega), h2]
      · have e : r = J := by omega
        subst e
        constructor
        · rw [getD_set_ne 0 _ (by omega), getD_set_self 0 ha, hu, ht]
        · rw [getD_set_self 0 (by rw [List.length_set]; exact hb), hu, ht]
    · intro i h1 h2
      rw [getD_set_ne 0 _ (by omega), getD_set_ne 0 _ (by omega)]
      exact hframe i (by omega) (by omega)

theorem segment_spec (w_m : complex F) (m k : Nat) (l : List (complex F))
    (hk : k + 2 * (m / 2) ≤ l.length) (h64 : l.length < 2 ^ 64) :
    ∃ l' : List (complex F),
      segment w_m m k (ofList l) = .ok (ofList l') ∧
      l'.length = l.length ∧
      (∀ r, r < m / 2 →
        l'.getD (k + r) 0 = l.getD (k + r) 0 + w_m ^ r * l.getD (k + r + m / 2) 0 ∧
        l'.getD (k + r + m / 2) 0 =
          l.getD (k + r) 0 - w_m ^ r * l.getD (k + r + m / 2) 0) ∧
      (∀ i, (i < k ∨ k + 2 * (m / 2) ≤ i) → l'.getD i 0 = l.getD i 0) := by
  obtain ⟨l', hrun, hlen, hval, hframe⟩ := butterflies_spec w_m m k l hk h64 (m / 2) (le_refl _)
  refine ⟨l', ?_, hlen, hval, ?_⟩
  · unfold segment
    rw [hrun, ok_bind]
    rfl
  · intro i hi
    exact hframe i (by omega) (by omega)

/-- The segment loop of one stage, entered after `q` of the `Q` segments. -/
theorem segments_spec (w_m : complex F) (m Q : Nat) (hm : 0 < m / 2) (heven : 2 * (m / 2) = m)
    (l0 : List (complex F)) (hN : l0.length = Q * m) (h64 : l0.length < 2 ^ 64) :
    ∀ (fuel q : Nat) (l : List (complex F)), q ≤ Q → Q - q ≤ fuel → l.length = l0.length →
      (∀ q' r, q' < q → r < m / 2 →
        l.getD (q' * m + r) 0 =
          l0.getD (q' * m + r) 0 + w_m ^ r * l0.getD (q' * m + r + m / 2) 0 ∧
        l.getD (q' * m + r + m / 2) 0 =
          l0.getD (q' * m + r) 0 - w_m ^ r * l0.getD (q' * m + r + m / 2) 0) →
      (∀ i, q * m ≤ i → l.getD i 0 = l0.getD i 0) →
      ∃ l' : List (complex F),
        segments w_m m l0.length fuel (q * m) (ofList l) = .ok (ofList l') ∧
        l'.length = l0.length ∧
        (∀ q' r, q' < Q → r < m / 2 →
          l'.getD (q' * m + r) 0 =
            l0.getD (q' * m + r) 0 + w_m ^ r * l0.getD (q' * m + r + m / 2) 0 ∧
          l'.getD (q' * m + r + m / 2) 0 =
            l0.getD (q' * m + r) 0 - w_m ^ r * l0.getD (q' * m + r + m / 2) 0) := by
  intro fuel
  induction fuel with
  | zero =>
    intro q l hq hf hlen hdone _
    have e : q = Q := by omega
    subst e
    refine ⟨l, ?_, hlen, hdone⟩
    unfold segments
    rw [if_neg (by omega)]
  | succ fuel ih =>
    intro q l hq hf hlen hdone hrest
    by_cases e : q = Q
    · subst e
      refine ⟨l, ?_, hlen, hdone⟩
      unfold segments
      rw [if_neg (by omega)]
    · have hqQ : q + 1 ≤ Q := by omega
      have h1 : (q + 1) * m ≤ Q * m := Nat.mul_le_mul_right m hqQ
      have h2 : (q + 1) * m = q * m + m := by ring
      obtain ⟨l1, hrun, hlen1, hval1, hframe1⟩ :=
        segment_spec w_m m (q * m) l (by omega) (by omega)
      have hstep : (q * m + m) % 2 ^ 64 = (q + 1) * m := by
        rw [Nat.mod_eq_of_lt (by omega), h2]
      obtain ⟨l', hrun', hlen', hval'⟩ := ih (q + 1) l1 hqQ (by omega) (by omega)
        (by
          intro q' r hq' hr
          by_cases e' : q' = q
          · subst e'
            obtain ⟨a, b⟩ := hval1 r hr
            rw [a, b, hrest _ (by omega), hrest _ (by omega)]
            exact ⟨rfl, rfl⟩
          · have h3 : (q' + 1) * m ≤ q * m := Nat.mul_le_mul_right m (by omega)
            have h4 : (q' + 1) * m = q' * m + m := by ring
            rw [hframe1 _ (Or.inl (by omega)), hframe1 _ (Or.inl (by omega))]
            exact hdone q' r (by omega) hr)
        (by
          intro i hi
          rw [hframe1 _ (Or.inr (by omega))]
          exact hrest i (by omega))
      refine ⟨l', ?_, hlen', hval'⟩
      unfold segments
      rw [if_pos (by omega), hrun, ok_bind, hstep]
      exact hrun'

end

/-! ## The sub-transforms of the stages -/

section

variable {R : Type} [CommRing R]

theorem sum_range_even_odd (n : Nat) (f : Nat → R) :
    ∑ T in Finset.range (2 * n), f T =
      ∑ t in Finset.range n, f (2 * t) + ∑ t in Finset.range n, f (2 * t + 1) := by
  induction n with
  | zero => simp
  | succ n ih =>
    rw [show 2 * (n + 1) = 2 * n + 1 + 1 by ring, Finset.sum_range_succ, Finset.sum_range_succ,
      ih, Finset.sum_range_succ, Finset.sum_range_succ]
    ring

theorem revBits_even (s t : Nat) : revBits (s + 1) (2 * t) = revBits s t := by
  rw [revBits]
  have h1 : 2 * t / 2 = t := by omega
  have h2 : 2 * t % 2 = 0 := by omega
  rw [h1, h2]; simp

theorem revBits_odd (s t : Nat) : revBits (s + 1) (2 * t + 1) = revBits s t + 2 ^ s := by
  rw [revBits]
  have h1 : (2 * t + 1) / 2 = t := by omega
  have h2 : (2 * t + 1) % 2 = 1 := by omega
  rw [h1, h2]; simp

theorem subDFT_succ (W : Nat → R) (g : Nat → R) (s base j : Nat)
    (hsq : W (s + 1) ^ 2 = W s) :
    subDFT W g (s + 1) base j =
      subDFT W g s base j + W (s + 1) ^ j * subDFT W g s (base + 2 ^ s) j := by
  unfold subDFT
  rw [show 2 ^ (s + 1) = 2 * 2 ^ s by ring, sum_range_even_odd, Finset.mul_sum]
  congr 1
  · apply Finset.sum_congr rfl
    intro t _
    rw [revBits_even, ← hsq, ← pow_mul]
    congr 2
    ring
  · apply Finset.sum_congr rfl
    intro t _
    rw [revBits_odd, ← hsq, ← pow_mul]
    have e : j * (2 * t + 1) = j + 2 * (j * t) := by ring
    rw [e, pow_add, show base + (revBits s t + 2 ^ s) = base + 2 ^ s + revBits s t by ring]
    ring

theorem subDFT_period (W : Nat → R) (g : Nat → R) (s base j : Nat)
    (hone : W s ^ 2 ^ s = 1) :
    subDFT W g s base (j + 2 ^ s) = subDFT W g s base j := by
  unfold subDFT
  apply Finset.sum_congr rfl
  intro t _
  rw [add_mul, pow_add, pow_mul (W s) (2 ^ s) t, hone, one_pow, mul_one]

theorem subDFT_succ_hi (W : Nat → R) (g : Nat → R) (s base j : Nat)
    (hsq : W (s + 1) ^ 2 = W s) (hneg : W (s + 1) ^ 2 ^ s = -1) :
    subDFT W g (s + 1) base (j + 2 ^ s) =
      subDFT W g s base j - W (s + 1) ^ j * subDFT W g s (base + 2 ^ s) j := by
  have hone : W s ^ 2 ^ s = 1 := by
    rw [← hsq, ← pow_mul, mul_comm, pow_mul, hneg]; ring
  rw [subDFT_succ W g s base _ hsq, subDFT_period W g s base j hone,
    subDFT_period W g s _ j hone, pow_add, hneg]
  ring

theorem subDFT_zero (W : Nat → R) (g : Nat → R) (base j : Nat) :
    subDFT W g 0 base j = g base := by
  simp [subDFT, revBits]

end

/-! ## The stages of `FastFourierTransform` -/

section

variable {F : Type} [Field F]

theorem shl_int_one_eq (c : Nat) (hc : c ≤ 30) : shl_int_one c = .ok (2 ^ c) := by
  have h31 : 2 ^ c < 2 ^ 31 := Nat.pow_lt_pow_right (by norm_num) (by omega)
  have h32 : 2 ^ c % 2 ^ 32 = 2 ^ c := Nat.mod_eq_of_lt (by omega)
  unfold shl_int_one
  rw [if_pos (by omega)]
  simp only [h32, if_pos h31]
  congr 1
  have h64 : ((2 ^ c : Nat) : Int) % 2 ^ 64 = ((2 ^ c : Nat) : Int) := by
    apply Int.emod_eq_of_lt
    · positivity
    · have : (2 : Nat) ^ c < 2 ^ 64 := by omega
      exact_mod_cast this
  rw [h64, Int.toNat_natCast]

theorem shl_int_one_31 : shl_int_one 31 = .ok (2 ^ 64 - 2 ^ 31) := by rfl

theorem stage_spec (M : CMath F) (p s : Nat) (hs : s < p) (hs30 : s + 1 ≤ 30) (hp : p ≤ 63)
    (l : List (complex F)) (hlen : l.length = 2 ^ p) :
    ∃ l' : List (complex F),
      stage M (2 ^ p) (ofList l) s = .ok (ofList l') ∧
      l'.length = 2 ^ p ∧
      (∀ B r, B < 2 ^ (p - s - 1) → r < 2 ^ s →
        l'.getD (B * 2 ^ (s + 1) + r) 0 =
          l.getD (B * 2 ^ (s + 1) + r) 0 +
            twiddle M (s + 1) ^ r * l.getD (B * 2 ^ (s + 1) + r + 2 ^ s) 0 ∧
        l'.getD (B * 2 ^ (s + 1) + r + 2 ^ s) 0 =
          l.getD (B * 2 ^ (s + 1) + r) 0 -
            twiddle M (s + 1) ^ r * l.getD (B * 2 ^ (s + 1) + r + 2 ^ s) 0) := by
  have hhalf : 2 ^ (s + 1) / 2 = 2 ^ s := by
    rw [pow_succ]; omega
  have hpow : 2 ^ p = 2 ^ (p - s - 1) * 2 ^ (s + 1) := by
    rw [← pow_add]; congr 1; omega
  have hpos : 0 < 2 ^ s := Nat.two_pow_pos s
  have h64 : 2 ^ p < 2 ^ 64 := Nat.pow_lt_pow_right (by norm_num) (by omega)
  have hQ : 2 ^ (p - s - 1) ≤ 2 ^ p := Nat.pow_le_pow_right (by norm_num) (by omega)
  obtain ⟨l', hrun, hlen', hval⟩ :=
    segments_spec (twiddle M (s + 1)) (2 ^ (s + 1)) (2 ^ (p - s - 1))
      (by rw [hhalf]; exact hpos) (by rw [hhalf, pow_succ]; ring) l (by rw [hlen]; exact hpow)
      (by rw [hlen]; exact h64) (2 ^ p) 0 l (Nat.zero_le _) (by omega) rfl
      (by intro q' r hq'; omega) (by intro i _; rfl)
  refine ⟨l', ?_, by rw [hlen', hlen], ?_⟩
  · unfold stage
    rw [shl_int_one_eq _ hs30, ok_bind]
    rw [hlen, zero_mul] at hrun
    exact hrun
  · intro B r hB hr
    have := hval B r hB (by rw [hhalf]; exact hr)
    rw [hhalf] at this
    exact this

end

section

variable {F : Type} [Field F]

theorem revBits_injOn (p i j : Nat) (hi : i < 2 ^ p) (hj : j < 2 ^ p)
    (h : revBits p i = revBits p j) : i = j := by
  have h1 := revBits_revBits p i
  have h2 := revBits_revBits p j
  rw [h, h2, Nat.mod_eq_of_lt hj, Nat.mod_eq_of_lt hi] at h1
  exact h1.symm

theorem bitReverseCopy_spec (x : List F) (p : Nat) (hp : p ≤ 64) (hx : x.length = 2 ^ p)
    (n : Nat) (hn : n ≤ 2 ^ p) :
    ∃ l : List (complex F),
      (List.range n).foldlM (bitReverseStep (ofList x) p) (ofSize (2 ^ p)) = .ok (ofList l) ∧
      l.length = 2 ^ p ∧
      ∀ i, i < n → l.getD (revBits p i) 0 = complex.ofReal (x.getD i 0) := by
  induction n with
  | zero =>
    refine ⟨List.replicate (2 ^ p) default, ?_, by simp, ?_⟩
    · rw [List.range_zero, List.foldlM_nil, ofSize_eq]; rfl
    · intro i hi; omega
  | succ n ih =>
    obtain ⟨l, hrun, hlen, hval⟩ := ih (by omega)
    have hr : revBits p n < l.length := by rw [hlen]; exact revBits_lt p n
    refine ⟨l.set (revBits p n) (complex.ofReal (x.getD n 0)), ?_, by rw [List.length_set, hlen], ?_⟩
    · rw [foldlM_range_succ, hrun, ok_bind]
      unfold bitReverseStep
      rw [reverse_bits_eq p hp, ok_bind, get_ofList_lt 0 (show n < x.length by omega), ok_bind,
        set_ofList_lt hr]
    · intro i hi
      by_cases e : i = n
      · subst e
        rw [getD_set_self 0 hr]
      · rw [getD_set_ne 0 _ (fun h => e (revBits_injOn p i n (by omega) (by omega) h.symm))]
        exact hval i (by omega)

/-- After `s` stages every block of `2 ^ s` slots holds the sub-transform of the values the
bit-reversed copy put there. -/
theorem stages_spec (M : CMath F) (p : Nat) (hp : p ≤ 30)
    (hsq : ∀ s, s < p → twiddle M (s + 1) ^ 2 = twiddle M s)
    (hneg : ∀ s, s < p → twiddle M (s + 1) ^ 2 ^ s = -1)
    (l0 : List (complex F)) (hlen0 : l0.length = 2 ^ p) (s : Nat) (hs : s ≤ p) :
    ∃ l : List (complex F),
      (List.range s).foldlM (stage M (2 ^ p)) (ofList l0) = .ok (ofList l) ∧
      l.length = 2 ^ p ∧
      ∀ b j, b < 2 ^ (p - s) → j < 2 ^ s →
        l.getD (b * 2 ^ s + j) 0 =
          subDFT (twiddle M) (fun i => l0.getD i 0) s (b * 2 ^ s) j := by
  induction s with
  | zero =>
    refine ⟨l0, ?_, hlen0, ?_⟩
    · rw [List.range_zero, List.foldlM_nil]; rfl
    · intro b j _ hj
      have e : j = 0 := by simpa using hj
      subst e
      rw [subDFT_zero, add_zero]
  | succ s ih =>
    obtain ⟨l, hrun, hlen, hinv⟩ := ih (by omega)
    obtain ⟨l', hrun', hlen', hval⟩ := stage_spec M p s (by omega) (by omega) (by omega) l hlen
    refine ⟨l', ?_, hlen', ?_⟩
    · rw [foldlM_range_succ, hrun, ok_bind, hrun']
    · intro b j hb hj
      have hsplit : 2 ^ (p - s) = 2 * 2 ^ (p - (s + 1)) := by
        rw [← pow_succ']; congr 1; omega
      have hB : b < 2 ^ (p - s - 1) := by
        rw [show p - s - 1 = p - (s + 1) by omega]; exact hb
      have e1 : 2 * b * 2 ^ s = b * 2 ^ (s + 1) := by ring
      have e2 : (2 * b + 1) * 2 ^ s = b * 2 ^ (s + 1) + 2 ^ s := by ring
      have hpow : 2 ^ (s + 1) = 2 ^ s + 2 ^ s := by ring
      by_cases hjs : j < 2 ^ s
      · obtain ⟨hlo, _⟩ := hval b j hB hjs
        have i1 := hinv (2 * b) j (by omega) hjs
        have i2 := hinv (2 * b + 1) j (by omega) hjs
        rw [e1] at i1
        rw [e2, show b * 2 ^ (s + 1) + 2 ^ s + j = b * 2 ^ (s + 1) + j + 2 ^ s by ring] at i2
        rw [hlo, i1, i2, subDFT_succ _ _ _ _ _ (hsq s (by omega))]
      · obtain ⟨r, rfl⟩ : ∃ r, j = r + 2 ^ s := ⟨j - 2 ^ s, by omega⟩
        have hr : r < 2 ^ s := by omega
        obtain ⟨_, hhi⟩ := hval b r hB hr
        have i1 := hinv (2 * b) r (by omega) hr
        have i2 := hinv (2 * b + 1) r (by omega) hr
        rw [e1] at i1
        rw [e2, show b * 2 ^ (s + 1) + 2 ^ s + r = b * 2 ^ (s + 1) + r + 2 ^ s by ring] at i2
        rw [← add_assoc, hhi, i1, i2,
          subDFT_succ_hi _ _ _ _ _ (hsq s (by omega)) (hneg s (by omega))]

theorem pow2_and_pred (p : Nat) (hp : p ≤ 63) :
    (2 ^ p &&& ((2 ^ p + 2 ^ 64 - 1) % 2 ^ 64) == 0) = true := by
  have h64 : 2 ^ p < 2 ^ 64 := Nat.pow_lt_pow_right (by norm_num) (by omega)
  have hpos : 0 < 2 ^ p := Nat.two_pow_pos p
  have e : (2 ^ p + 2 ^ 64 - 1) % 2 ^ 64 = 2 ^ p - 1 := by
    rw [show 2 ^ p + 2 ^ 64 - 1 = (2 ^ p - 1) + 2 ^ 64 by omega, Nat.add_mod_right,
      Nat.mod_eq_of_lt (by omega)]
  rw [e, Nat.and_pow_two_sub_one_eq_mod, Nat.mod_self]
  rfl

theorem log2_unsigned_two_pow (p : Nat) : log2_unsigned (2 ^ p) = .ok p := by
  unfold log2_unsigned
  rw [if_neg (Nat.two_pow_pos p).ne', Nat.log2_two_pow]

/-- The closed form of `FastFourierTransform` for the lengths `2 ^ p`, `p ≤ 30`, given the
two identities of the twiddle factors that exact arithmetic provides. -/
theorem fft_generic (M : CMath F) (p : Nat) (hp : p ≤ 30)
    (hsq : ∀ s, s < p → twiddle M (s + 1) ^ 2 = twiddle M s)
    (hneg : ∀ s, s < p → twiddle M (s + 1) ^ 2 ^ s = -1)
    (x : List F) (hx : x.length = 2 ^ p) :
    FastFourierTransform M (ofList x) =
      .ok (ofList (tabulate (2 ^ p) (fun j =>
        ∑ t in Finset.range (2 ^ p), complex.ofReal (x.getD t 0) * twiddle M p ^ (j * t)))) := by
  obtain ⟨l0, hcopy, hlen0, hval0⟩ := bitReverseCopy_spec x p (by omega) hx (2 ^ p) (le_refl _)
  obtain ⟨l, hrun, hlen, hinv⟩ := stages_spec M p hp hsq hneg l0 hlen0 p (le_refl _)
  unfold FastFourierTransform
  simp only [Size_ofList, hx]
  rw [pow2_and_pred p (by omega)]
  simp only [assert, if_true, ok_bind]
  rw [log2_unsigned_two_pow, ok_bind, hcopy, ok_bind, hrun]
  congr 2
  rw [eq_tabulate 0 l, hlen]
  apply tabulate_congr
  intro j hj
  have := hinv 0 j (by simp) hj
  rw [zero_mul, zero_add] at this
  rw [this]
  unfold subDFT
  apply Finset.sum_congr rfl
  intro t ht
  show l0.getD (0 + revBits p t) 0 * _ = _
  rw [zero_add, hval0 t (Finset.mem_range.mp ht)]

end

/-! ## Exact arithmetic: the twiddle factors -/

theorem polar_exact_add (a b : ℝ) :
    complex.polar CMath.exact 1 (a + b) =
      complex.polar CMath.exact 1 a * complex.polar CMath.exact 1 b := by
  rw [complex.ext_iff']
  constructor
  · simp [complex.polar, CMath.exact, Real.cos_add]
  · simp [complex.polar, CMath.exact, Real.sin_add]; ring

theorem polar_exact_zero : complex.polar CMath.exact 1 0 = 1 := by
  rw [complex.ext_iff']
  constructor <;> simp [complex.polar, CMath.exact]

theorem polar_exact_pow (a : ℝ) (n : Nat) :
    complex.polar CMath.exact 1 a ^ n = complex.polar CMath.exact 1 (n * a) := by
  induction n with
  | zero => simp [polar_exact_zero]
  | succ n ih =>
    rw [pow_succ, ih, ← polar_exact_add]
    congr 1
    push_cast
    ring

theorem twiddle_exact_sq (s : Nat) :
    twiddle CMath.exact (s + 1) ^ 2 = twiddle CMath.exact s := by
  unfold twiddle
  rw [polar_exact_pow]
  congr 1
  push_cast
  field_simp
  ring

theorem twiddle_exact_half (s : Nat) :
    twiddle CMath.exact (s + 1) ^ 2 ^ s = -1 := by
  unfold twiddle
  rw [polar_exact_pow]
  have e : ((2 ^ s : Nat) : ℝ) * (-CMath.exact.M_PI * 2 / ((2 ^ (s + 1) : Nat) : ℝ)) = -Real.pi := by
    simp only [CMath.exact]
    push_cast
    field_simp
    ring
  rw [e, complex.ext_iff']
  constructor <;> simp [complex.polar, CMath.exact]

theorem dft_term_exact (p j t : Nat) :
    complex.ofReal (CMath.exact.cos (CMath.exact.M_PI * 2 * (j : ℝ) * (t : ℝ) / ((2 ^ p : Nat) : ℝ))) -
      complex.I * complex.ofReal
        (CMath.exact.sin (CMath.exact.M_PI * 2 * (j : ℝ) * (t : ℝ) / ((2 ^ p : Nat) : ℝ))) =
    twiddle CMath.exact p ^ (j * t) := by
  unfold twiddle
  rw [polar_exact_pow]
  have e : ((j * t : Nat) : ℝ) * (-CMath.exact.M_PI * 2 / ((2 ^ p : Nat) : ℝ)) =
      -(CMath.exact.M_PI * 2 * (j : ℝ) * (t : ℝ) / ((2 ^ p : Nat) : ℝ)) := by
    push_cast
    ring
  rw [e, complex.ext_iff']
  constructor <;> simp [complex.polar, CMath.exact]

theorem fft_exact (p : Nat) (hp : p ≤ 30) (x : List ℝ) (hx : x.length = 2 ^ p) :
    FastFourierTransform CMath.exact (ofList x) =
      .ok (ofList (tabulate x.length (dftFormula CMath.exact x))) := by
  rw [fft_generic CMath.exact p hp (fun s _ => twiddle_exact_sq s)
    (fun s _ => twiddle_exact_half s) x hx, hx]
  congr 2
  apply tabulate_congr
  intro j _
  unfold dftFormula
  rw [hx]
  apply Finset.sum_congr rfl
  intro t _
  rw [dft_term_exact]

/-! ## The length `2 ^ 31` -/

section

variable {F : Type} [Field F]

theorem segments_out_of_range (w_m : complex F) (m fuel : Nat) (l : List (complex F))
    (hl : 0 < l.length) (hm : l.length ≤ m / 2) (hm64 : m / 2 < 2 ^ 64) :
    segments w_m m l.length (fuel + 1) 0 (ofList l) = .error .OutOfRange := by
  obtain ⟨h', eh⟩ : ∃ h', m / 2 = h' + 1 := ⟨m / 2 - 1, by omega⟩
  have hfirst : butterfly w_m m 0 (1, ofList l) 0 = .error .OutOfRange := by
    unfold butterfly
    have e : (0 + 0 + m / 2) % 2 ^ 64 = m / 2 := by
      rw [Nat.zero_add, Nat.mod_eq_of_lt hm64]
    simp only [e]
    rw [get_ofList 0, if_neg (by omega), error_bind]
  unfold segments
  rw [if_pos hl]
  unfold segment
  rw [eh, List.range_succ_eq_map, List.foldlM_cons, hfirst, error_bind, error_bind, error_bind]

theorem stages_length (M : CMath F) (p : Nat) (hp : p ≤ 63)
    (l0 : List (complex F)) (hlen0 : l0.length = 2 ^ p) (s : Nat) (hs : s ≤ p) (hs30 : s ≤ 30) :
    ∃ l : List (complex F),
      (List.range s).foldlM (stage M (2 ^ p)) (ofList l0) = .ok (ofList l) ∧
      l.length = 2 ^ p := by
  induction s with
  | zero => exact ⟨l0, by rw [List.range_zero, List.foldlM_nil]; rfl, hlen0⟩
  | succ s ih =>
    obtain ⟨l, hrun, hlen⟩ := ih (by omega) (by omega)
    obtain ⟨l', hrun', hlen', _⟩ := stage_spec M p s (by omega) (by omega) hp l hlen
    exact ⟨l', by rw [foldlM_range_succ, hrun, ok_bind, hrun'], hlen'⟩

theorem fft_two_pow (M : CMath F) (p : Nat) (hp : p ≤ 63) (x : List F)
    (hx : x.length = 2 ^ p) :
    FastFourierTransform M (ofList x) =
      ((List.range (2 ^ p)).foldlM (bitReverseStep (ofList x) p) (ofSize (2 ^ p)) >>=
        fun output => (List.range p).foldlM (stage M (2 ^ p)) output) := by
  unfold FastFourierTransform
  simp only [Size_ofList, hx]
  rw [pow2_and_pred p hp]
  simp only [assert, if_true, ok_bind]
  rw [log2_unsigned_two_pow, ok_bind]

/-- On a signal of `2 ^ 31` samples stage 30 reads outside the buffer. -/
theorem fft_out_of_range (M : CMath F) (x : List F) (hx : x.length = 2 ^ 31) :
    FastFourierTransform M (ofList x) = .error .OutOfRange := by
  obtain ⟨l0, hcopy, hlen0, _⟩ := bitReverseCopy_spec x 31 (by norm_num) hx (2 ^ 31) (le_refl _)
  obtain ⟨l, hrun, hlen⟩ := stages_length M 31 (by norm_num) l0 hlen0 30 (by norm_num) (le_refl _)
  have hstage : stage M (2 ^ 31) (ofList l) 30 = .error .OutOfRange := by
    unfold stage
    rw [shl_int_one_31, ok_bind]
    have hseg := segments_out_of_range
      (complex.polar M 1 (-M.M_PI * 2 / ((2 ^ 64 - 2 ^ 31 : Nat) : F))) (2 ^ 64 - 2 ^ 31)
      (2 ^ 31 - 1) l (by rw [hlen]; norm_num) (by rw [hlen]; norm_num) (by norm_num)
    rw [hlen] at hseg
    exact hseg
  have hstages : (List.range (30 + 1)).foldlM (stage M (2 ^ 31)) (ofList l0) =
      .error .OutOfRange := by
    rw [foldlM_range_succ, hrun, ok_bind, hstage]
  rw [fft_two_pow M 31 (by norm_num) x hx, hcopy, ok_bind]
  exact hstages

end

/-! ## The impulse and the constant signal -/

theorem dftFormula_impulse (N k : Nat) : dftFormula CMath.exact (impulse N) k =
    if N = 0 then 0 else 1 := by
  unfold dftFormula
  have hlen : (impulse N).length = N := length_tabulate _ _
  rw [hlen]
  by_cases hN : N = 0
  · subst hN; simp
  · have hget : ∀ n, (impulse N).getD n 0 = if n < N then (if n = 0 then 1 else 0) else 0 :=
      fun n => getD_tabulate 0 N _ n
    rw [if_neg hN, Finset.sum_eq_single 0]
    · rw [hget, if_pos (Nat.pos_of_ne_zero hN), if_pos rfl, complex.ext_iff']
      constructor <;> simp [CMath.exact]
    · intro n _ hn
      rw [hget, if_neg hn, ite_self, complex.ext_iff']
      constructor <;> simp
    · intro h
      exact absurd (Finset.mem_range.mpr (Nat.pos_of_ne_zero hN)) h

theorem complex_eq_zero_of_mul (z w : complex ℝ) (h : z * w = 0) (hz : z ≠ 0) : w = 0 := by
  rw [complex.ext_iff'] at h
  obtain ⟨h1, h2⟩ := h
  simp only [complex.mul_re, complex.mul_im, complex.zero_re, complex.zero_im] at h1 h2
  have hn : z.re ^ 2 + z.im ^ 2 ≠ 0 := by
    intro h0
    apply hz
    rw [complex.ext_iff']
    constructor
    · show z.re = 0
      nlinarith [sq_nonneg z.re, sq_nonneg z.im]
    · show z.im = 0
      nlinarith [sq_nonneg z.re, sq_nonneg z.im]
  have c1 : (z.re ^ 2 + z.im ^ 2) * w.re = 0 := by linear_combination z.re * h1 + z.im * h2
  have c2 : (z.re ^ 2 + z.im ^ 2) * w.im = 0 := by linear_combination z.re * h2 - z.im * h1
  rw [complex.ext_iff']
  exact ⟨(mul_eq_zero.mp c1).resolve_left hn, (mul_eq_zero.mp c2).resolve_left hn⟩

theorem natCast_complex {T : Type} [CommRing T] (n : Nat) :
    ((n : Nat) : complex T) = ⟨(n : T), 0⟩ := by
  induction n with
  | zero => rw [Nat.cast_zero, Nat.cast_zero]; rfl
  | succ n ih =>
    rw [Nat.cast_succ, ih, complex.ext_iff']
    constructor <;> simp

theorem dftFormula_constantOne (N k : Nat) (hk : k < N) :
    dftFormula CMath.exact (constantOne N) k = if k = 0 then ⟨(N : ℝ), 0⟩ else 0 := by
  unfold dftFormula
  have hlen : (constantOne N).length = N := List.length_replicate _ _
  have hNpos : (0 : ℝ) < (N : ℝ) := by exact_mod_cast (by omega : 0 < N)
  rw [hlen]
  have hterm : ∀ n ∈ Finset.range N,
      complex.ofReal ((constantOne N).getD n 0) *
        (complex.ofReal (CMath.exact.cos (CMath.exact.M_PI * 2 * (k : ℝ) * (n : ℝ) / (N : ℝ))) -
          complex.I * complex.ofReal
            (CMath.exact.sin (CMath.exact.M_PI * 2 * (k : ℝ) * (n : ℝ) / (N : ℝ)))) =
      complex.polar CMath.exact 1 (-(Real.pi * 2 * (k : ℝ) / (N : ℝ))) ^ n := by
    intro n hn
    have hn' : n < N := Finset.mem_range.mp hn
    rw [polar_exact_pow]
    have e : (n : ℝ) * (-(Real.pi * 2 * (k : ℝ) / (N : ℝ))) =
        -(Real.pi * 2 * (k : ℝ) * (n : ℝ) / (N : ℝ)) := by ring
    rw [e, complex.ext_iff']
    constructor <;>
      simp [constantOne, List.getD_eq_getElem?_getD, List.getElem?_replicate, hn', complex.polar,
        CMath.exact]
  rw [Finset.sum_congr rfl hterm]
  by_cases h0 : k = 0
  · subst h0
    rw [if_pos rfl]
    have : complex.polar CMath.exact 1 (-(Real.pi * 2 * ((0 : Nat) : ℝ) / (N : ℝ))) = 1 := by
      rw [← polar_exact_zero]; congr 1; simp
    rw [this]
    simp only [one_pow, Finset.sum_const, Finset.card_range, nsmul_eq_mul, mul_one]
    exact natCast_complex N
  · rw [if_neg h0]
    have hkpos : (0 : ℝ) < (k : ℝ) := by exact_mod_cast Nat.pos_of_ne_zero h0
    have hkN : (k : ℝ) < (N : ℝ) := by exact_mod_cast hk
    apply complex_eq_zero_of_mul
      (complex.polar CMath.exact 1 (-(Real.pi * 2 * (k : ℝ) / (N : ℝ))) - 1)
    · rw [mul_geom_sum, polar_exact_pow]
      have e : (N : ℝ) * (-(Real.pi * 2 * (k : ℝ) / (N : ℝ))) = -((k : ℝ) * (2 * Real.pi)) := by
        field_simp; ring
      have hsin : Real.sin ((k : ℝ) * (2 * Real.pi)) = 0 := by
        have e2 : (k : ℝ) * (2 * Real.pi) = ((2 * k : Nat) : ℝ) * Real.pi := by
          push_cast; ring
        rw [e2, Real.sin_nat_mul_pi]
      rw [e, complex.ext_iff']
      constructor <;> simp [complex.polar, CMath.exact, hsin]
    · intro h
      have hre := congrArg complex.re h
      simp only [complex.sub_re, complex.polar, CMath.exact, complex.one_re, complex.zero_re,
        one_mul, Real.cos_neg] at hre
      have hcos : Real.cos (Real.pi * 2 * (k : ℝ) / (N : ℝ)) = 1 := by linarith
      have hx1 : -(2 * Real.pi) < Real.pi * 2 * (k : ℝ) / (N : ℝ) := by
        have : 0 < Real.pi * 2 * (k : ℝ) / (N : ℝ) := by positivity
        linarith [Real.pi_pos]
      have hx2 : Real.pi * 2 * (k : ℝ) / (N : ℝ) < 2 * Real.pi := by
        have hq : (k : ℝ) / (N : ℝ) < 1 := (div_lt_one hNpos).mpr hkN
        have e3 : Real.pi * 2 * (k : ℝ) / (N : ℝ) = 2 * Real.pi * ((k : ℝ) / (N : ℝ)) := by ring
        rw [e3]
        nlinarith [Real.pi_pos]
      have := (Real.cos_eq_one_iff_of_lt_of_lt hx1 hx2).mp hcos
      have hpos : 0 < Real.pi * 2 * (k : ℝ) / (N : ℝ) := by positivity
      linarith

/-! ## The size assertion and the empty signal -/

theorem testBit_of_range (a p : Nat) (h1 : 2 ^ p ≤ a) (h2 : a < 2 ^ (p + 1)) :
    a.testBit p = true := by
  have e : a = 2 ^ p + (a - 2 ^ p) := by omega
  have hlt : a - 2 ^ p < 2 ^ p := by rw [pow_succ] at h2; omega
  rw [e, Nat.testBit_two_pow_add_eq, Nat.testBit_lt_two_pow hlt]
  rfl

theorem and_pred_ne_zero (N : Nat) (hpos : 0 < N) (hnp : ∀ p, N ≠ 2 ^ p) :
    N &&& (N - 1) ≠ 0 := by
  have hN : N ≠ 0 := by omega
  have h1 : 2 ^ N.log2 ≤ N := Nat.log2_self_le hN
  have h2 : N < 2 ^ (N.log2 + 1) := Nat.lt_log2_self
  have h3 : 2 ^ N.log2 ≠ N := fun h => hnp _ h.symm
  intro h
  have hb : (N &&& (N - 1)).testBit N.log2 = true := by
    rw [Nat.testBit_and, testBit_of_range N _ h1 h2,
      testBit_of_range (N - 1) _ (by omega) (by omega)]
    rfl
  rw [h, Nat.zero_testBit] at hb
  exact Bool.false_ne_true hb

section

variable {F : Type} [Field F]

/-- A length from 1 to `2 ^ 64 - 1` that is not a power of two fails the assertion of
fft.cc:35, before any output exists. -/
theorem fft_invalid_size (M : CMath F) (x : List F) (hpos : 0 < x.length)
    (h64 : x.length < 2 ^ 64) (hnp : ∀ p, x.length ≠ 2 ^ p) :
    FastFourierTransform M (ofList x) = .error .InvalidSize := by
  have e : (x.length + 2 ^ 64 - 1) % 2 ^ 64 = x.length - 1 := by
    rw [show x.length + 2 ^ 64 - 1 = (x.length - 1) + 2 ^ 64 by omega, Nat.add_mod_right,
      Nat.mod_eq_of_lt (by omega)]
  have hb : (x.length &&& ((x.length + 2 ^ 64 - 1) % 2 ^ 64) == 0) = false := by
    rw [e]
    exact beq_false_of_ne (and_pred_ne_zero _ hpos hnp)
  unfold FastFourierTransform
  simp only [Size_ofList]
  rw [hb]
  rfl

/-- The spec's example: a signal of length 6 fails the size assertion. -/
theorem fft_length_six (M : CMath F) (a b c d e f : F) :
    FastFourierTransform M (ofList [a, b, c, d, e, f]) = .error .InvalidSize := by
  have hlen : [a, b, c, d, e, f].length = 6 := rfl
  apply fft_invalid_size M _ (by rw [hlen]; norm_num) (by rw [hlen]; norm_num)
  intro p h
  have h6 : (6 : Nat) = 2 ^ p := h
  rcases Nat.lt_or_ge p 3 with hp | hp
  · interval_cases p <;> omega
  · have : 2 ^ 3 ≤ 2 ^ p := Nat.pow_le_pow_right (by norm_num) hp
    omega

theorem fft_nil (M : CMath F) :
    FastFourierTransform M (ofList []) = .error .Undefined := by
  unfold FastFourierTransform
  simp only [Size_ofList, List.length_nil, Nat.zero_and]
  rfl

theorem dft_nil (M : CMath F) :
    DiscreteFourierTransform M (ofList []) = .ok (ofList []) := by
  rfl

theorem mapM_ok {α β : Type} (f : α → Except Error β) (g : α → β) (l : List α)
    (h : ∀ a, a ∈ l → f a = .ok (g a)) : l.mapM f = .ok (l.map g) := by
  induction l with
  | nil => rfl
  | cons a l ih =>
    rw [List.mapM_cons, h a (List.mem_cons_self _ _), ok_bind,
      ih (fun b hb => h b (List.mem_cons_of_mem _ hb)), ok_bind]
    rfl

theorem revBits_perm (w : Nat) :
    ((List.range (2 ^ w)).map (revBits w)).Perm (List.range (2 ^ w)) := by
  have hnd : ((List.range (2 ^ w)).map (revBits w)).Nodup := by
    apply List.Nodup.map_on _ (List.nodup_range _)
    intro i hi j hj h
    exact revBits_injOn w i j (List.mem_range.mp hi) (List.mem_range.mp hj) h
  apply List.perm_of_nodup_nodup_toFinset_eq hnd (List.nodup_range _)
  ext r
  simp only [List.mem_toFinset, List.mem_map, List.mem_range]
  constructor
  · rintro ⟨i, _, rfl⟩
    exact revBits_lt w i
  · intro hr
    exact ⟨revBits w r, revBits_lt w r, by rw [revBits_revBits, Nat.mod_eq_of_lt hr]⟩

end

theorem impulse_four : impulse 4 = [1, 0, 0, 0] := by
  simp [impulse, tabulate, List.range_succ]

theorem constantOne_four : constantOne 4 = [1, 1, 1, 1] := by
  simp [constantOne, List.replicate]

theorem tabulate_four {α : Type} (f : Nat → α) : tabulate 4 f = [f 0, f 1, f 2, f 3] := by
  simp [tabulate, List.range_succ]

theorem dft_impulse (N : Nat) :
    DiscreteFourierTransform CMath.exact (ofList (impulse N)) =
      .ok (ofList (List.replicate N ⟨1, 0⟩)) := by
  rw [dft_ofList]
  congr 2
  have hlen : (impulse N).length = N := length_tabulate _ _
  rw [hlen]
  apply List.ext_getElem?
  intro i
  rw [getElem?_tabulate, List.getElem?_replicate]
  by_cases h : i < N
  · rw [if_pos h, if_pos h, dftFormula_impulse, if_neg (by omega)]; rfl
  · rw [if_neg h, if_neg h]

theorem fft_impulse_four :
    FastFourierTransform CMath.exact (ofList [1, 0, 0, 0]) =
      .ok (ofList [⟨1, 0⟩, ⟨1, 0⟩, ⟨1, 0⟩, ⟨1, 0⟩]) := by
  rw [fft_exact 2 (by norm_num) [1, 0, 0, 0] rfl]
  congr 2
  show tabulate 4 _ = _
  rw [tabulate_four, ← impulse_four]
  simp only [dftFormula_impulse]
  rfl

theorem fft_constantOne_four :
    FastFourierTransform CMath.exact (ofList [1, 1, 1, 1]) =
      .ok (ofList [⟨4, 0⟩, ⟨0, 0⟩, ⟨0, 0⟩, ⟨0, 0⟩]) := by
  rw [fft_exact 2 (by norm_num) [1, 1, 1, 1] rfl]
  congr 2
  show tabulate 4 _ = _
  rw [tabulate_four, ← constantOne_four, dftFormula_constantOne 4 0 (by norm_num),
    dftFormula_constantOne 4 1 (by norm_num), dftFormula_constantOne 4 2 (by norm_num),
    dftFormula_constantOne 4 3 (by norm_num)]
  simp
  rfl

/-! ## Linearity -/

section

variable {F : Type} [Field F]

theorem smul_eq_mul (a : F) (z : complex F) : complex.smul a z = complex.ofReal a * z := by
  rw [complex.ext_iff']
  constructor <;> simp [complex.smul]

theorem getD_zipWith_lin (a b : F) (x y : List F) (h : x.length = y.length) (n : Nat) :
    (List.zipWith (fun u v => a * u + b * v) x y).getD n 0 =
      a * x.getD n 0 + b * y.getD n 0 := by
  rw [List.getD_eq_getElem?_getD, List.getD_eq_getElem?_getD, List.getD_eq_getElem?_getD,
    List.getElem?_zipWith]
  by_cases hn : n < x.length
  · rw [List.getElem?_eq_getElem hn, List.getElem?_eq_getElem (by omega : n < y.length)]
    rfl
  · rw [List.getElem?_eq_none (by omega : x.length ≤ n),
      List.getElem?_eq_none (by omega : y.length ≤ n)]
    simp

theorem dftFormula_linear (M : CMath F) (a b : F) (x y : List F) (h : x.length = y.length)
    (k : Nat) :
    dftFormula M (List.zipWith (fun u v => a * u + b * v) x y) k =
      complex.smul a (dftFormula M x k) + complex.smul b (dftFormula M y k) := by
  have hz : (List.zipWith (fun u v => a * u + b * v) x y).length = x.length := by
    rw [List.length_zipWith, ← h, Nat.min_self]
  rw [smul_eq_mul, smul_eq_mul]
  unfold dftFormula
  rw [hz, ← h, Finset.mul_sum, Finset.mul_sum, ← Finset.sum_add_distrib]
  apply Finset.sum_congr rfl
  intro n _
  rw [getD_zipWith_lin a b x y h]
  have e : complex.ofReal (a * x.getD n 0 + b * y.getD n 0) =
      complex.ofReal a * complex.ofReal (x.getD n 0) +
        complex.ofReal b * complex.ofReal (y.getD n 0) := by
    rw [complex.ext_iff']
    constructor <;> simp
  rw [e]
  ring

end

/-! ## Ownership of the storage -/

namespace FreeStore
variable {T : Type}

theorem load_alloc_old (h : FreeStore T) (value : List T) (a : Nat) (ha : a < h.arrays.length) :
    (h.alloc value).2.load a = h.load a := by
  simp [alloc, load, List.getElem?_append_left ha]

theorem load_alloc_new (h : FreeStore T) (value : List T) :
    (h.alloc value).2.load (h.alloc value).1 = some value := by
  simp [alloc, load]

theorem load_store_same (h : FreeStore T) (a : Nat) (value : List T)
    (ha : a < h.arrays.length) : (h.store a value).load a = some value := by
  simp [store, load, List.getElem?_set, ha]

theorem load_store_ne (h : FreeStore T) (a a' : Nat) (value : List T) (hne : a ≠ a') :
    (h.store a value).load a' = h.load a' := by
  simp [store, load, List.getElem?_set, hne]

theorem lt_of_load (h : FreeStore T) (a : Nat) (l : List T) (hl : h.load a = some l) :
    a < h.arrays.length := by
  by_contra hge
  have : h.arrays[a]? = none := List.getElem?_eq_none (by omega)
  simp [load, this] at hl

end FreeStore

namespace UniqueBufferObject
variable {T : Type}

theorem Copy_some [Inhabited T] (h : FreeStore T) (a size : Nat) (l : List T)
    (hl : h.load a = some l) (hlen : l.length = size) :
    Copy h ⟨some a, size⟩ =
      .ok (⟨some h.arrays.length, size⟩,
        (h.alloc (List.replicate size default)).2.store h.arrays.length l) := by
  have ha := FreeStore.lt_of_load h a l hl
  have hload : (h.alloc (List.replicate size (default : T))).2.load a = some l := by
    rw [FreeStore.load_alloc_old h _ a ha, hl]
  unfold Copy
  simp only [Option.bind_some]
  by_cases h0 : size = 0
  · have : l = [] := List.length_eq_zero.mp (by omega)
    subst this
    simp [h0, FreeStore.alloc, bind, Except.bind]
  · simp only [FreeStore.alloc] at hload ⊢
    simp [h0, hload, hlen, bind, Except.bind, List.take_of_length_le (le_of_eq hlen)]

theorem Copy_none [Inhabited T] (h : FreeStore T) :
    Copy h ⟨none, 0⟩ =
      .ok (⟨some h.arrays.length, 0⟩,
        (h.alloc (List.replicate 0 default)).2.store h.arrays.length []) := by
  simp [Copy, FreeStore.alloc, bind, Except.bind]


theorem view_some (h : FreeStore T) (a size : Nat) (l : List T) (hl : h.load a = some l)
    (hlen : l.length = size) :
    view h ⟨some a, size⟩ = UniqueBuffer.ofList l := by
  simp [view, hl, UniqueBuffer.ofList, hlen]

theorem set_some (h : FreeStore T) (a size : Nat) (l : List T) (hl : h.load a = some l)
    (hlen : l.length = size) (i : Nat) (v : T) :
    set h ⟨some a, size⟩ i v =
      if i < l.length then .ok (h.store a (l.set i v)) else .error .OutOfRange := by
  unfold set
  rw [view_some h a size l hl hlen, UniqueBuffer.set_ofList]
  by_cases hi : i < l.length
  · rw [if_pos hi, if_pos hi, ok_bind]
    rfl
  · rw [if_neg hi, if_neg hi, error_bind]

theorem set_none (h : FreeStore T) (i : Nat) (v : T) :
    set h ⟨none, 0⟩ i v = .error .OutOfRange := by
  simp [set, view, UniqueBuffer.set, UniqueBuffer.Size, assert, bind, Except.bind]

/-- The move constructor hands the storage over: the new object denotes the buffer that
`other` denoted, and `other` is left with `nullptr` and `Size() == 0`. -/
theorem moveConstruct_spec (h : FreeStore T) (other : UniqueBufferObject) :
    view h (moveConstruct other).1 = view h other ∧
    (moveConstruct other).2.data_ = none ∧
    (moveConstruct other).2.Size = 0 :=
  ⟨rfl, rfl, rfl⟩

/-- The defaulted move assignment leaves `other` as it was. -/
theorem moveAssign_source (self other : UniqueBufferObject) :
    (moveAssign self other).2 = other ∧ (moveAssign self other).1.data_ = other.data_ :=
  ⟨rfl, rfl⟩

end UniqueBufferObject

/-! ## `uilog2` -/

theorem uilog2_loop_eq (value log2 : Nat) : uilog2_loop value log2 = log2 + Nat.log2 value := by
  induction value using Nat.strong_induction_on generalizing log2 with
  | _ value ih =>
    rw [uilog2_loop, Nat.log2]
    by_cases h : 2 ≤ value
    · have h1 : value >>> 1 ≠ 0 := by rw [Nat.shiftRight_eq_div_pow]; omega
      rw [if_pos h1, if_pos h, ih _ (by rw [Nat.shiftRight_eq_div_pow]; omega)]
      rw [Nat.shiftRight_eq_div_pow]
      simp only [pow_one]
      omega
    · have h1 : ¬ value >>> 1 ≠ 0 := by rw [Nat.shiftRight_eq_div_pow]; omega
      rw [if_neg h1, if_neg h]
      rfl

theorem size_t_pred (N : Nat) (hpos : 0 < N) (h64 : N < 2 ^ 64) :
    (N + 2 ^ 64 - 1) % 2 ^ 64 = N - 1 := by
  rw [show N + 2 ^ 64 - 1 = (N - 1) + 2 ^ 64 by omega, Nat.add_mod_right,
    Nat.mod_eq_of_lt (by omega)]

theorem uilog2_two_pow (k : Nat) (hk : k < 64) : uilog2 (2 ^ k) = k := by
  have h := pow2_and_pred k (by omega)
  have h0 : 2 ^ k &&& ((2 ^ k + 2 ^ 64 - 1) % 2 ^ 64) = 0 := by simpa using h
  unfold uilog2
  rw [uilog2_loop_eq, h0, if_neg (by simp), Nat.log2_two_pow, Nat.zero_add]

theorem uilog2_not_two_pow (N : Nat) (hpos : 0 < N) (h64 : N < 2 ^ 64)
    (hnp : ∀ p, N ≠ 2 ^ p) : uilog2 N = Nat.log2 N + 1 := by
  unfold uilog2
  rw [uilog2_loop_eq, size_t_pred N hpos h64, if_pos (and_pred_ne_zero N hpos hnp), Nat.add_comm]

theorem uilog2_zero : uilog2 0 = 0 := by
  simp [uilog2, uilog2_loop_eq, Nat.log2]

theorem six_ne_two_pow (p : Nat) : 6 ≠ 2 ^ p := by
  intro h6
  rcases Nat.lt_or_ge p 3 with hp | hp
  · interval_cases p <;> omega
  · have : 2 ^ 3 ≤ 2 ^ p := Nat.pow_le_pow_right (by norm_num) hp
    omega

/-! ## The signal `[1, 0, -1, 0]` -/

theorem dftFormula_known (k : Nat) :
    dftFormula CMath.exact [1, 0, -1, 0] k = ⟨1 - (-1) ^ k, 0⟩ := by
  unfold dftFormula
  have hlen : ([1, 0, -1, 0] : List ℝ).length = 4 := rfl
  rw [hlen]
  have e : CMath.exact.M_PI * 2 * (k : ℝ) * ((2 : Nat) : ℝ) / ((4 : Nat) : ℝ) = (k : ℝ) * Real.pi := by
    simp only [CMath.exact]; push_cast; ring
  have hc : Real.cos ((k : ℝ) * Real.pi) = (-1) ^ k := by
    have := Real.cos_nat_mul_pi_sub 0 k
    simpa using this
  simp only [Finset.sum_range_succ, Finset.sum_range_zero, e]
  rw [complex.ext_iff']
  constructor
  · simp [CMath.exact, hc]; ring
  · simp [CMath.exact, Real.sin_nat_mul_pi]

theorem dft_known :
    DiscreteFourierTransform CMath.exact (ofList [1, 0, -1, 0]) =
      .ok (ofList [⟨0, 0⟩, ⟨2, 0⟩, ⟨0, 0⟩, ⟨2, 0⟩]) := by
  rw [dft_ofList]
  congr 2
  show tabulate 4 _ = _
  rw [tabulate_four]
  simp only [dftFormula_known]
  norm_num

theorem fft_known :
    FastFourierTransform CMath.exact (ofList [1, 0, -1, 0]) =
      .ok (ofList [⟨0, 0⟩, ⟨2, 0⟩, ⟨0, 0⟩, ⟨2, 0⟩]) := by
  rw [fft_exact 2 (by norm_num) [1, 0, -1, 0] rfl, ← dft_ofList, dft_known]

/-! ## The stage invariant -/

section
variable {F : Type} [Field F]

/-- The invariant of `stages_spec` for every exponent a `size_t` length can have, up to
the last stage whose segment length the 32-bit shift gets right. -/
theorem stages_spec_wide (M : CMath F) (p : Nat) (hp : p ≤ 63)
    (hsq : ∀ s, s < p → twiddle M (s + 1) ^ 2 = twiddle M s)
    (hneg : ∀ s, s < p → twiddle M (s + 1) ^ 2 ^ s = -1)
    (l0 : List (complex F)) (hlen0 : l0.length = 2 ^ p) (s : Nat) (hs : s ≤ p)
    (hs30 : s ≤ 30) :
    ∃ l : List (complex F),
      (List.range s).foldlM (stage M (2 ^ p)) (ofList l0) = .ok (ofList l) ∧
      l.length = 2 ^ p ∧
      ∀ b j, b < 2 ^ (p - s) → j < 2 ^ s →
        l.getD (b * 2 ^ s + j) 0 =
          subDFT (twiddle M) (fun i => l0.getD i 0) s (b * 2 ^ s) j := by
  induction s with
  | zero =>
    refine ⟨l0, ?_, hlen0, ?_⟩
    · rw [List.range_zero, List.foldlM_nil]; rfl
    · intro b j _ hj
      have e : j = 0 := by simpa using hj
      subst e
      rw [subDFT_zero, add_zero]
  | succ s ih =>
    obtain ⟨l, hrun, hlen, hinv⟩ := ih (by omega) (by omega)
    obtain ⟨l', hrun', hlen', hval⟩ := stage_spec M p s (by omega) (by omega) hp l hlen
    refine ⟨l', ?_, hlen', ?_⟩
    · rw [foldlM_range_succ, hrun, ok_bind, hrun']
    · intro b j hb hj
      have hsplit : 2 ^ (p - s) = 2 * 2 ^ (p - (s + 1)) := by
        rw [← pow_succ']; congr 1; omega
      have hB : b < 2 ^ (p - s - 1) := by
        rw [show p - s - 1 = p - (s + 1) by omega]; exact hb
      have e1 : 2 * b * 2 ^ s = b * 2 ^ (s + 1) := by ring
      have e2 : (2 * b + 1) * 2 ^ s = b * 2 ^ (s + 1) + 2 ^ s := by ring
      have hpow : 2 ^ (s + 1) = 2 ^ s + 2 ^ s := by ring
      by_cases hjs : j < 2 ^ s
      · obtain ⟨hlo, _⟩ := hval b j hB hjs
        have i1 := hinv (2 * b) j (by omega) hjs
        have i2 := hinv (2 * b + 1) j (by omega) hjs
        rw [e1] at i1
        rw [e2, show b * 2 ^ (s + 1) + 2 ^ s + j = b * 2 ^ (s + 1) + j + 2 ^ s by ring] at i2
        rw [hlo, i1, i2, subDFT_succ _ _ _ _ _ (hsq s (by omega))]
      · obtain ⟨r, rfl⟩ : ∃ r, j = r + 2 ^ s := ⟨j - 2 ^ s, by omega⟩
        have hr : r < 2 ^ s := by omega
        obtain ⟨_, hhi⟩ := hval b r hB hr
        have i1 := hinv (2 * b) r (by omega) hr
        have i2 := hinv (2 * b + 1) r (by omega) hr
        rw [e1] at i1
        rw [e2, show b * 2 ^ (s + 1) + 2 ^ s + r = b * 2 ^ (s + 1) + r + 2 ^ s by ring] at i2
        rw [← add_assoc, hhi, i1, i2,
          subDFT_succ_hi _ _ _ _ _ (hsq s (by omega)) (hneg s (by omega))]

end

theorem subDFT_exact (g : Nat → complex ℝ) (s base j : Nat) :
    subDFT (twiddle CMath.exact) g s base j =
      ∑ t ∈ Finset.range (2 ^ s), g (base + revBits s t) *
        (complex.ofReal (CMath.exact.cos
            (CMath.exact.M_PI * 2 * (j : ℝ) * (t : ℝ) / ((2 ^ s : Nat) : ℝ))) -
          complex.I * complex.ofReal (CMath.exact.sin
            (CMath.exact.M_PI * 2 * (j : ℝ) * (t : ℝ) / ((2 ^ s : Nat) : ℝ)))) := by
  unfold subDFT
  apply Finset.sum_congr rfl
  intro t _
  rw [dft_term_exact]

theorem copy_example :
    (List.range 4).foldlM (bitReverseStep (ofList ([0, 1, 0, 0] : List ℝ)) 2) (ofSize 4) =
      .ok (ofList [⟨0, 0⟩, ⟨0, 0⟩, ⟨1, 0⟩, ⟨0, 0⟩]) := by
  rfl

theorem dftFormula_example :
    dftFormula CMath.exact [0, 1, 0, 0] 1 = ⟨0, -1⟩ := by
  unfold dftFormula
  have hlen : ([0, 1, 0, 0] : List ℝ).length = 4 := rfl
  rw [hlen]
  have e : CMath.exact.M_PI * 2 * ((1 : Nat) : ℝ) * ((1 : Nat) : ℝ) / ((4 : Nat) : ℝ) =
      Real.pi / 2 := by
    simp only [CMath.exact]; push_cast; ring
  simp only [Finset.sum_range_succ, Finset.sum_range_zero, e]
  rw [complex.ext_iff']
  constructor <;> simp [CMath.exact]

theorem held_order_example :
    (∑ t in Finset.range 4,
      ([⟨0, 0⟩, ⟨0, 0⟩, ⟨1, 0⟩, ⟨0, 0⟩] : List (complex ℝ)).getD (0 + t) 0 *
        (complex.ofReal (CMath.exact.cos
            (CMath.exact.M_PI * 2 * ((1 : Nat) : ℝ) * (t : ℝ) / ((4 : Nat) : ℝ))) -
          complex.I * complex.ofReal (CMath.exact.sin
            (CMath.exact.M_PI * 2 * ((1 : Nat) : ℝ) * (t : ℝ) / ((4 : Nat) : ℝ))))) =
      ⟨-1, 0⟩ := by
  have e : CMath.exact.M_PI * 2 * ((1 : Nat) : ℝ) * ((2 : Nat) : ℝ) / ((4 : Nat) : ℝ) =
      Real.pi := by
    simp only [CMath.exact]; push_cast; ring
  simp only [Finset.sum_range_succ, Finset.sum_range_zero, e]
  rw [complex.ext_iff']
  constructor <;> simp [CMath.exact]

theorem stages_example :
    ∃ output : List (complex ℝ),
      (List.range 2).foldlM (stage CMath.exact 4) (ofList [⟨0, 0⟩, ⟨0, 0⟩, ⟨1, 0⟩, ⟨0, 0⟩]) =
        .ok (ofList output) ∧
      output.getD (0 + 1) 0 = ⟨0, -1⟩ := by
  have h1 := fft_two_pow CMath.exact 2 (by norm_num) [0, 1, 0, 0] rfl
  rw [fft_exact 2 (by norm_num) [0, 1, 0, 0] rfl] at h1
  have h2 : (List.range (2 ^ 2)).foldlM (bitReverseStep (ofList ([0, 1, 0, 0] : List ℝ)) 2)
      (ofSize (2 ^ 2)) = .ok (ofList [⟨0, 0⟩, ⟨0, 0⟩, ⟨1, 0⟩, ⟨0, 0⟩]) := copy_example
  rw [h2, ok_bind] at h1
  refine ⟨_, h1.symm, ?_⟩
  rw [getD_tabulate]
  simp only [List.length_cons, List.length_nil]
  rw [if_pos (by norm_num)]
  exact dftFormula_example

/-! ## The segments of a stage -/

section
variable {F : Type} [Field F]

theorem length_segmentList (w_m : complex F) (m k : Nat) (l : List (complex F)) :
    (segmentList w_m m k l).length = l.length :=
  length_tabulate _ _

theorem getD_of_le {α : Type} (d : α) (l : List α) (i : Nat) (h : l.length ≤ i) :
    l.getD i d = d := by
  rw [List.getD_eq_getElem?_getD, List.getElem?_eq_none h]
  rfl

theorem segment_eq (w_m : complex F) (m k : Nat) (l : List (complex F))
    (hk : k + 2 * (m / 2) ≤ l.length) (h64 : l.length < 2 ^ 64) :
    segment w_m m k (ofList l) = .ok (ofList (segmentList w_m m k l)) := by
  obtain ⟨l', hrun, hlen, hval, hframe⟩ := segment_spec w_m m k l hk h64
  rw [hrun]
  congr 2
  rw [eq_tabulate 0 l', hlen]
  unfold segmentList
  apply tabulate_congr
  intro i hi
  by_cases h1 : k ≤ i ∧ i < k + m / 2
  · rw [if_pos h1]
    obtain ⟨r, rfl⟩ : ∃ r, i = k + r := ⟨i - k, by omega⟩
    rw [(hval r (by omega)).1, Nat.add_sub_cancel_left]
  · rw [if_neg h1]
    by_cases h2 : k + m / 2 ≤ i ∧ i < k + 2 * (m / 2)
    · rw [if_pos h2]
      obtain ⟨r, rfl⟩ : ∃ r, i = k + r + m / 2 := ⟨i - k - m / 2, by omega⟩
      rw [(hval r (by omega)).2, Nat.add_sub_cancel, Nat.add_sub_cancel_left]
    · rw [if_neg h2]
      exact hframe i (by omega)

theorem getD_segmentList_outside (w_m : complex F) (m k : Nat) (l : List (complex F)) (i : Nat)
    (hi : i < k ∨ k + 2 * (m / 2) ≤ i) :
    (segmentList w_m m k l).getD i 0 = l.getD i 0 := by
  unfold segmentList
  rw [getD_tabulate]
  by_cases h : i < l.length
  · rw [if_pos h, if_neg (by omega), if_neg (by omega)]
  · rw [if_neg h, getD_of_le 0 l i (by omega)]

theorem segmentList_reads (w_m : complex F) (m k : Nat) (l l' : List (complex F))
    (hlen : l'.length = l.length)
    (hag : ∀ j, k ≤ j → j < k + 2 * (m / 2) → l'.getD j 0 = l.getD j 0) (i : Nat)
    (hin : k ≤ i ∧ i < k + 2 * (m / 2)) :
    (segmentList w_m m k l').getD i 0 = (segmentList w_m m k l).getD i 0 := by
  unfold segmentList
  rw [getD_tabulate, getD_tabulate, hlen]
  by_cases hi : i < l.length
  · rw [if_pos hi, if_pos hi]
    by_cases h1 : k ≤ i ∧ i < k + m / 2
    · rw [if_pos h1, if_pos h1, hag i (by omega) (by omega), hag (i + m / 2) (by omega) (by omega)]
    · rw [if_neg h1, if_neg h1, if_pos (by omega), if_pos (by omega),
        hag i (by omega) (by omega), hag (i - m / 2) (by omega) (by omega)]
  · rw [if_neg hi, if_neg hi]

theorem segmentList_comm (w_m : complex F) (m k1 k2 : Nat) (z : List (complex F))
    (hd : k1 + 2 * (m / 2) ≤ k2 ∨ k2 + 2 * (m / 2) ≤ k1) :
    segmentList w_m m k2 (segmentList w_m m k1 z) =
      segmentList w_m m k1 (segmentList w_m m k2 z) := by
  rw [eq_tabulate 0 (segmentList w_m m k2 (segmentList w_m m k1 z)),
    eq_tabulate 0 (segmentList w_m m k1 (segmentList w_m m k2 z))]
  simp only [length_segmentList]
  apply tabulate_congr
  intro i _
  by_cases hin1 : k1 ≤ i ∧ i < k1 + 2 * (m / 2)
  · rw [getD_segmentList_outside w_m m k2 _ i (by omega)]
    exact (segmentList_reads w_m m k1 z _ (length_segmentList _ _ _ _)
      (fun j hj1 hj2 => getD_segmentList_outside w_m m k2 z j (by omega)) i hin1).symm
  · by_cases hin2 : k2 ≤ i ∧ i < k2 + 2 * (m / 2)
    · rw [getD_segmentList_outside w_m m k1 _ i (by omega)]
      exact segmentList_reads w_m m k2 z _ (length_segmentList _ _ _ _)
        (fun j hj1 hj2 => getD_segmentList_outside w_m m k1 z j (by omega)) i hin2
    · rw [getD_segmentList_outside w_m m k2 _ i (by omega),
        getD_segmentList_outside w_m m k1 _ i (by omega),
        getD_segmentList_outside w_m m k1 _ i (by omega),
        getD_segmentList_outside w_m m k2 _ i (by omega)]

theorem foldlM_segment (w_m : complex F) (m N : Nat) (h64 : N < 2 ^ 64) (ks : List Nat)
    (hks : ∀ k, k ∈ ks → k + 2 * (m / 2) ≤ N) (l : List (complex F)) (hl : l.length = N) :
    ks.foldlM (fun output k => segment w_m m k output) (ofList l) =
      .ok (ofList (ks.foldl (fun z k => segmentList w_m m k z) l)) := by
  induction ks generalizing l with
  | nil => rfl
  | cons k ks ih =>
    rw [List.foldlM_cons, segment_eq w_m m k l (by rw [hl]; exact hks k (List.mem_cons_self _ _))
      (by rw [hl]; exact h64), ok_bind, List.foldl_cons]
    exact ih (fun k' hk' => hks k' (List.mem_cons_of_mem _ hk')) _
      (by rw [length_segmentList, hl])

theorem segments_eq_foldl (w_m : complex F) (m Q : Nat) (hm : 0 < m) (hev : 2 * (m / 2) = m)
    (h64 : Q * m < 2 ^ 64) :
    ∀ (fuel q : Nat) (l : List (complex F)), q ≤ Q → Q - q ≤ fuel → l.length = Q * m →
      segments w_m m (Q * m) fuel (q * m) (ofList l) =
        .ok (ofList (((List.range' q (Q - q)).map (fun c => c * m)).foldl
          (fun z k => segmentList w_m m k z) l)) := by
  intro fuel
  induction fuel with
  | zero =>
    intro q l hq hf _
    have e : q = Q := by omega
    subst e
    unfold segments
    rw [if_neg (by omega), Nat.sub_self]
    rfl
  | succ fuel ih =>
    intro q l hq hf hl
    by_cases e : q = Q
    · subst e
      unfold segments
      rw [if_neg (by omega), Nat.sub_self]
      rfl
    · have hqQ : q + 1 ≤ Q := by omega
      have h1 : (q + 1) * m ≤ Q * m := Nat.mul_le_mul_right m hqQ
      have h2 : (q + 1) * m = q * m + m := by ring
      have hstep : (q * m + m) % 2 ^ 64 = (q + 1) * m := by
        rw [Nat.mod_eq_of_lt (by omega), h2]
      unfold segments
      rw [if_pos (by omega), segment_eq w_m m (q * m) l (by rw [hl, hev]; omega)
        (by rw [hl]; exact h64), ok_bind, hstep,
        ih (q + 1) _ hqQ (by omega) (by rw [length_segmentList, hl]),
        show Q - q = (Q - (q + 1)) + 1 by omega, List.range'_succ, List.map_cons,
        List.foldl_cons]

theorem getElem?_eq_of_getD {α : Type} (d : α) (l l' : List α) (hlen : l'.length = l.length)
    (i : Nat) (h : l'.getD i d = l.getD i d) : l'[i]? = l[i]? := by
  by_cases hi : i < l.length
  · rw [List.getD_eq_getElem?_getD, List.getD_eq_getElem?_getD,
      List.getElem?_eq_getElem hi, List.getElem?_eq_getElem (by omega : i < l'.length)] at h
    rw [List.getElem?_eq_getElem hi, List.getElem?_eq_getElem (by omega : i < l'.length)]
    exact congrArg some h
  · rw [List.getElem?_eq_none (by omega), List.getElem?_eq_none (by omega)]

theorem getD_eq_of_getElem? {α : Type} (d : α) (l l' : List α) (i : Nat)
    (h : l'[i]? = l[i]?) : l'.getD i d = l.getD i d := by
  rw [List.getD_eq_getElem?_getD, List.getD_eq_getElem?_getD, h]

theorem multiple_add_le (m Q k : Nat) (hdvd : m ∣ k) (hk : k < Q * m) :
    k + m ≤ Q * m := by
  obtain ⟨c, rfl⟩ := hdvd
  have hc : c < Q := by
    by_contra h
    have : Q * m ≤ m * c := by rw [Nat.mul_comm m c]; exact Nat.mul_le_mul_right m (by omega)
    omega
  calc m * c + m = (c + 1) * m := by ring
    _ ≤ Q * m := Nat.mul_le_mul_right m hc

theorem multiples_disjoint (m k1 k2 : Nat) (h1 : m ∣ k1) (h2 : m ∣ k2) (hne : k1 ≠ k2) :
    k1 + m ≤ k2 ∨ k2 + m ≤ k1 := by
  obtain ⟨c1, rfl⟩ := h1
  obtain ⟨c2, rfl⟩ := h2
  rcases Nat.lt_trichotomy c1 c2 with h | h | h
  · left
    calc m * c1 + m = m * (c1 + 1) := by ring
      _ ≤ m * c2 := Nat.mul_le_mul_left m h
  · exact absurd (by rw [h]) hne
  · right
    calc m * c2 + m = m * (c2 + 1) := by ring
      _ ≤ m * c1 := Nat.mul_le_mul_left m h

end

section
variable {F : Type} [Field F]

/-- For the lengths `2 ^ p` with `p ≤ 30` no bounds assertion fails:
`FastFourierTransform` returns a spectrum of the length of the signal, and the indices
it uses are in range. -/
theorem fft_in_range (M : CMath F) (p : Nat) (hp : p ≤ 30) (x : List F)
    (hx : x.length = 2 ^ p) :
    (∃ X : List (complex F),
      FastFourierTransform M (ofList x) = .ok (ofList X) ∧ X.length = 2 ^ p) ∧
    (∀ i, i < 2 ^ p → ∃ r, reverse_bits i p = .ok r ∧ r < 2 ^ p) ∧
    (∀ s, s < p → shl_int_one (s + 1) = .ok (2 ^ (s + 1)) ∧
      ∀ k j, 2 ^ (s + 1) ∣ k → k < 2 ^ p → j < 2 ^ (s + 1) / 2 →
        k + j < 2 ^ p ∧ k + j + 2 ^ (s + 1) / 2 < 2 ^ p) := by
  refine ⟨?_, fun i _ => ⟨revBits p i, reverse_bits_eq p (by omega) i, revBits_lt p i⟩, ?_⟩
  · obtain ⟨l0, hcopy, hlen0, _⟩ :=
      bitReverseCopy_spec x p (by omega) hx (2 ^ p) (le_refl _)
    obtain ⟨l, hrun, hlen⟩ := stages_length M p (by omega) l0 hlen0 p (le_refl _) hp
    exact ⟨l, by rw [fft_two_pow M p (by omega) x hx, hcopy, ok_bind, hrun], hlen⟩
  · intro s hs
    refine ⟨shl_int_one_eq _ (by omega), ?_⟩
    intro k j hd hk hj
    have hpow : 2 ^ p = 2 ^ (p - (s + 1)) * 2 ^ (s + 1) := by
      rw [← pow_add]; congr 1; omega
    have hle := multiple_add_le (2 ^ (s + 1)) (2 ^ (p - (s + 1))) k hd (by rw [← hpow]; exact hk)
    rw [← hpow] at hle
    have hhalf : 2 * (2 ^ (s + 1) / 2) = 2 ^ (s + 1) := by rw [pow_succ]; omega
    omega

end

/-! ## Single precision -/

theorem roundTiesToEven_intCast (z : ℤ) : roundTiesToEven (z : ℚ) = z := by
  unfold roundTiesToEven
  rw [Int.floor_intCast, sub_self, if_pos (by norm_num)]

theorem roundBinary_zero (p : Nat) (emin : ℤ) : roundBinary p emin (0 : ℚ) = 0 := by
  unfold roundBinary
  rw [if_pos rfl]

theorem roundBinary_of_int (p : Nat) (emin : ℤ) (x : ℚ) (z : ℤ)
    (h : x / (2 : ℚ) ^ (max (Int.log 2 |x|) emin - (p - 1)) = z) :
    roundBinary p emin x = x := by
  unfold roundBinary
  by_cases hx : x = 0
  · rw [if_pos hx, hx]
  · rw [if_neg hx]
    simp only []
    rw [h, roundTiesToEven_intCast, ← h]
    exact div_mul_cancel₀ _ (zpow_ne_zero _ (by norm_num))

theorem binary32_natCast (n : Nat) (h : n ≤ 2 ^ 24) : binary32 (n : ℚ) = n := by
  rcases Nat.eq_zero_or_pos n with h0 | hpos
  · subst h0
    simpa using roundBinary_zero 24 (-126)
  have hlog : Int.log 2 |(n : ℚ)| = (Nat.log 2 n : ℤ) := by
    rw [abs_of_nonneg (Nat.cast_nonneg n)]
    exact Int.log_natCast 2 n
  have hle : 2 ^ Nat.log 2 n ≤ n := Nat.pow_log_le_self 2 (by omega)
  have hL : Nat.log 2 n ≤ 24 := by
    by_contra hc
    have : 2 ^ 25 ≤ 2 ^ Nat.log 2 n := Nat.pow_le_pow_right (by norm_num) (by omega)
    omega
  rcases Nat.lt_or_ge (Nat.log 2 n) 24 with hlt | hge
  · refine roundBinary_of_int 24 (-126) (n : ℚ) ((n * 2 ^ (23 - Nat.log 2 n) : Nat) : ℤ) ?_
    rw [hlog, max_eq_left (by omega)]
    have he : ((Nat.log 2 n : ℤ) - ((24 : Nat) - 1)) = -((23 - Nat.log 2 n : Nat) : ℤ) := by
      omega
    rw [he, zpow_neg, div_inv_eq_mul, zpow_natCast]
    push_cast
    ring
  · have hn : n = 2 ^ 24 := by
      have h24 : Nat.log 2 n = 24 := by omega
      rw [h24] at hle
      omega
    subst hn
    refine roundBinary_of_int 24 (-126) _ (2 ^ 23) ?_
    rw [hlog]
    have h24 : Nat.log 2 (2 ^ 24) = 24 := Nat.log_pow (by norm_num) 24
    rw [h24]
    norm_num

theorem binary32_two_pow_succ : binary32 ((2 : ℚ) ^ 24 + 1) = 2 ^ 24 := by
  have hx : ((2 : ℚ) ^ 24 + 1) = ((16777217 : Nat) : ℚ) := by norm_num
  have hlog : Int.log 2 |((16777217 : Nat) : ℚ)| = 24 := by
    rw [abs_of_nonneg (Nat.cast_nonneg _), Int.log_natCast]
    have : Nat.log 2 16777217 = 24 :=
      Nat.log_eq_of_pow_le_of_lt_pow (by norm_num) (by norm_num)
    rw [this]
    rfl
  have hfloor : ⌊(16777217 : ℚ) / 2⌋ = 8388608 := by
    rw [Int.floor_eq_iff]
    constructor <;> norm_num
  rw [hx]
  unfold binary32 roundBinary
  rw [if_neg (by norm_num)]
  simp only []
  rw [hlog]
  norm_num
  unfold roundTiesToEven
  rw [hfloor]
  norm_num

theorem single_accumulate_succ (M : CMath ℚ) (x : List ℚ) (k n' : Nat) (init : complex ℚ) :
    Single.accumulate M x k (n' + 1) init =
      Single.add (Single.accumulate M x k n' init)
        (Single.dftTerm M x.length k n' (x.getD n' 0)) := by
  unfold Single.accumulate
  rw [List.range_succ, List.foldl_append]
  rfl

theorem single_dft_inner (M : CMath ℚ) (x : List ℚ) (k : Nat) (out : List (complex ℚ))
    (hk : k < out.length) (n' : Nat) (hn : n' ≤ x.length) :
    (List.range n').foldlM (Single.dftStep M (ofList x) k) (ofList out) =
      .ok (ofList (out.set k (Single.accumulate M x k n' (out.getD k 0)))) := by
  induction n' with
  | zero =>
    have h0 : Single.accumulate M x k 0 (out.getD k 0) = out.getD k 0 := rfl
    rw [List.range_zero, List.foldlM_nil, h0, set_getD_self 0 hk]
    rfl
  | succ n' ih =>
    have hn' : n' < x.length := hn
    rw [foldlM_range_succ, ih (Nat.le_of_lt hn'), ok_bind]
    unfold Single.dftStep
    rw [get_ofList_lt 0 hn', ok_bind, get_ofList_lt 0 (by rw [List.length_set]; exact hk),
      ok_bind, set_ofList_lt (by rw [List.length_set]; exact hk),
      getD_set_self 0 hk, List.set_set, single_accumulate_succ, Size_ofList]

theorem single_dft_outer (M : CMath ℚ) (x : List ℚ) (k' : Nat) (hk : k' ≤ x.length) :
    (List.range k').foldlM
        (fun output k => (List.range x.length).foldlM (Single.dftStep M (ofList x) k) output)
        (ofSize x.length) =
      .ok (ofList (tabulate x.length (fun k =>
        if k < k' then Single.accumulate M x k x.length 0 else 0))) := by
  induction k' with
  | zero =>
    rw [List.range_zero, List.foldlM_nil, ofSize_eq]
    simp [tabulate, pure, Except.pure, complex.default_eq_zero]
  | succ k' ih =>
    have hk' : k' < x.length := hk
    rw [foldlM_range_succ, ih (Nat.le_of_lt hk'), ok_bind,
      single_dft_inner M x k' _ (by rw [length_tabulate]; exact hk') _ (le_refl _),
      getD_tabulate, if_pos hk', if_neg (lt_irrefl _), set_tabulate]
    congr 2
    apply tabulate_congr
    intro i _
    by_cases h : i = k'
    · subst h; simp
    · have : i < k' + 1 ↔ i < k' := by omega
      simp [Function.update_noteq h, this]

/-- The closed form of the single-precision `DiscreteFourierTransform`: coefficient `k`
is the sum of the `N` terms accumulated from `(0, 0)` in the order of the inner loop,
each addition rounded. -/
theorem single_dft_ofList (M : CMath ℚ) (x : List ℚ) :
    Single.DiscreteFourierTransform M (ofList x) =
      .ok (ofList (tabulate x.length (fun k => Single.accumulate M x k x.length 0))) := by
  unfold Single.DiscreteFourierTransform
  rw [Size_ofList]
  simp only []
  rw [single_dft_outer M x x.length (le_refl _)]
  congr 2
  apply tabulate_congr
  intro i hi
  rw [if_pos hi]

theorem single_angle_zero (M : CMath ℚ) (N n : Nat) : Single.angle M N 0 n = 0 := by
  unfold Single.angle binary32 binary64
  rw [Nat.cast_zero, roundBinary_zero, mul_zero, roundBinary_zero, zero_mul, roundBinary_zero,
    zero_div, roundBinary_zero, roundBinary_zero]

theorem binary32_one : binary32 (1 : ℚ) = 1 := by
  simpa using binary32_natCast 1 (by norm_num)

theorem binary32_zero : binary32 (0 : ℚ) = 0 := roundBinary_zero 24 (-126)

/-- The term of the row `k = 0` for a sample 1: `cos 0 - i sin 0 = 1`, whatever `n`. -/
theorem single_dftTerm_zero (M : CMath ℚ) (hc : M.cos 0 = 1) (hs : M.sin 0 = 0) (N n : Nat) :
    Single.dftTerm M N 0 n 1 = ⟨1, 0⟩ := by
  unfold Single.dftTerm Single.smul Single.rsub
  rw [single_angle_zero, hc, hs]
  simp only [sub_zero, neg_zero, mul_zero, mul_one, one_mul, binary32_one, binary32_zero]

/-- The accumulator of the row `k = 0` on a signal of ones counts up to `2 ^ 24` and
stays there: `2 ^ 24 + 1` is not a `float` and rounds back to `2 ^ 24`. -/
theorem single_accumulate_ones (M : CMath ℚ) (hc : M.cos 0 = 1) (hs : M.sin 0 = 0)
    (N n' : Nat) (hn : n' ≤ N) :
    Single.accumulate M (List.replicate N 1) 0 n' 0 = ⟨((min n' (2 ^ 24) : Nat) : ℚ), 0⟩ := by
  induction n' with
  | zero => simp [Single.accumulate]; rfl
  | succ n' ih =>
    have hn' : n' < N := hn
    rw [single_accumulate_succ, ih (Nat.le_of_lt hn'), List.length_replicate,
      List.getD_eq_getElem _ _ (by rw [List.length_replicate]; exact hn'),
      List.getElem_replicate, single_dftTerm_zero M hc hs]
    unfold Single.add
    simp only [add_zero, binary32_zero]
    rcases Nat.lt_or_ge n' (2 ^ 24) with hlt | hge
    · rw [Nat.min_eq_left (Nat.le_of_lt hlt), Nat.min_eq_left (by omega)]
      have := binary32_natCast (n' + 1) (by omega)
      rw [Nat.cast_succ] at this
      rw [this, Nat.cast_succ]
    · rw [Nat.min_eq_right hge, Nat.min_eq_right (by omega)]
      have := binary32_two_pow_succ
      rw [Nat.cast_pow, Nat.cast_ofNat, this]

theorem single_cos_zero : CMath.single.cos 0 = 1 := by
  show binary32 (Real.cos ((0 : ℚ) : ℝ)) = 1
  rw [Rat.cast_zero, Real.cos_zero]
  unfold binary32 roundBinary
  rw [if_neg one_ne_zero]
  simp only []
  rw [abs_one, Int.log_one_right]
  norm_num
  unfold roundTiesToEven
  have hf : ⌊(8388608 : ℝ)⌋ = 8388608 := by
    rw [Int.floor_eq_iff]
    constructor <;> norm_num
  rw [hf]
  norm_num

theorem single_sin_zero : CMath.single.sin 0 = 0 := by
  show binary32 (Real.sin ((0 : ℚ) : ℝ)) = 0
  rw [Rat.cast_zero, Real.sin_zero]
  unfold binary32 roundBinary
  rw [if_pos rfl]

/-- In single precision the coefficient `X[0]` of `N` ones is `min N 2 ^ 24`, for every
`<cmath>` with `cos(0) == 1` and `sin(0) == 0`. -/
theorem single_dft_ones (M : CMath ℚ) (hc : M.cos 0 = 1) (hs : M.sin 0 = 0) (N : Nat)
    (hN : 1 ≤ N) :
    ∃ X : List (complex ℚ),
      Single.DiscreteFourierTransform M (ofList (List.replicate N 1)) = .ok (ofList X) ∧
      X.length = N ∧ X[0]? = some ⟨((min N (2 ^ 24) : Nat) : ℚ), 0⟩ := by
  refine ⟨_, single_dft_ofList M _, by rw [length_tabulate, List.length_replicate], ?_⟩
  rw [getElem?_tabulate, List.length_replicate, if_pos (by omega),
    single_accumulate_ones M hc hs N N (le_refl _)]

/-! ## Single precision: the signal `[1, 1, 1, 1]` -/

section Rounding

variable {K : Type} [LinearOrderedField K] [FloorRing K]

theorem roundTiesToEven_near (t : K) (z : ℤ) (hlo : (z : K) - 1 / 2 < t)
    (hhi : t < z + 1 / 2) : roundTiesToEven t = z := by
  have h1 : z - 1 ≤ ⌊t⌋ := Int.le_floor.mpr (by push_cast; linarith)
  have h2 : ⌊t⌋ < z + 1 := Int.floor_lt.mpr (by push_cast; linarith)
  have hfl := Int.floor_le t
  have hfl2 := Int.lt_floor_add_one t
  have hf : ⌊t⌋ = z - 1 ∨ ⌊t⌋ = z := by omega
  unfold roundTiesToEven
  rcases hf with hf | hf
  · rw [hf] at hfl hfl2 ⊢
    push_cast at hfl hfl2 ⊢
    rw [if_neg (by linarith), if_pos (by linarith)]
    ring
  · rw [hf] at hfl hfl2 ⊢
    rw [if_pos (by linarith)]

theorem roundTiesToEven_error (t : K) : |((roundTiesToEven t : ℤ) : K) - t| ≤ 1 / 2 := by
  have hfl := Int.floor_le t
  have hfl2 := Int.lt_floor_add_one t
  unfold roundTiesToEven
  rw [abs_le]
  split_ifs with h1 h2 h3
  · constructor <;> linarith
  · push_cast; constructor <;> linarith
  · have : t - ⌊t⌋ = 1 / 2 := le_antisymm (not_lt.mp h2) (not_lt.mp h1)
    constructor <;> linarith
  · have : t - ⌊t⌋ = 1 / 2 := le_antisymm (not_lt.mp h2) (not_lt.mp h1)
    push_cast
    constructor <;> linarith

theorem cast_roundBinary (p : Nat) (emin : ℤ) (x : K) (hx : x ≠ 0) :
    ((roundBinary p emin x : ℚ) : K) =
      (roundTiesToEven (x / (2 : K) ^ (max (Int.log 2 |x|) emin - (p - 1))) : K) *
        (2 : K) ^ (max (Int.log 2 |x|) emin - (p - 1)) := by
  unfold roundBinary
  rw [if_neg hx]
  push_cast
  rfl

/-- The rounding error is at most half a unit in the last place. -/
theorem roundBinary_error (p : Nat) (emin E : ℤ) (x : K) (hx : |x| < (2 : K) ^ (E + 1))
    (hE : emin ≤ E) : |((roundBinary p emin x : ℚ) : K) - x| ≤ (2 : K) ^ (E - p) := by
  by_cases h0 : x = 0
  · subst h0
    have : roundBinary p emin (0 : K) = 0 := by unfold roundBinary; rw [if_pos rfl]
    rw [this]
    simp only [Rat.cast_zero, sub_zero, abs_zero]
    positivity
  have hpos : 0 < |x| := abs_pos.mpr h0
  have hlog : Int.log 2 |x| < E + 1 := by
    have := (Int.lt_zpow_iff_log_lt (R := K) (b := 2) (by norm_num) hpos).mp
      (by simpa using hx)
    exact this
  have he : max (Int.log 2 |x|) emin ≤ E := max_le (by omega) hE
  rw [cast_roundBinary p emin x h0]
  set e := max (Int.log 2 |x|) emin with hedef
  have hu : (0 : K) < (2 : K) ^ (e - (p - 1)) := zpow_pos (by norm_num) _
  have hx' : x = x / (2 : K) ^ (e - (p - 1)) * (2 : K) ^ (e - (p - 1)) :=
    (div_mul_cancel₀ _ (ne_of_gt hu)).symm
  have hr := roundTiesToEven_error (x / (2 : K) ^ (e - (p - 1)))
  have hsub : (roundTiesToEven (x / (2 : K) ^ (e - (p - 1))) : K) * (2 : K) ^ (e - (p - 1)) - x =
      ((roundTiesToEven (x / (2 : K) ^ (e - (p - 1))) : K) - x / (2 : K) ^ (e - (p - 1))) *
        (2 : K) ^ (e - (p - 1)) := by
    rw [sub_mul, div_mul_cancel₀ _ (ne_of_gt hu)]
  rw [hsub, abs_mul, abs_of_pos hu]
  calc _ ≤ 1 / 2 * (2 : K) ^ (e - (p - 1)) := mul_le_mul_of_nonneg_right hr (le_of_lt hu)
    _ = (2 : K) ^ (e - p) := by
      have : e - (p - 1) = (e - p) + 1 := by ring
      rw [this, zpow_add_one₀ (by norm_num)]
      ring
    _ ≤ (2 : K) ^ (E - p) := zpow_le_zpow_right₀ (by norm_num) (by omega)

/-- The rounding of a number whose binade and nearest significand are known. -/
theorem roundBinary_eq (p : Nat) (emin : ℤ) (x : K) (e z : ℤ)
    (h1 : (2 : K) ^ e ≤ |x|) (h2 : |x| < (2 : K) ^ (e + 1)) (hemin : emin ≤ e)
    (hlo : (z : K) - 1 / 2 < x / (2 : K) ^ (e - (p - 1)))
    (hhi : x / (2 : K) ^ (e - (p - 1)) < z + 1 / 2) :
    roundBinary p emin x = z * (2 : ℚ) ^ (e - (p - 1)) := by
  have hpos : 0 < |x| := lt_of_lt_of_le (zpow_pos (by norm_num) _) h1
  have h0 : x ≠ 0 := abs_pos.mp hpos
  have hlog : Int.log 2 |x| = e := by
    have ha := (Int.zpow_le_iff_le_log (R := K) (b := 2) (by norm_num) hpos).mp
      (by simpa using h1)
    have hb := (Int.lt_zpow_iff_log_lt (R := K) (b := 2) (by norm_num) hpos).mp
      (by simpa using h2)
    omega
  unfold roundBinary
  rw [if_neg h0]
  simp only []
  rw [hlog, max_eq_left hemin, roundTiesToEven_near _ z hlo hhi]

end Rounding


theorem roundBinary_exact (p : Nat) (emin : ℤ) (x : ℚ) (e z : ℤ)
    (h1 : (2 : ℚ) ^ e ≤ |x|) (h2 : |x| < (2 : ℚ) ^ (e + 1)) (hemin : emin ≤ e)
    (hz : x / (2 : ℚ) ^ (e - (p - 1)) = z) : roundBinary p emin x = x := by
  rw [roundBinary_eq p emin x e z h1 h2 hemin (by rw [hz]; linarith) (by rw [hz]; linarith),
    ← hz]
  exact div_mul_cancel₀ _ (zpow_ne_zero _ (by norm_num))

theorem binary64_two_pi :
    binary64 ((884279719003555 / 281474976710656 : ℚ) * 2) =
      884279719003555 / 140737488355328 := by
  have h := roundBinary_exact 53 (-1022) ((884279719003555 / 281474976710656 : ℚ) * 2) 2
    7074237752028440 (by norm_num [abs_of_pos]) (by norm_num [abs_of_pos]) (by norm_num)
    (by norm_num)
  unfold binary64
  rw [h]
  norm_num


theorem binary32_between {K : Type} [LinearOrderedField K] [FloorRing K] (x : K) (lo hi : ℚ)
    (E : ℤ) (hE : -126 ≤ E) (hlo : (lo : K) ≤ x) (hhi : x ≤ (hi : K))
    (habs : |x| < (2 : K) ^ (E + 1)) :
    lo - (2 : ℚ) ^ (E - 24) ≤ binary32 x ∧ binary32 x ≤ hi + (2 : ℚ) ^ (E - 24) := by
  have h := roundBinary_error 24 (-126) E x habs hE
  rw [abs_le] at h
  have h24 : (2 : K) ^ (E - ((24 : Nat) : ℤ)) = (2 : K) ^ (E - 24) := rfl
  rw [h24] at h
  unfold binary32
  constructor
  · rw [← Rat.cast_le (K := K), Rat.cast_sub, Rat.cast_zpow, Rat.cast_ofNat]
    linarith [h.1]
  · rw [← Rat.cast_le (K := K), Rat.cast_add, Rat.cast_zpow, Rat.cast_ofNat]
    linarith [h.2]


theorem binary64_one : binary64 (1 : ℚ) = 1 :=
  roundBinary_exact 53 (-1022) 1 0 4503599627370496 (by norm_num) (by norm_num) (by norm_num)
    (by norm_num)

theorem binary64_two : binary64 (2 : ℚ) = 2 :=
  roundBinary_exact 53 (-1022) 2 1 4503599627370496 (by norm_num) (by norm_num) (by norm_num)
    (by norm_num)

theorem binary64_three : binary64 (3 : ℚ) = 3 :=
  roundBinary_exact 53 (-1022) 3 1 6755399441055744 (by norm_num) (by norm_num) (by norm_num)
    (by norm_num)

theorem binary64_four : binary64 (4 : ℚ) = 4 :=
  roundBinary_exact 53 (-1022) 4 2 4503599627370496 (by norm_num) (by norm_num) (by norm_num)
    (by norm_num)

/-- The `double` values `2π`, `π`, `π / 2`, `4π`: the significand of `M_PI`, scaled. -/
theorem binary64_pi_scaled (e : ℤ) (he : -1022 ≤ e) :
    binary64 ((7074237752028440 : ℚ) * 2 ^ (e - 52)) = 7074237752028440 * 2 ^ (e - 52) := by
  have hpos : (0 : ℚ) < 2 ^ (e - 52) := zpow_pos (by norm_num) _
  have hsplit : (2 : ℚ) ^ e = 2 ^ (52 : ℤ) * 2 ^ (e - 52) := by
    rw [← zpow_add₀ (by norm_num)]
    congr 1
    ring
  have hsplit1 : (2 : ℚ) ^ (e + 1) = 2 ^ (53 : ℤ) * 2 ^ (e - 52) := by
    rw [← zpow_add₀ (by norm_num)]
    congr 1
    ring
  refine roundBinary_exact 53 (-1022) _ e 7074237752028440 ?_ ?_ he ?_
  · rw [abs_of_pos (mul_pos (by norm_num) hpos), hsplit]
    exact mul_le_mul_of_nonneg_right (by norm_num) (le_of_lt hpos)
  · rw [abs_of_pos (mul_pos (by norm_num) hpos), hsplit1]
    exact mul_lt_mul_of_pos_right (by norm_num) hpos
  · have : e - (((53 : Nat) : ℤ) - 1) = e - 52 := by norm_num
    rw [this, mul_div_assoc, div_self (ne_of_gt hpos)]
    norm_num

/-- The `double` values `6π`, `3π`, `3π / 2`. -/
theorem binary64_three_pi_scaled (e : ℤ) (he : -1022 ≤ e) :
    binary64 ((5305678314021330 : ℚ) * 2 ^ (e - 52)) = 5305678314021330 * 2 ^ (e - 52) := by
  have hpos : (0 : ℚ) < 2 ^ (e - 52) := zpow_pos (by norm_num) _
  have hsplit : (2 : ℚ) ^ e = 2 ^ (52 : ℤ) * 2 ^ (e - 52) := by
    rw [← zpow_add₀ (by norm_num)]
    congr 1
    ring
  have hsplit1 : (2 : ℚ) ^ (e + 1) = 2 ^ (53 : ℤ) * 2 ^ (e - 52) := by
    rw [← zpow_add₀ (by norm_num)]
    congr 1
    ring
  refine roundBinary_exact 53 (-1022) _ e 5305678314021330 ?_ ?_ he ?_
  · rw [abs_of_pos (mul_pos (by norm_num) hpos), hsplit]
    exact mul_le_mul_of_nonneg_right (by norm_num) (le_of_lt hpos)
  · rw [abs_of_pos (mul_pos (by norm_num) hpos), hsplit1]
    exact mul_lt_mul_of_pos_right (by norm_num) hpos
  · have : e - (((53 : Nat) : ℤ) - 1) = e - 52 := by norm_num
    rw [this, mul_div_assoc, div_self (ne_of_gt hpos)]
    norm_num

theorem single_M_PI : CMath.single.M_PI = 884279719003555 / 281474976710656 := rfl

theorem single_angle_right_zero (M : CMath ℚ) (N k : Nat) : Single.angle M N k 0 = 0 := by
  unfold Single.angle binary32 binary64
  rw [Nat.cast_zero, roundBinary_zero, mul_zero, roundBinary_zero, zero_div, roundBinary_zero,
    roundBinary_zero]

/-- The argument for `k = 1`, `n = 1`, `N = 4`: the `float` nearest to `M_PI / 2`. -/
theorem single_angle_quarter :
    Single.angle CMath.single 4 1 1 = 13176795 / 8388608 := by
  unfold Single.angle
  rw [single_M_PI]
  have h1 : ((884279719003555 / 281474976710656 : ℚ) * 2) = 7074237752028440 * 2 ^ ((2 : ℤ) - 52) := by
    norm_num
  have h2 : (7074237752028440 : ℚ) * 2 ^ ((2 : ℤ) - 52) / 4 =
      7074237752028440 * 2 ^ ((0 : ℤ) - 52) := by norm_num
  have e2 := binary64_pi_scaled 2 (by norm_num)
  rw [h1]
  simp only [Nat.cast_one, Nat.cast_ofNat, binary64_one, mul_one, binary64_four, e2]
  rw [h2, binary64_pi_scaled 0 (by norm_num)]
  unfold binary32
  rw [roundBinary_eq 24 (-126) _ 0 13176795 (by norm_num [abs_of_pos])
    (by norm_num [abs_of_pos]) (by norm_num) (by norm_num) (by norm_num)]
  norm_num


/-- The argument for `k = 1`, `n = 2`, `N = 4`: the `float` nearest to `M_PI`. -/
theorem single_angle_half :
    Single.angle CMath.single 4 1 2 = 13176795 / 4194304 := by
  unfold Single.angle
  rw [single_M_PI]
  have h1 : ((884279719003555 / 281474976710656 : ℚ) * 2) =
      7074237752028440 * 2 ^ ((2 : ℤ) - 52) := by norm_num
  have h2 : (7074237752028440 : ℚ) * 2 ^ ((2 : ℤ) - 52) * 2 =
      7074237752028440 * 2 ^ ((3 : ℤ) - 52) := by norm_num
  have h3 : (7074237752028440 : ℚ) * 2 ^ ((3 : ℤ) - 52) / 4 =
      7074237752028440 * 2 ^ ((1 : ℤ) - 52) := by norm_num
  have e2 := binary64_pi_scaled 2 (by norm_num)
  rw [h1]
  simp only [Nat.cast_one, Nat.cast_ofNat, binary64_one, binary64_two, mul_one, binary64_four,
    e2]
  rw [h2, binary64_pi_scaled 3 (by norm_num), h3, binary64_pi_scaled 1 (by norm_num)]
  unfold binary32
  rw [roundBinary_eq 24 (-126) _ 1 13176795 (by norm_num [abs_of_pos])
    (by norm_num [abs_of_pos]) (by norm_num) (by norm_num) (by norm_num)]
  norm_num

/-- The argument for `k = 1`, `n = 3`, `N = 4`: the `float` nearest to `3 * M_PI / 2`. -/
theorem single_angle_three_quarters :
    Single.angle CMath.single 4 1 3 = 2470649 / 524288 := by
  unfold Single.angle
  rw [single_M_PI]
  have h1 : ((884279719003555 / 281474976710656 : ℚ) * 2) =
      7074237752028440 * 2 ^ ((2 : ℤ) - 52) := by norm_num
  have h2 : (7074237752028440 : ℚ) * 2 ^ ((2 : ℤ) - 52) * 3 =
      5305678314021330 * 2 ^ ((4 : ℤ) - 52) := by norm_num
  have h3 : (5305678314021330 : ℚ) * 2 ^ ((4 : ℤ) - 52) / 4 =
      5305678314021330 * 2 ^ ((2 : ℤ) - 52) := by norm_num
  have e2 := binary64_pi_scaled 2 (by norm_num)
  rw [h1]
  simp only [Nat.cast_one, Nat.cast_ofNat, binary64_one, binary64_three, mul_one,
    binary64_four, e2]
  rw [h2, binary64_three_pi_scaled 4 (by norm_num), h3,
    binary64_three_pi_scaled 2 (by norm_num)]
  unfold binary32
  rw [roundBinary_eq 24 (-126) _ 2 9882596 (by norm_num [abs_of_pos])
    (by norm_num [abs_of_pos]) (by norm_num) (by norm_num) (by norm_num)]
  norm_num

theorem sin_small_bounds (d lo hi : ℝ) (hlo : 0 < lo) (h1 : lo < d) (h2 : d < hi)
    (h3 : hi ≤ 1 / 10 ^ 7) : lo - 1 / 10 ^ 21 < Real.sin d ∧ Real.sin d < hi := by
  have hpos : 0 < d := lt_trans hlo h1
  have hd3 : d < 1 / 10 ^ 7 := lt_of_lt_of_le h2 h3
  have hs1 := Real.sin_lt hpos
  have hs2 := Real.sin_gt_sub_cube hpos (le_of_lt (lt_trans hd3 (by norm_num)))
  have hcube : d ^ 3 < (1 / 10 ^ 7) ^ 3 :=
    pow_lt_pow_left₀ hd3 (le_of_lt hpos) (by norm_num)
  have hc : ((1 : ℝ) / 10 ^ 7) ^ 3 = 1 / 10 ^ 21 := by norm_num
  rw [hc] at hcube
  constructor
  · linarith
  · linarith

/-- The cosine at the `float` nearest to `π / 2`, which lies above `π / 2`. -/
theorem cos_float_half_pi :
    (-43712 / 10 ^ 12 : ℝ) < Real.cos ((13176795 / 8388608 : ℚ) : ℝ) ∧
      Real.cos ((13176795 / 8388608 : ℚ) : ℝ) < -43711 / 10 ^ 12 := by
  have hlo := Real.pi_gt_d20
  have hhi := Real.pi_lt_d20
  have hx : ((13176795 / 8388608 : ℚ) : ℝ) =
      ((13176795 / 8388608 : ℝ) - Real.pi / 2) + Real.pi / 2 := by
    push_cast
    ring
  rw [hx, Real.cos_add_pi_div_two]
  have hd1 : (437113 / 10 ^ 13 : ℝ) < (13176795 / 8388608 : ℝ) - Real.pi / 2 := by
    norm_num at hlo hhi ⊢; linarith
  have hd2 : (13176795 / 8388608 : ℝ) - Real.pi / 2 < 437114 / 10 ^ 13 := by
    norm_num at hlo hhi ⊢; linarith
  obtain ⟨h1, h2⟩ := sin_small_bounds _ _ _ (by norm_num) hd1 hd2 (by norm_num)
  constructor
  · have : (437114 / 10 ^ 13 : ℝ) < 43712 / 10 ^ 12 := by norm_num
    linarith
  · have : (43711 / 10 ^ 12 : ℝ) < 437113 / 10 ^ 13 - 1 / 10 ^ 21 := by norm_num
    linarith

/-- The cosine at the `float` nearest to `π`. -/
theorem cos_float_pi :
    (-1 : ℝ) ≤ Real.cos ((13176795 / 4194304 : ℚ) : ℝ) ∧
      Real.cos ((13176795 / 4194304 : ℚ) : ℝ) < -1 + 1 / 10 ^ 14 := by
  have hlo := Real.pi_gt_d20
  have hhi := Real.pi_lt_d20
  refine ⟨Real.neg_one_le_cos _, ?_⟩
  have hx : ((13176795 / 4194304 : ℚ) : ℝ) =
      ((13176795 / 4194304 : ℝ) - Real.pi) + Real.pi := by
    push_cast
    ring
  rw [hx, Real.cos_add_pi]
  have hd1 : (0 : ℝ) < (13176795 / 4194304 : ℝ) - Real.pi := by
    norm_num at hlo hhi ⊢; linarith
  have hd2 : (13176795 / 4194304 : ℝ) - Real.pi < 1 / 10 ^ 7 := by
    norm_num at hlo hhi ⊢; linarith
  have hc := Real.one_sub_sq_div_two_le_cos (x := (13176795 / 4194304 : ℝ) - Real.pi)
  have hsq : ((13176795 / 4194304 : ℝ) - Real.pi) ^ 2 < (1 / 10 ^ 7) ^ 2 :=
    pow_lt_pow_left₀ hd2 (le_of_lt hd1) (by norm_num)
  have h14 : ((1 : ℝ) / 10 ^ 7) ^ 2 = 1 / 10 ^ 14 := by norm_num
  rw [h14] at hsq
  linarith

/-- The cosine at the `float` nearest to `3π / 2`, which lies above `3π / 2`. -/
theorem cos_float_three_half_pi :
    (11924 / 10 ^ 12 : ℝ) < Real.cos ((2470649 / 524288 : ℚ) : ℝ) ∧
      Real.cos ((2470649 / 524288 : ℚ) : ℝ) < 11925 / 10 ^ 12 := by
  have hlo := Real.pi_gt_d20
  have hhi := Real.pi_lt_d20
  have hx : ((2470649 / 524288 : ℚ) : ℝ) =
      (((2470649 / 524288 : ℝ) - 3 * Real.pi / 2) + Real.pi) + Real.pi / 2 := by
    push_cast
    ring
  rw [hx, Real.cos_add_pi_div_two, Real.sin_add_pi, neg_neg]
  have hd1 : (119248 / 10 ^ 13 : ℝ) < (2470649 / 524288 : ℝ) - 3 * Real.pi / 2 := by
    norm_num at hlo hhi ⊢; linarith
  have hd2 : (2470649 / 524288 : ℝ) - 3 * Real.pi / 2 < 119249 / 10 ^ 13 := by
    norm_num at hlo hhi ⊢; linarith
  obtain ⟨h1, h2⟩ := sin_small_bounds _ _ _ (by norm_num) hd1 hd2 (by norm_num)
  constructor
  · have : (11924 / 10 ^ 12 : ℝ) < 119248 / 10 ^ 13 - 1 / 10 ^ 21 := by norm_num
    linarith
  · have : (119249 / 10 ^ 13 : ℝ) < 11925 / 10 ^ 12 := by norm_num
    linarith


/-- A number just above `-1` rounds to `-1`. -/
theorem binary32_near_neg_one (x : ℝ) (h1 : -1 ≤ x) (h2 : x < -1 + 1 / 10 ^ 14) :
    binary32 x = -1 := by
  unfold binary32
  rcases eq_or_lt_of_le h1 with h | h
  · rw [← h, roundBinary_eq 24 (-126) (-1 : ℝ) 0 (-8388608) (by norm_num) (by norm_num)
      (by norm_num) (by norm_num) (by norm_num)]
    norm_num
  · have habs : |x| = -x := abs_of_neg (by linarith)
    have hu : (2 : ℝ) ^ ((-1 : ℤ) - (((24 : Nat) : ℤ) - 1)) = 1 / 16777216 := by norm_num
    rw [roundBinary_eq 24 (-126) x (-1) (-16777216) (by rw [habs]; norm_num; linarith)
      (by rw [habs]; norm_num; linarith) (by norm_num)
      (by rw [hu]; norm_num; linarith) (by rw [hu]; norm_num; linarith)]
    norm_num

theorem binary32_neg_one : binary32 (-1 : ℚ) = -1 :=
  roundBinary_exact 24 (-126) (-1) 0 (-8388608) (by norm_num) (by norm_num) (by norm_num)
    (by norm_num)

/-- The real part of a term of dft.cc:19 for a sample 1, from bounds on the cosine: three
roundings, each off by at most half a unit in the last place. -/
theorem single_term_between (c : ℝ) (lo hi : ℚ) (E : ℤ) (hE : -126 ≤ E)
    (hlo : (lo : ℝ) ≤ c) (hhi : c ≤ (hi : ℝ))
    (hb1 : -(2 : ℚ) ^ (E + 1) < lo - 2 * 2 ^ (E - 24))
    (hb2 : hi + 2 * 2 ^ (E - 24) < (2 : ℚ) ^ (E + 1)) :
    lo - 3 * 2 ^ (E - 24) ≤ binary32 (1 * binary32 (binary32 c - 0)) ∧
      binary32 (1 * binary32 (binary32 c - 0)) ≤ hi + 3 * 2 ^ (E - 24) := by
  have hpos : (0 : ℚ) < 2 ^ (E - 24) := zpow_pos (by norm_num) _
  have hcast : (((2 : ℚ) ^ (E + 1) : ℚ) : ℝ) = (2 : ℝ) ^ (E + 1) := by push_cast; rfl
  have hc : |c| < (2 : ℝ) ^ (E + 1) := by
    rw [abs_lt, ← hcast]
    constructor
    · have : ((-(2 : ℚ) ^ (E + 1) : ℚ) : ℝ) < (lo : ℝ) := by
        rw [Rat.cast_lt]; linarith
      push_cast at this ⊢
      linarith
    · have : ((hi : ℚ) : ℝ) < (((2 : ℚ) ^ (E + 1) : ℚ) : ℝ) := by
        rw [Rat.cast_lt]; linarith
      linarith
  obtain ⟨a1, a2⟩ := binary32_between c lo hi E hE hlo hhi hc
  rw [sub_zero, one_mul]
  obtain ⟨b1, b2⟩ := binary32_between (binary32 c) (lo - 2 ^ (E - 24)) (hi + 2 ^ (E - 24)) E hE
    (by rw [Rat.cast_id]; exact a1) (by rw [Rat.cast_id]; exact a2)
    (by rw [abs_lt]; constructor <;> linarith)
  obtain ⟨c1, c2⟩ := binary32_between (binary32 (binary32 c)) (lo - 2 ^ (E - 24) - 2 ^ (E - 24))
    (hi + 2 ^ (E - 24) + 2 ^ (E - 24)) E hE
    (by rw [Rat.cast_id]; exact b1) (by rw [Rat.cast_id]; exact b2)
    (by rw [abs_lt]; constructor <;> linarith)
  constructor <;> linarith


theorem single_term_re (n : Nat) :
    (Single.dftTerm CMath.single 4 1 n 1).re =
      binary32 (1 * binary32 (binary32 (Real.cos ((Single.angle CMath.single 4 1 n : ℚ) : ℝ))
        - 0)) := rfl

theorem single_accumulate_four_re :
    (Single.accumulate CMath.single [1, 1, 1, 1] 1 4 0).re =
      binary32 (binary32 (binary32 (binary32 (0 +
        (Single.dftTerm CMath.single 4 1 0 1).re) +
        (Single.dftTerm CMath.single 4 1 1 1).re) +
        (Single.dftTerm CMath.single 4 1 2 1).re) +
        (Single.dftTerm CMath.single 4 1 3 1).re) := rfl

/-- In single precision the coefficient `X[1]` of `[1, 1, 1, 1]` has the real part
`-4.768e-8`, not 0: the arguments of the cosine are the `float`s nearest to `π / 2`, `π`
and `3π / 2`, and `1 + cos(float(π / 2))` rounds to `1 - 2 ^ (-24)`. -/
theorem single_dft_four_ones :
    ∃ X : List (complex ℚ),
      Single.DiscreteFourierTransform CMath.single (ofList [1, 1, 1, 1]) = .ok (ofList X) ∧
      X.length = 4 ∧
      ∃ c : complex ℚ, X[1]? = some c ∧ -47681 / 10 ^ 12 < c.re ∧ c.re < -47679 / 10 ^ 12 := by
  refine ⟨_, single_dft_ofList CMath.single _, by rw [length_tabulate]; rfl,
    Single.accumulate CMath.single [1, 1, 1, 1] 1 4 0, ?_, ?_⟩
  · rw [getElem?_tabulate, if_pos (by decide)]
    rfl
  show -47681 / 10 ^ 12 < (Single.accumulate CMath.single [1, 1, 1, 1] 1 4 0).re ∧
    (Single.accumulate CMath.single [1, 1, 1, 1] 1 4 0).re < -47679 / 10 ^ 12
  rw [single_accumulate_four_re]
  -- the term of `n = 0`
  have hT0 : (Single.dftTerm CMath.single 4 1 0 1).re = 1 := by
    rw [single_term_re, single_angle_right_zero]
    have := single_cos_zero
    change binary32 (Real.cos ((0 : ℚ) : ℝ)) = 1 at this
    rw [this, sub_zero, binary32_one, one_mul, binary32_one]
  -- the term of `n = 1`
  obtain ⟨hc1, hc1'⟩ := cos_float_half_pi
  have hT1 := single_term_between (Real.cos ((13176795 / 8388608 : ℚ) : ℝ))
    (-43712 / 10 ^ 12) (-43711 / 10 ^ 12) (-25) (by norm_num)
    (by rw [show ((-43712 / 10 ^ 12 : ℚ) : ℝ) = -43712 / 10 ^ 12 by norm_num]
        exact le_of_lt hc1)
    (by rw [show ((-43711 / 10 ^ 12 : ℚ) : ℝ) = -43711 / 10 ^ 12 by norm_num]
        exact le_of_lt hc1')
    (by norm_num) (by norm_num)
  rw [← single_angle_quarter, ← single_term_re] at hT1
  -- the term of `n = 2`
  have hT2 : (Single.dftTerm CMath.single 4 1 2 1).re = -1 := by
    rw [single_term_re, single_angle_half,
      binary32_near_neg_one _ cos_float_pi.1 cos_float_pi.2, sub_zero, binary32_neg_one,
      one_mul, binary32_neg_one]
  -- the term of `n = 3`
  obtain ⟨hc3, hc3'⟩ := cos_float_three_half_pi
  have hT3 := single_term_between (Real.cos ((2470649 / 524288 : ℚ) : ℝ))
    (11924 / 10 ^ 12) (11925 / 10 ^ 12) (-27) (by norm_num)
    (by rw [show ((11924 / 10 ^ 12 : ℚ) : ℝ) = 11924 / 10 ^ 12 by norm_num]
        exact le_of_lt hc3)
    (by rw [show ((11925 / 10 ^ 12 : ℚ) : ℝ) = 11925 / 10 ^ 12 by norm_num]
        exact le_of_lt hc3')
    (by norm_num) (by norm_num)
  rw [← single_angle_three_quarters, ← single_term_re] at hT3
  generalize (Single.dftTerm CMath.single 4 1 1 1).re = t1 at hT1 ⊢
  generalize (Single.dftTerm CMath.single 4 1 3 1).re = t3 at hT3 ⊢
  rw [hT0, hT2, zero_add, binary32_one]
  norm_num at hT1 hT3
  -- the accumulator after `n = 1`
  have hr1 : binary32 (1 + t1) = 16777215 / 16777216 := by
    have hpos : (0 : ℚ) < 1 + t1 := by linarith [hT1.1]
    unfold binary32
    have hu : (2 : ℚ) ^ ((-1 : ℤ) - (((24 : Nat) : ℤ) - 1)) = 1 / 16777216 := by norm_num
    rw [roundBinary_eq 24 (-126) (1 + t1) (-1) 16777215
      (by rw [abs_of_pos hpos]; norm_num; linarith [hT1.1])
      (by rw [abs_of_pos hpos]; norm_num; linarith [hT1.2]) (by norm_num)
      (by rw [hu]; norm_num; linarith [hT1.1]) (by rw [hu]; norm_num; linarith [hT1.2])]
    norm_num
  -- the accumulator after `n = 2`
  have hr2 : binary32 ((16777215 / 16777216 : ℚ) + -1) = -1 / 16777216 := by
    have hx : ((16777215 / 16777216 : ℚ) + -1) = -1 / 16777216 := by norm_num
    rw [hx]
    exact roundBinary_exact 24 (-126) _ (-24) (-8388608) (by norm_num [abs_of_neg])
      (by norm_num [abs_of_neg]) (by norm_num) (by norm_num)
  rw [hr1, hr2]
  -- the accumulator after `n = 3`
  obtain ⟨h1, h2⟩ := binary32_between ((-1 / 16777216 : ℚ) + t3)
    (-1 / 16777216 + (11924 / 10 ^ 12 - 1 / 10 ^ 14)) (-1 / 16777216 + (11925 / 10 ^ 12 + 1 / 10 ^ 14))
    (-25) (by norm_num)
    (by rw [Rat.cast_id]; linarith [hT3.1]) (by rw [Rat.cast_id]; linarith [hT3.2])
    (by rw [abs_lt]; constructor <;> norm_num <;> linarith [hT3.1, hT3.2])
  norm_num at h1 h2 ⊢
  constructor <;> linarith

/-! ## The claims -/

/-- The equivalence of the two transforms in exact arithmetic, for the lengths
`2 ^ p` with `p ≤ 30`: both return the same spectrum, of length `2 ^ p`. -/
theorem FastFourierTransform_eq_DiscreteFourierTransform (p : Nat) (hp : p ≤ 30) (x : List ℝ)
    (hx : x.length = 2 ^ p) :
    ∃ X : List (complex ℝ),
      FastFourierTransform CMath.exact (ofList x) = .ok (ofList X) ∧
      DiscreteFourierTransform CMath.exact (ofList x) = .ok (ofList X) ∧
      (ofList X).Size = 2 ^ p :=
  ⟨tabulate x.length (dftFormula CMath.exact x), fft_exact p hp x hx, dft_ofList _ x,
    by rw [Size_ofList, length_tabulate, hx]⟩

/-- C1, at the failing input: on the signal of `2 ^ 31` samples, all zero,
`FastFourierTransform` stops at the failed bounds assertion of `operator[]` (stage 30
computes `m = 1 << 31` in a 32-bit `int`), while `DiscreteFourierTransform` returns a
spectrum of length `2 ^ 31`: the two transforms do not agree. -/
theorem FastFourierTransform_two_pow_31 :
    FastFourierTransform CMath.exact (ofList (List.replicate (2 ^ 31) (0 : ℝ))) =
      .error .OutOfRange ∧
    ∃ X : UniqueBuffer (complex ℝ),
      DiscreteFourierTransform CMath.exact (ofList (List.replicate (2 ^ 31) (0 : ℝ))) = .ok X ∧
      X.Size = 2 ^ 31 :=
  ⟨fft_out_of_range _ _ (List.length_replicate _ _),
    _, dft_ofList _ _, by rw [Size_ofList, length_tabulate, List.length_replicate]⟩

/-- C2: `DiscreteFourierTransform` returns a spectrum as long as the signal, whose `k`-th
coefficient is `Σ_{n < N} x[n] · (cos(2π k n / N) − i · sin(2π k n / N))`, the sum starting
from zero. -/
theorem DiscreteFourierTransform_formula {F : Type} [Field F] (M : CMath F) (x : List F) :
    ∃ X : List (complex F),
      DiscreteFourierTransform M (ofList x) = .ok (ofList X) ∧
      (ofList X).Size = x.length ∧
      ∀ k, k < x.length →
        X[k]? = some (∑ n in Finset.range x.length, complex.ofReal (x.getD n 0) *
          (complex.ofReal (M.cos (M.M_PI * 2 * (k : F) * (n : F) / (x.length : F))) -
            complex.I *
              complex.ofReal (M.sin (M.M_PI * 2 * (k : F) * (n : F) / (x.length : F))))) := by
  refine ⟨tabulate x.length (dftFormula M x), dft_ofList M x, ?_, ?_⟩
  · rw [Size_ofList, length_tabulate]
  · intro k hk
    rw [getElem?_tabulate, if_pos hk]
    rfl

/-- C3, at the failing input: the signal of length 0 passes the assertion
`(num_samples & (num_samples - 1)) == 0`; the call does not end in `InvalidSize` but in
the conversion of `log2(0)` to `unsigned`. -/
theorem FastFourierTransform_empty {F : Type} [Field F] (M : CMath F) :
    FastFourierTransform M (ofList ([] : List F)) = .error .Undefined :=
  fft_nil M

/-- C4, refuted as stated: on the signal of length 0 it is not the case that both
transforms fail with `InvalidSize`. -/
theorem not_both_InvalidSize_on_empty :
    ¬ (DiscreteFourierTransform CMath.exact (ofList []) = .error .InvalidSize ∧
       FastFourierTransform CMath.exact (ofList []) = .error .InvalidSize) := by
  rintro ⟨h, _⟩
  rw [dft_nil] at h
  exact Except.noConfusion h

/-- C4, amended: on the signal of length 0 `DiscreteFourierTransform` does not fail; it
returns the empty spectrum. -/
theorem DiscreteFourierTransform_empty {F : Type} [Field F] (M : CMath F) :
    DiscreteFourierTransform M (ofList ([] : List F)) = .ok (ofList []) ∧
    (ofList ([] : List (complex F))).Size = 0 :=
  ⟨dft_nil M, rfl⟩

/-- C5: for a width `w ≤ 64`, `reverse_bits(v, w)` returns `r < 2 ^ w` whose bit `i` is
bit `w - 1 - i` of `v` for `i < w` and whose higher bits are zero; `r` is the same for
every `v'` with the same low `w` bits. -/
theorem reverse_bits_spec (w v : Nat) (hw : w ≤ 64) :
    ∃ r, reverse_bits v w = .ok r ∧ r < 2 ^ w ∧
      (∀ i, i < w → r.testBit i = v.testBit (w - 1 - i)) ∧
      (∀ i, w ≤ i → r.testBit i = false) ∧
      (∀ v', v' % 2 ^ w = v % 2 ^ w → reverse_bits v' w = .ok r) := by
  refine ⟨revBits w v, reverse_bits_eq w hw v, revBits_lt w v,
    fun i hi => testBit_revBits w v i hi, fun i hi => testBit_revBits_ge w v i hi, ?_⟩
  intro v' hv'
  rw [reverse_bits_eq w hw, ← revBits_mod w v', hv', revBits_mod]

/-- The instance `w = 3`, `v = 6` of `reverse_bits_spec`. -/
theorem reverse_bits_spec_witness :
    3 ≤ 64 ∧
    ∃ r, reverse_bits 6 3 = .ok r ∧ r < 2 ^ 3 ∧
      (∀ i, i < 3 → r.testBit i = (6 : Nat).testBit (3 - 1 - i)) ∧
      (∀ i, 3 ≤ i → r.testBit i = false) ∧
      (∀ v', v' % 2 ^ 3 = 6 % 2 ^ 3 → reverse_bits v' 3 = .ok r) :=
  ⟨by decide, reverse_bits_spec 3 6 (by decide)⟩

/-- C6, refuted as stated: with width 65 the first shift of `reverse_bits` has count 64,
which a 64-bit `size_t` does not define, so `reverse_bits(reverse_bits(1, 65), 65)` is
not `1`. -/
theorem reverse_bits_width_65_not_involution :
    ¬ ∃ r, reverse_bits 1 65 = .ok r ∧ reverse_bits r 65 = .ok 1 := by
  rintro ⟨r, h, _⟩
  have e : reverse_bits 1 65 = .error .Undefined := rfl
  rw [e] at h
  exact Except.noConfusion h

/-- C6, amended: for every width `w ≤ 64` and every `i < 2 ^ w`,
`reverse_bits(reverse_bits(i, w), w) == i`. -/
theorem reverse_bits_involution (w i : Nat) (hw : w ≤ 64) (hi : i < 2 ^ w) :
    ∃ r, reverse_bits i w = .ok r ∧ reverse_bits r w = .ok i := by
  refine ⟨revBits w i, reverse_bits_eq w hw i, ?_⟩
  rw [reverse_bits_eq w hw, revBits_revBits, Nat.mod_eq_of_lt hi]

/-- The instance `w = 3`, `i = 6` of `reverse_bits_involution`. -/
theorem reverse_bits_involution_witness :
    3 ≤ 64 ∧ 6 < 2 ^ 3 ∧ ∃ r, reverse_bits 6 3 = .ok r ∧ reverse_bits r 3 = .ok 6 :=
  ⟨by decide, by decide, reverse_bits_involution 3 6 (by decide) (by decide)⟩

/-- C7, refuted as stated: with width 65 `reverse_bits` maps no index into `[0, 2 ^ 65)`;
already index 0 has no image. -/
theorem reverse_bits_width_65_no_image :
    ¬ ∃ r, reverse_bits 0 65 = .ok r ∧ r < 2 ^ 65 := by
  rintro ⟨r, h, _⟩
  have e : reverse_bits 0 65 = .error .Undefined := rfl
  rw [e] at h
  exact Except.noConfusion h

/-- C7, amended: for every width `w ≤ 64`, `i ↦ reverse_bits(i, w)` maps `[0, 2 ^ w)` into
itself, injectively and onto; the slots written by the bit-reversal copy, in the order
of the loop, are a permutation of `0, ..., 2 ^ w - 1`, and after the copy of a signal of
length `2 ^ w` every slot `r` holds the sample `x[i]` of the index `i` it is the image
of. -/
theorem reverse_bits_permutation {F : Type} [Field F] (w : Nat) (hw : w ≤ 64) :
    (∀ i, i < 2 ^ w → ∃ r, reverse_bits i w = .ok r ∧ r < 2 ^ w) ∧
    (∀ i j, i < 2 ^ w → j < 2 ^ w → reverse_bits i w = reverse_bits j w → i = j) ∧
    (∀ r, r < 2 ^ w → ∃ i, i < 2 ^ w ∧ reverse_bits i w = .ok r) ∧
    (∃ slots, (List.range (2 ^ w)).mapM (fun i => reverse_bits i w) = .ok slots ∧
      slots.Perm (List.range (2 ^ w))) ∧
    (∀ x : List F, x.length = 2 ^ w →
      ∃ output : List (complex F),
        (List.range (ofList x).Size).foldlM (bitReverseStep (ofList x) w)
          (ofSize (ofList x).Size) = .ok (ofList output) ∧
        output.length = 2 ^ w ∧
        ∀ r, r < 2 ^ w → ∃ i, i < 2 ^ w ∧ reverse_bits i w = .ok r ∧
          output[r]? = some (complex.ofReal (x.getD i 0))) := by
  refine ⟨fun i _ => ⟨revBits w i, reverse_bits_eq w hw i, revBits_lt w i⟩, ?_, ?_, ?_, ?_⟩
  · intro i j hi hj h
    rw [reverse_bits_eq w hw, reverse_bits_eq w hw] at h
    exact revBits_injOn w i j hi hj (Except.ok.inj h)
  · intro r hr
    exact ⟨revBits w r, revBits_lt w r, by
      rw [reverse_bits_eq w hw, revBits_revBits, Nat.mod_eq_of_lt hr]⟩
  · exact ⟨_, mapM_ok _ (revBits w) _ (fun i _ => reverse_bits_eq w hw i), revBits_perm w⟩
  · intro x hx
    obtain ⟨l, hrun, hlen, hval⟩ := bitReverseCopy_spec x w hw hx (2 ^ w) (le_refl _)
    refine ⟨l, by rw [Size_ofList, hx]; exact hrun, hlen, ?_⟩
    intro r hr
    refine ⟨revBits w r, revBits_lt w r, by
      rw [reverse_bits_eq w hw, revBits_revBits, Nat.mod_eq_of_lt hr], ?_⟩
    have h := hval (revBits w r) (revBits_lt w r)
    rw [revBits_revBits, Nat.mod_eq_of_lt hr, List.getD_eq_getElem?_getD] at h
    rw [List.getElem?_eq_getElem (by omega)] at h ⊢
    exact congrArg some h

/-- The instance `w = 3`, over the rationals, of `reverse_bits_permutation`. -/
theorem reverse_bits_permutation_witness :
    3 ≤ 64 ∧
    ((∀ i, i < 2 ^ 3 → ∃ r, reverse_bits i 3 = .ok r ∧ r < 2 ^ 3) ∧
    (∀ i j, i < 2 ^ 3 → j < 2 ^ 3 → reverse_bits i 3 = reverse_bits j 3 → i = j) ∧
    (∀ r, r < 2 ^ 3 → ∃ i, i < 2 ^ 3 ∧ reverse_bits i 3 = .ok r) ∧
    (∃ slots, (List.range (2 ^ 3)).mapM (fun i => reverse_bits i 3) = .ok slots ∧
      slots.Perm (List.range (2 ^ 3))) ∧
    (∀ x : List ℚ, x.length = 2 ^ 3 →
      ∃ output : List (complex ℚ),
        (List.range (ofList x).Size).foldlM (bitReverseStep (ofList x) 3)
          (ofSize (ofList x).Size) = .ok (ofList output) ∧
        output.length = 2 ^ 3 ∧
        ∀ r, r < 2 ^ 3 → ∃ i, i < 2 ^ 3 ∧ reverse_bits i 3 = .ok r ∧
          output[r]? = some (complex.ofReal (x.getD i 0)))) :=
  ⟨by decide, @reverse_bits_permutation ℚ _ 3 (by decide)⟩

/-- C8: for signals `x`, `y` of equal length and scalars `a`, `b`, the spectrum of
`a * x + b * y` is, coefficient by coefficient, `a` times the spectrum of `x` plus `b`
times the spectrum of `y`. -/
theorem DiscreteFourierTransform_linear {F : Type} [Field F] (M : CMath F) (x y : List F)
    (a b : F) (h : x.length = y.length) :
    ∃ X Y Z : List (complex F),
      DiscreteFourierTransform M (ofList x) = .ok (ofList X) ∧
      DiscreteFourierTransform M (ofList y) = .ok (ofList Y) ∧
      DiscreteFourierTransform M (ofList (List.zipWith (fun u v => a * u + b * v) x y)) =
        .ok (ofList Z) ∧
      X.length = x.length ∧ Y.length = x.length ∧ Z.length = x.length ∧
      ∀ k, k < x.length →
        Z.getD k 0 = complex.smul a (X.getD k 0) + complex.smul b (Y.getD k 0) := by
  have hz : (List.zipWith (fun u v => a * u + b * v) x y).length = x.length := by
    rw [List.length_zipWith, ← h, Nat.min_self]
  refine ⟨_, _, _, dft_ofList M x, dft_ofList M y, dft_ofList M _, length_tabulate _ _,
    by rw [length_tabulate, h], by rw [length_tabulate, hz], ?_⟩
  intro k hk
  rw [getD_tabulate, getD_tabulate, getD_tabulate, hz, ← h]
  simp only [if_pos hk]
  exact dftFormula_linear M a b x y h k

/-- The instance `x = [1, 2]`, `y = [3, 5]`, `a = 7`, `b = 11`, in exact arithmetic, of
`DiscreteFourierTransform_linear`. -/
theorem DiscreteFourierTransform_linear_witness :
    ([1, 2] : List ℝ).length = ([3, 5] : List ℝ).length ∧
    ∃ X Y Z : List (complex ℝ),
      DiscreteFourierTransform CMath.exact (ofList [1, 2]) = .ok (ofList X) ∧
      DiscreteFourierTransform CMath.exact (ofList [3, 5]) = .ok (ofList Y) ∧
      DiscreteFourierTransform CMath.exact
          (ofList (List.zipWith (fun u v => 7 * u + 11 * v) [1, 2] [3, 5])) =
        .ok (ofList Z) ∧
      X.length = ([1, 2] : List ℝ).length ∧ Y.length = ([1, 2] : List ℝ).length ∧
      Z.length = ([1, 2] : List ℝ).length ∧
      ∀ k, k < ([1, 2] : List ℝ).length →
        Z.getD k 0 = complex.smul 7 (X.getD k 0) + complex.smul 11 (Y.getD k 0) :=
  ⟨rfl, DiscreteFourierTransform_linear CMath.exact [1, 2] [3, 5] 7 11 rfl⟩

/-- C9: in exact arithmetic the spectrum of the unit impulse of length `N` has all `N`
coefficients equal to `1 + 0i`; for `N = 4` the impulse is `[1, 0, 0, 0]` and
`FastFourierTransform` returns `[1, 1, 1, 1]` as well. -/
theorem DiscreteFourierTransform_impulse (N : Nat) :
    DiscreteFourierTransform CMath.exact (ofList (impulse N)) =
      .ok (ofList (List.replicate N ⟨1, 0⟩)) ∧
    (impulse N).length = N ∧
    (∀ n, n < N → (impulse N)[n]? = some (if n = 0 then 1 else 0)) ∧
    impulse 4 = [1, 0, 0, 0] ∧
    DiscreteFourierTransform CMath.exact (ofList [1, 0, 0, 0]) =
      .ok (ofList [⟨1, 0⟩, ⟨1, 0⟩, ⟨1, 0⟩, ⟨1, 0⟩]) ∧
    FastFourierTransform CMath.exact (ofList [1, 0, 0, 0]) =
      .ok (ofList [⟨1, 0⟩, ⟨1, 0⟩, ⟨1, 0⟩, ⟨1, 0⟩]) := by
  refine ⟨dft_impulse N, length_tabulate _ _, ?_, impulse_four, ?_, fft_impulse_four⟩
  · intro n hn
    unfold impulse
    rw [getElem?_tabulate, if_pos hn]
  · rw [← impulse_four, dft_impulse 4]
    rfl

namespace UniqueBufferObject

variable {T : Type}

/-- C14, at the failing input: `src` is built from `{1, 2, 3}`, `dst` from `{9}`, then
`dst = std::move(src)`.  Afterwards `src` still has `Size() == 3` and the same non-null
`data_` as `dst`, and the two destructors release the same array twice. -/
theorem moveAssign_keeps_source :
    UniqueBufferObject.ofList (⟨[]⟩ : FreeStore Nat) [1, 2, 3] =
      (⟨some 0, 3⟩, ⟨[some [1, 2, 3]]⟩) ∧
    UniqueBufferObject.ofList (⟨[some [1, 2, 3]]⟩ : FreeStore Nat) [9] =
      (⟨some 1, 1⟩, ⟨[some [1, 2, 3], some [9]]⟩) ∧
    moveAssign ⟨some 1, 1⟩ ⟨some 0, 3⟩ = (⟨some 0, 3⟩, ⟨some 0, 3⟩) ∧
    (moveAssign ⟨some 1, 1⟩ ⟨some 0, 3⟩).2.Size = 3 ∧
    (moveAssign ⟨some 1, 1⟩ ⟨some 0, 3⟩).2.data_ = some 0 ∧
    (moveAssign ⟨some 1, 1⟩ ⟨some 0, 3⟩).1.data_ = some 0 ∧
    (destroy (⟨[some [1, 2, 3], some [9]]⟩ : FreeStore Nat) ⟨some 0, 3⟩ >>=
      fun h => destroy h ⟨some 0, 3⟩) = .error .Undefined :=
  ⟨rfl, rfl, rfl, rfl, rfl, rfl, rfl⟩

/-- C15: `Copy()` of a buffer `b` (moved-from, or holding a live array of `Size()`
elements) returns a buffer `c` of the same size with the same elements, in storage of
its own; `b` is unchanged, and a write through `operator[]` of one of the two leaves the
other as it was. -/
theorem Copy_independent [Inhabited T] (h : FreeStore T) (b : UniqueBufferObject)
    (hv : valid h b = true) :
    ∃ (c : UniqueBufferObject) (h' : FreeStore T),
      Copy h b = .ok (c, h') ∧
      c.Size = b.Size ∧
      (∀ i, i < b.Size → ∃ v, get h b i = .ok v ∧ get h' c i = .ok v) ∧
      view h' b = view h b ∧
      valid h' c = true ∧
      c.data_ ≠ b.data_ ∧
      (∀ i v h'', set h' c i v = .ok h'' → view h'' b = view h b) ∧
      (∀ i v h'', set h' b i v = .ok h'' → view h'' c = view h' c) := by
  obtain ⟨data, size⟩ := b
  cases data with
  | none =>
    have hs : size = 0 := by simpa [valid] using hv
    subst hs
    refine ⟨_, _, Copy_none h, rfl, ?_, rfl, ?_, ?_, ?_, ?_⟩
    · intro i hi
      exact absurd hi (Nat.not_lt_zero i)
    · simp [valid, FreeStore.load, FreeStore.store, FreeStore.alloc]
    · simp
    · intro i v h'' _
      rfl
    · intro i v h'' hset
      rw [set_none] at hset
      exact Except.noConfusion hset
  | some a =>
    have hv' : ∃ l, h.load a = some l ∧ l.length = size := by
      simp only [valid] at hv
      cases hl : h.load a with
      | none => rw [hl] at hv; exact absurd hv (by simp)
      | some l => rw [hl] at hv; exact ⟨l, rfl, by simpa using hv⟩
    obtain ⟨l, hl, hlen⟩ := hv'
    have ha := FreeStore.lt_of_load h a l hl
    have hne : h.arrays.length ≠ a := by omega
    have h1a : (h.alloc (List.replicate size (default : T))).2.load a = some l := by
      rw [FreeStore.load_alloc_old h _ a ha, hl]
    have hla : ((h.alloc (List.replicate size (default : T))).2.store h.arrays.length l).load a =
        some l := by
      rw [FreeStore.load_store_ne _ _ _ _ hne, h1a]
    have hlc : ((h.alloc (List.replicate size (default : T))).2.store h.arrays.length l).load
        h.arrays.length = some l :=
      FreeStore.load_store_same _ _ _ (by simp [FreeStore.alloc])
    refine ⟨_, _, Copy_some h a size l hl hlen, rfl, ?_, ?_, ?_, ?_, ?_, ?_⟩
    · intro i hi
      have hi' : i < l.length := by rw [hlen]; exact hi
      refine ⟨l.getD i default, ?_, ?_⟩
      · unfold get
        rw [view_some h a size l hl hlen, UniqueBuffer.get_ofList_lt default hi']
      · unfold get
        rw [view_some _ _ size l hlc hlen, UniqueBuffer.get_ofList_lt default hi']
    · rw [view_some _ a size l hla hlen, view_some h a size l hl hlen]
    · simp [valid, hlc, hlen]
    · intro hc
      exact hne (Option.some.inj hc)
    · intro i v h'' hset
      rw [set_some _ _ size l hlc hlen] at hset
      by_cases hi : i < l.length
      · rw [if_pos hi] at hset
        have e := Except.ok.inj hset
        subst e
        rw [view_some h a size l hl hlen, view_some _ a size l _ hlen]
        rw [FreeStore.load_store_ne _ _ _ _ hne, hla]
      · rw [if_neg hi] at hset
        exact Except.noConfusion hset
    · intro i v h'' hset
      rw [set_some _ _ size l hla hlen] at hset
      by_cases hi : i < l.length
      · rw [if_pos hi] at hset
        have e := Except.ok.inj hset
        subst e
        rw [view_some _ _ size l hlc hlen, view_some _ _ size l _ hlen]
        rw [FreeStore.load_store_ne _ _ _ _ (Ne.symm hne), hlc]
      · rw [if_neg hi] at hset
        exact Except.noConfusion hset


/-- The instance of `Copy_independent` for the buffer `{1, 2, 3}` at address 0. -/
theorem Copy_independent_witness :
    valid (⟨[some [1, 2, 3]]⟩ : FreeStore Nat) ⟨some 0, 3⟩ = true ∧
    ∃ (c : UniqueBufferObject) (h' : FreeStore Nat),
      Copy (⟨[some [1, 2, 3]]⟩ : FreeStore Nat) ⟨some 0, 3⟩ = .ok (c, h') ∧
      c.Size = (⟨some 0, 3⟩ : UniqueBufferObject).Size ∧
      (∀ i, i < (⟨some 0, 3⟩ : UniqueBufferObject).Size →
        ∃ v, get (⟨[some [1, 2, 3]]⟩ : FreeStore Nat) ⟨some 0, 3⟩ i = .ok v ∧
          get h' c i = .ok v) ∧
      view h' ⟨some 0, 3⟩ = view (⟨[some [1, 2, 3]]⟩ : FreeStore Nat) ⟨some 0, 3⟩ ∧
      valid h' c = true ∧
      c.data_ ≠ (⟨some 0, 3⟩ : UniqueBufferObject).data_ ∧
      (∀ i v h'', set h' c i v = .ok h'' →
        view h'' ⟨some 0, 3⟩ = view (⟨[some [1, 2, 3]]⟩ : FreeStore Nat) ⟨some 0, 3⟩) ∧
      (∀ i v h'', set h' ⟨some 0, 3⟩ i v = .ok h'' → view h'' c = view h' c) :=
  ⟨rfl, Copy_independent _ _ rfl⟩

end UniqueBufferObject

/-- C16: on a buffer of size `N`, `operator[]` gives element `i` when `i < N`, for
reading and for writing through the reference, and ends in the failed bounds assertion
exactly when `i ≥ N`; it gives no value for an index out of range. -/
theorem operator_index_checked {T : Type} (l : List T) (i : Nat) :
    (UniqueBuffer.ofList l).Size = l.length ∧
    (∀ v, (UniqueBuffer.ofList l).get i = .ok v ↔ l[i]? = some v) ∧
    ((UniqueBuffer.ofList l).get i = .error .OutOfRange ↔ l.length ≤ i) ∧
    (∀ v, (UniqueBuffer.ofList l).get i = .ok v → i < l.length) ∧
    (∀ v, i < l.length →
      (UniqueBuffer.ofList l).set i v = .ok (UniqueBuffer.ofList (l.set i v))) ∧
    (∀ v, (UniqueBuffer.ofList l).set i v = .error .OutOfRange ↔ l.length ≤ i) := by
  have hget : ∀ v, (UniqueBuffer.ofList l).get i = .ok v ↔ l[i]? = some v := by
    intro v
    unfold UniqueBuffer.get assert
    by_cases hi : i < l.length
    · simp [UniqueBuffer.ofList, UniqueBuffer.Size, hi, bind, Except.bind]
    · simp [UniqueBuffer.ofList, UniqueBuffer.Size, hi, bind, Except.bind,
        List.getElem?_eq_none (Nat.le_of_not_lt hi)]
  refine ⟨rfl, hget, ?_, ?_, ?_, ?_⟩
  · unfold UniqueBuffer.get assert
    by_cases hi : i < l.length
    · simp [UniqueBuffer.ofList, UniqueBuffer.Size, hi, bind, Except.bind]
    · simp [UniqueBuffer.ofList, UniqueBuffer.Size, hi, bind, Except.bind]
      omega
  · intro v hv
    by_contra hi
    rw [hget, List.getElem?_eq_none (Nat.le_of_not_lt hi)] at hv
    exact Option.noConfusion hv
  · intro v hi
    rw [UniqueBuffer.set_ofList, if_pos hi]
  · intro v
    rw [UniqueBuffer.set_ofList]
    by_cases hi : i < l.length
    · rw [if_pos hi]
      constructor
      · intro h; exact Except.noConfusion h
      · intro h; omega
    · rw [if_neg hi]
      exact ⟨fun _ => Nat.le_of_not_lt hi, fun _ => rfl⟩

/-- C12: for every `k < 64`, `uilog2(2 ^ k)` is `k`: the returned `r` satisfies
`2 ^ r == N`. -/
theorem uilog2_power_of_two (k : Nat) (hk : k < 64) :
    uilog2 (2 ^ k) = k ∧ 2 ^ uilog2 (2 ^ k) = 2 ^ k := by
  rw [uilog2_two_pow k hk]
  exact ⟨rfl, rfl⟩

/-- The instance `k = 5` of `uilog2_power_of_two`. -/
theorem uilog2_power_of_two_witness :
    5 < 64 ∧ uilog2 (2 ^ 5) = 5 ∧ 2 ^ uilog2 (2 ^ 5) = 2 ^ 5 :=
  ⟨by decide, uilog2_power_of_two 5 (by decide)⟩

/-- C13, refuted as stated: `uilog2` returns a `size_t` on the values 0, 3 and 6, none
of them a power of two; it has no failing path. -/
theorem uilog2_returns_on_non_powers : uilog2 0 = 0 ∧ uilog2 3 = 2 ∧ uilog2 6 = 3 := by
  refine ⟨uilog2_zero, ?_, ?_⟩ <;> simp [uilog2, uilog2_loop_eq, Nat.log2]

/-- C13, amended: on a value `N < 2 ^ 64` that is not a power of two `uilog2` does not
fail; it returns 0 for `N = 0` and otherwise the binary logarithm rounded up, the `r` with
`2 ^ (r - 1) < N < 2 ^ r`. -/
theorem uilog2_rounds_up (N : Nat) (h64 : N < 2 ^ 64) (hnp : ∀ p, N ≠ 2 ^ p) :
    (N = 0 → uilog2 N = 0) ∧
    (0 < N → uilog2 N = Nat.log2 N + 1 ∧ 2 ^ (uilog2 N - 1) < N ∧ N < 2 ^ uilog2 N) := by
  constructor
  · intro h; subst h; exact uilog2_zero
  · intro hpos
    have hN : N ≠ 0 := by omega
    rw [uilog2_not_two_pow N hpos h64 hnp, Nat.add_sub_cancel]
    refine ⟨rfl, ?_, Nat.lt_log2_self⟩
    exact lt_of_le_of_ne (Nat.log2_self_le hN) (fun h => hnp _ h.symm)

/-- The instance `N = 6` of `uilog2_rounds_up`. -/
theorem uilog2_rounds_up_witness :
    6 < 2 ^ 64 ∧ (∀ p, 6 ≠ 2 ^ p) ∧
    ((6 = 0 → uilog2 6 = 0) ∧
     (0 < 6 → uilog2 6 = Nat.log2 6 + 1 ∧ 2 ^ (uilog2 6 - 1) < 6 ∧ 6 < 2 ^ uilog2 6)) :=
  ⟨by norm_num, six_ne_two_pow, uilog2_rounds_up 6 (by norm_num) six_ne_two_pow⟩

/-- C11: in exact arithmetic both transforms return `[0, 2, 0, 2]` on the signal
`[1, 0, -1, 0]`. -/
theorem transforms_known_sequence :
    DiscreteFourierTransform CMath.exact (ofList [1, 0, -1, 0]) =
      .ok (ofList [⟨0, 0⟩, ⟨2, 0⟩, ⟨0, 0⟩, ⟨2, 0⟩]) ∧
    FastFourierTransform CMath.exact (ofList [1, 0, -1, 0]) =
      .ok (ofList [⟨0, 0⟩, ⟨2, 0⟩, ⟨0, 0⟩, ⟨2, 0⟩]) :=
  ⟨dft_known, fft_known⟩

/-- C17, refuted as stated: for `N = 4`, `x = [0, 1, 0, 0]`, stage `s = 1`, block start
`k = 0` and `j = 1`.  The copy leaves `[0, 0, 1, 0]`; after the stages 0 and 1
`output[1]` is `-i`, while coefficient 1 of the 4-point transform of the held values
`[0, 0, 1, 0]`, in the order they are held, is `-1`. -/
theorem stage_invariant_held_order_fails :
    (List.range 4).foldlM (bitReverseStep (ofList ([0, 1, 0, 0] : List ℝ)) 2) (ofSize 4) =
      .ok (ofList [⟨0, 0⟩, ⟨0, 0⟩, ⟨1, 0⟩, ⟨0, 0⟩]) ∧
    ∃ output : List (complex ℝ),
      (List.range 2).foldlM (stage CMath.exact 4) (ofList [⟨0, 0⟩, ⟨0, 0⟩, ⟨1, 0⟩, ⟨0, 0⟩]) =
        .ok (ofList output) ∧
      output.getD (0 + 1) 0 ≠
        ∑ t in Finset.range 4,
          ([⟨0, 0⟩, ⟨0, 0⟩, ⟨1, 0⟩, ⟨0, 0⟩] : List (complex ℝ)).getD (0 + t) 0 *
            (complex.ofReal (CMath.exact.cos
                (CMath.exact.M_PI * 2 * ((1 : Nat) : ℝ) * (t : ℝ) / ((4 : Nat) : ℝ))) -
              complex.I * complex.ofReal (CMath.exact.sin
                (CMath.exact.M_PI * 2 * ((1 : Nat) : ℝ) * (t : ℝ) / ((4 : Nat) : ℝ)))) := by
  refine ⟨copy_example, ?_⟩
  obtain ⟨output, hrun, hval⟩ := stages_example
  refine ⟨output, hrun, ?_⟩
  rw [hval, held_order_example]
  intro h
  have hre := congrArg complex.re h
  norm_num at hre

/-- C17, amended: in exact arithmetic, for a signal of length `2 ^ p` (`p ≤ 63`) and a
stage `s < p` with `s ≤ 29`: after the bit-reversal copy and the stages `0, ..., s`,
for every block start `k < 2 ^ p` that is a multiple of `m = 2 ^ (s + 1)` and every
`j < m`, `output[k + j]` is coefficient `j` of the `m`-point transform of the values the
copy left in the block, taken in bit-reversed order: sample `t` is the value at
`k + reverse_bits(t, s + 1)`. -/
theorem stage_invariant (p s : Nat) (hp : p ≤ 63) (hs : s < p) (hs29 : s ≤ 29) (x : List ℝ)
    (hx : x.length = 2 ^ p) :
    ∃ copied output : List (complex ℝ),
      (List.range (ofList x).Size).foldlM (bitReverseStep (ofList x) p)
        (ofSize (ofList x).Size) = .ok (ofList copied) ∧
      (∀ i, i < 2 ^ p → ∃ r, reverse_bits i p = .ok r ∧
        copied[r]? = some (complex.ofReal (x.getD i 0))) ∧
      (List.range (s + 1)).foldlM (stage CMath.exact (2 ^ p)) (ofList copied) =
        .ok (ofList output) ∧
      (∀ t : Nat, reverse_bits t (s + 1) = .ok (revBits (s + 1) t)) ∧
      ∀ k j : Nat, k < 2 ^ p → 2 ^ (s + 1) ∣ k → j < 2 ^ (s + 1) →
        output[k + j]? = some (∑ t in Finset.range (2 ^ (s + 1)),
          copied.getD (k + revBits (s + 1) t) 0 *
            (complex.ofReal (CMath.exact.cos
                (CMath.exact.M_PI * 2 * (j : ℝ) * (t : ℝ) / ((2 ^ (s + 1) : Nat) : ℝ))) -
              complex.I * complex.ofReal (CMath.exact.sin
                (CMath.exact.M_PI * 2 * (j : ℝ) * (t : ℝ) / ((2 ^ (s + 1) : Nat) : ℝ))))) := by
  obtain ⟨l0, hcopy, hlen0, hval0⟩ := bitReverseCopy_spec x p (by omega) hx (2 ^ p) (le_refl _)
  obtain ⟨l, hrun, hlen, hinv⟩ := stages_spec_wide CMath.exact p hp
    (fun s _ => twiddle_exact_sq s) (fun s _ => twiddle_exact_half s) l0 hlen0 (s + 1)
    (by omega) (by omega)
  refine ⟨l0, l, by rw [Size_ofList, hx]; exact hcopy, ?_, hrun,
    fun t => reverse_bits_eq (s + 1) (by omega) t, ?_⟩
  · intro i hi
    refine ⟨revBits p i, reverse_bits_eq p (by omega) i, ?_⟩
    have h := hval0 i hi
    rw [List.getD_eq_getElem?_getD] at h
    have hr : revBits p i < l0.length := by rw [hlen0]; exact revBits_lt p i
    rw [List.getElem?_eq_getElem hr] at h ⊢
    exact congrArg some h
  · intro k j hk hdvd hj
    obtain ⟨b, rfl⟩ := hdvd
    have hpow : 2 ^ p = 2 ^ (s + 1) * 2 ^ (p - (s + 1)) := by
      rw [← pow_add]; congr 1; omega
    have hb : b < 2 ^ (p - (s + 1)) := by
      rw [hpow] at hk
      exact Nat.lt_of_mul_lt_mul_left hk
    have hlt : 2 ^ (s + 1) * b + j < l.length := by
      rw [hlen, hpow]
      calc 2 ^ (s + 1) * b + j < 2 ^ (s + 1) * b + 2 ^ (s + 1) := by omega
        _ = 2 ^ (s + 1) * (b + 1) := by ring
        _ ≤ 2 ^ (s + 1) * 2 ^ (p - (s + 1)) := Nat.mul_le_mul_left _ (by omega)
    have h := hinv b j hb hj
    rw [Nat.mul_comm b, subDFT_exact, List.getD_eq_getElem?_getD,
      List.getElem?_eq_getElem hlt] at h
    rw [List.getElem?_eq_getElem hlt]
    exact congrArg some h

/-- The instance `p = 2`, `s = 1`, `x = [0, 1, 0, 0]` of `stage_invariant`. -/
theorem stage_invariant_witness :
    2 ≤ 63 ∧ 1 < 2 ∧ 1 ≤ 29 ∧ ([0, 1, 0, 0] : List ℝ).length = 2 ^ 2 ∧
    ∃ copied output : List (complex ℝ),
      (List.range (ofList ([0, 1, 0, 0] : List ℝ)).Size).foldlM
        (bitReverseStep (ofList [0, 1, 0, 0]) 2)
        (ofSize (ofList ([0, 1, 0, 0] : List ℝ)).Size) = .ok (ofList copied) ∧
      (∀ i, i < 2 ^ 2 → ∃ r, reverse_bits i 2 = .ok r ∧
        copied[r]? = some (complex.ofReal (([0, 1, 0, 0] : List ℝ).getD i 0))) ∧
      (List.range (1 + 1)).foldlM (stage CMath.exact (2 ^ 2)) (ofList copied) =
        .ok (ofList output) ∧
      (∀ t : Nat, reverse_bits t (1 + 1) = .ok (revBits (1 + 1) t)) ∧
      ∀ k j : Nat, k < 2 ^ 2 → 2 ^ (1 + 1) ∣ k → j < 2 ^ (1 + 1) →
        output[k + j]? = some (∑ t in Finset.range (2 ^ (1 + 1)),
          copied.getD (k + revBits (1 + 1) t) 0 *
            (complex.ofReal (CMath.exact.cos
                (CMath.exact.M_PI * 2 * (j : ℝ) * (t : ℝ) / ((2 ^ (1 + 1) : Nat) : ℝ))) -
              complex.I * complex.ofReal (CMath.exact.sin
                (CMath.exact.M_PI * 2 * (j : ℝ) * (t : ℝ) / ((2 ^ (1 + 1) : Nat) : ℝ))))) :=
  ⟨by decide, by decide, by decide, rfl, stage_invariant 2 1 (by decide) (by decide) (by decide)
    [0, 1, 0, 0] rfl⟩

/-- C18, at the failing input: for a signal of `2 ^ 31` samples the last stage computes
`m = 1 << 31` as `2 ^ 64 - 2 ^ 31`; its first butterfly indexes `output[k + j + m / 2]`
with `k = j = 0`, an index of at least `2 ^ 31`, and the call ends in the failed bounds
assertion of `operator[]`. -/
theorem bounds_assertion_fails :
    shl_int_one (30 + 1) = .ok (2 ^ 64 - 2 ^ 31) ∧
    2 ^ 31 ≤ (0 + 0 + (2 ^ 64 - 2 ^ 31) / 2) % 2 ^ 64 ∧
    FastFourierTransform CMath.exact (ofList (List.replicate (2 ^ 31) (1 : ℝ))) =
      .error .OutOfRange :=
  ⟨shl_int_one_31, by norm_num, fft_out_of_range _ _ (List.length_replicate _ _)⟩

/-- C19, at the failing input: a signal of `2 ^ 31` samples has 31 stages, and in the
last one, `s = 30`, the expression `1 << (s + 1)` stored in `m` is `2 ^ 64 - 2 ^ 31`, not
`2 ^ 31`. -/
theorem segment_length_stage_30 :
    log2_unsigned (2 ^ 31) = .ok 31 ∧
    shl_int_one (30 + 1) = .ok 18446744071562067968 ∧
    (18446744071562067968 : Nat) ≠ 2 ^ (30 + 1) :=
  ⟨log2_unsigned_two_pow 31, shl_int_one_31, by norm_num⟩

/-- C20: within a stage with segment length `m = 2 ^ (s + 1)`, on a buffer of
`Q * m < 2 ^ 64` slots: the pass over the segment starting at `k` leaves every slot
outside `[k, k + m)` unchanged and its results depend only on the slots inside; the
passes of two distinct segments commute; and the passes taken in any order of the
segment starts give the buffer that the segment loop of the source gives. -/
theorem segment_passes_independent {F : Type} [Field F] (w_m : complex F) (s Q : Nat)
    (l : List (complex F)) (hl : l.length = Q * 2 ^ (s + 1)) (h64 : l.length < 2 ^ 64) :
    (∀ k, 2 ^ (s + 1) ∣ k → k < l.length →
      ∃ l' : List (complex F),
        segment w_m (2 ^ (s + 1)) k (ofList l) = .ok (ofList l') ∧
        l'.length = l.length ∧
        (∀ i, (i < k ∨ k + 2 ^ (s + 1) ≤ i) → l'[i]? = l[i]?) ∧
        (∀ z : List (complex F), z.length = l.length →
          (∀ i, k ≤ i → i < k + 2 ^ (s + 1) → z[i]? = l[i]?) →
          ∃ z' : List (complex F),
            segment w_m (2 ^ (s + 1)) k (ofList z) = .ok (ofList z') ∧
            ∀ i, k ≤ i → i < k + 2 ^ (s + 1) → z'[i]? = l'[i]?)) ∧
    (∀ k1 k2, 2 ^ (s + 1) ∣ k1 → 2 ^ (s + 1) ∣ k2 → k1 < l.length → k2 < l.length →
      k1 ≠ k2 →
      (segment w_m (2 ^ (s + 1)) k1 (ofList l) >>= segment w_m (2 ^ (s + 1)) k2) =
        (segment w_m (2 ^ (s + 1)) k2 (ofList l) >>= segment w_m (2 ^ (s + 1)) k1)) ∧
    (∃ l' : List (complex F),
      segments w_m (2 ^ (s + 1)) l.length l.length 0 (ofList l) = .ok (ofList l') ∧
      ∀ ks : List Nat, ks.Perm ((List.range Q).map (fun c => c * 2 ^ (s + 1))) →
        ks.foldlM (fun output k => segment w_m (2 ^ (s + 1)) k output) (ofList l) =
          .ok (ofList l')) := by
  have hm : 0 < 2 ^ (s + 1) := Nat.two_pow_pos _
  have hev : 2 * (2 ^ (s + 1) / 2) = 2 ^ (s + 1) := by
    rw [pow_succ]; omega
  have hin : ∀ k, 2 ^ (s + 1) ∣ k → k < l.length → k + 2 * (2 ^ (s + 1) / 2) ≤ l.length := by
    intro k hd hk
    rw [hev, hl]
    exact multiple_add_le _ _ _ hd (by rw [← hl]; exact hk)
  refine ⟨?_, ?_, ?_⟩
  · intro k hd hk
    refine ⟨segmentList w_m (2 ^ (s + 1)) k l, segment_eq w_m _ k l (hin k hd hk) h64,
      length_segmentList _ _ _ _, ?_, ?_⟩
    · intro i hi
      exact getElem?_eq_of_getD 0 _ _ (length_segmentList _ _ _ _) i
        (getD_segmentList_outside w_m _ k l i (by rw [hev]; exact hi))
    · intro z hz hag
      refine ⟨segmentList w_m (2 ^ (s + 1)) k z,
        segment_eq w_m _ k z (by rw [hz]; exact hin k hd hk) (by rw [hz]; exact h64), ?_⟩
      intro i hi1 hi2
      apply getElem?_eq_of_getD 0 _ _ (by rw [length_segmentList, length_segmentList, hz]) i
      exact segmentList_reads w_m _ k l z hz
        (fun j hj1 hj2 => getD_eq_of_getElem? 0 _ _ j (hag j hj1 (by rw [← hev]; exact hj2)))
        i ⟨hi1, by rw [hev]; exact hi2⟩
  · intro k1 k2 hd1 hd2 hk1 hk2 hne
    have hdis := multiples_disjoint _ k1 k2 hd1 hd2 hne
    rw [segment_eq w_m _ k1 l (hin k1 hd1 hk1) h64, segment_eq w_m _ k2 l (hin k2 hd2 hk2) h64,
      ok_bind, ok_bind,
      segment_eq w_m _ k2 _ (by rw [length_segmentList]; exact hin k2 hd2 hk2)
        (by rw [length_segmentList]; exact h64),
      segment_eq w_m _ k1 _ (by rw [length_segmentList]; exact hin k1 hd1 hk1)
        (by rw [length_segmentList]; exact h64),
      segmentList_comm w_m _ k1 k2 l (by rw [hev]; exact hdis)]
  · have hloop := segments_eq_foldl w_m (2 ^ (s + 1)) Q hm hev (by rw [← hl]; exact h64)
      (Q * 2 ^ (s + 1)) 0 l (Nat.zero_le _)
      (by rw [Nat.sub_zero]; exact Nat.le_mul_of_pos_right Q hm) hl
    rw [Nat.zero_mul, Nat.sub_zero, ← List.range_eq_range'] at hloop
    refine ⟨_, by rw [hl]; exact hloop, ?_⟩
    intro ks hperm
    have hmem : ∀ k, k ∈ ks → k + 2 * (2 ^ (s + 1) / 2) ≤ Q * 2 ^ (s + 1) := by
      intro k hk
      have hk' := hperm.mem_iff.mp hk
      obtain ⟨c, hc, rfl⟩ := List.mem_map.mp hk'
      rw [hev]
      calc c * 2 ^ (s + 1) + 2 ^ (s + 1) = (c + 1) * 2 ^ (s + 1) := by ring
        _ ≤ Q * 2 ^ (s + 1) := Nat.mul_le_mul_right _ (List.mem_range.mp hc)
    rw [foldlM_segment w_m _ (Q * 2 ^ (s + 1)) (by rw [← hl]; exact h64) ks hmem l hl]
    congr 2
    apply List.Perm.foldl_eq' hperm
    intro x hx y hy z
    by_cases hxy : x = y
    · rw [hxy]
    · have hx' := hperm.mem_iff.mp hx
      have hy' := hperm.mem_iff.mp hy
      obtain ⟨c1, _, rfl⟩ := List.mem_map.mp hx'
      obtain ⟨c2, _, rfl⟩ := List.mem_map.mp hy'
      have hdis := multiples_disjoint (2 ^ (s + 1)) _ _ ⟨c1, Nat.mul_comm _ _⟩
        ⟨c2, Nat.mul_comm _ _⟩ hxy
      exact segmentList_comm w_m _ _ _ z (by rw [hev]; exact hdis)

/-- The instance of `segment_passes_independent` for stage 0 on the buffer
`[1, 2, 3, 4]` over the rationals, with `w_m = -1`. -/
theorem segment_passes_independent_witness :
    sampleBuffer.length = 2 * 2 ^ (0 + 1) ∧
    sampleBuffer.length < 2 ^ 64 ∧
    ((∀ k, 2 ^ (0 + 1) ∣ k → k < sampleBuffer.length →
      ∃ l' : List (complex ℚ),
        segment sampleTwiddle (2 ^ (0 + 1)) k (ofList sampleBuffer) = .ok (ofList l') ∧
        l'.length = sampleBuffer.length ∧
        (∀ i, (i < k ∨ k + 2 ^ (0 + 1) ≤ i) → l'[i]? = sampleBuffer[i]?) ∧
        (∀ z : List (complex ℚ), z.length = sampleBuffer.length →
          (∀ i, k ≤ i → i < k + 2 ^ (0 + 1) → z[i]? = sampleBuffer[i]?) →
          ∃ z' : List (complex ℚ),
            segment sampleTwiddle (2 ^ (0 + 1)) k (ofList z) = .ok (ofList z') ∧
            ∀ i, k ≤ i → i < k + 2 ^ (0 + 1) → z'[i]? = l'[i]?)) ∧
    (∀ k1 k2, 2 ^ (0 + 1) ∣ k1 → 2 ^ (0 + 1) ∣ k2 →
      k1 < sampleBuffer.length → k2 < sampleBuffer.length → k1 ≠ k2 →
      (segment sampleTwiddle (2 ^ (0 + 1)) k1 (ofList sampleBuffer) >>=
          segment sampleTwiddle (2 ^ (0 + 1)) k2) =
        (segment sampleTwiddle (2 ^ (0 + 1)) k2 (ofList sampleBuffer) >>=
          segment sampleTwiddle (2 ^ (0 + 1)) k1)) ∧
    (∃ l' : List (complex ℚ),
      segments sampleTwiddle (2 ^ (0 + 1)) sampleBuffer.length sampleBuffer.length 0
          (ofList sampleBuffer) = .ok (ofList l') ∧
      ∀ ks : List Nat, ks.Perm ((List.range 2).map (fun c => c * 2 ^ (0 + 1))) →
        ks.foldlM (fun output k => segment sampleTwiddle (2 ^ (0 + 1)) k output)
            (ofList sampleBuffer) =
          .ok (ofList l'))) :=
  ⟨rfl, by decide, segment_passes_independent sampleTwiddle 0 2 sampleBuffer rfl (by decide)⟩

end Transforms
